import Mathlib

/-! RegexMatchCache.

A shallow embedding of `folly/container/RegexMatchCache.cpp`.

* Unordered maps are association lists, unordered sets are lists; a loop over
  a container visits the list in order.
* A `regex_pointer` points at the key stored in `cacheRegexToMatch_`, so it is
  modelled by the regex text itself; a `string_pointer` is an abstract
  identifier of type `S`.
* The regex engine (`boost::regex`) is external: `Env.compile` says whether the
  `RegexObject` constructor succeeds and `Env.eval` what `operator()` returns
  (`none` when it throws).
* A call either returns, leaves with an exception (after the scope guard has
  run `repair`), fails a `CHECK`, or dereferences a missing entry.
-/

set_option linter.unusedSectionVars false
set_option linter.unusedVariables false

namespace folly

/-! ## Containers -/

section Containers

variable {K V : Type} [DecidableEq K]

/-- Lookup of a key in an unordered map (`find` / `folly::get_ptr`): the mapped
value, or `none` for `end()` / `nullptr`. -/
def get_ptr : List (K × V) → K → Option V
  | [], _ => none
  | (a, v) :: t, k => if a = k then some v else get_ptr t k

/-- Membership of a key in an unordered map (`contains`). -/
def mapContains (m : List (K × V)) (k : K) : Bool := (get_ptr m k).isSome

/-- Removal of a key from an unordered map (`erase`). -/
def mapErase (m : List (K × V)) (k : K) : List (K × V) :=
  m.filter (fun p => decide (p.1 ≠ k))

/-- Insertion of a fresh key with a given value, doing nothing when the key is
already present (`try_emplace`). -/
def try_emplace (m : List (K × V)) (k : K) (v : V) : List (K × V) :=
  if mapContains m k then m else m ++ [(k, v)]

/-- In-place mutation of the value mapped to a key (through an iterator or a
reference to the entry). -/
def mapModify (m : List (K × V)) (k : K) (f : V → V) : List (K × V) :=
  m.map (fun p => if p.1 = k then (p.1, f p.2) else p)

/-- The keys of an unordered map, in iteration order. -/
def mapKeys (m : List (K × V)) : List K := m.map Prod.fst

/-- Insertion into an unordered set (`insert`). -/
def setInsert (xs : List K) (x : K) : List K := if x ∈ xs then xs else xs ++ [x]

/-- Removal from an unordered set (`erase`). -/
def setErase (xs : List K) (x : K) : List K := xs.filter (fun y => decide (y ≠ x))

end Containers

/-! ## Data model -/

/-- The clock value `time_point`; only compared and maximised. -/
abbrev time_point := Int

/-- The entry of `cacheRegexToMatch_`: the strings the regex is known to match
and the time of the last query. -/
structure RegexEntry (S : Type) where
  matches_ : List S
  accessed_at : time_point
deriving DecidableEq, Repr

/-- The four maps of the cache.  The entries of `cacheMatchToRegex_`,
`stringQueueForward_` and `stringQueueReverse_` each hold one set (`regexes`,
`regexes`, `strings`), which stands for the entry. -/
structure RegexMatchCache (R S : Type) where
  cacheRegexToMatch_ : List (R × RegexEntry S)
  cacheMatchToRegex_ : List (S × List R)
  stringQueueForward_ : List (S × List R)
  stringQueueReverse_ : List (R × List S)
deriving DecidableEq, Repr

/-- The external collaborators and build parameters of the cache: the regex
engine, the `kIsDebug` flag, and the value of a default-constructed
`accessed_at`. -/
structure Env (R S : Type) where
  compile : R → Bool
  eval : R → S → Option Bool
  kIsDebug : Bool
  epoch : time_point

/-- What the external matcher says about a pattern and a string: the pattern
compiles and matching the string returns true. -/
def Env.says {R S : Type} (E : Env R S) (r : R) (s : S) : Bool :=
  E.compile r && (E.eval r s == some true)

/-- How a call ends. `returned`: normally, in the given state. `threw`: with an
exception; inside a loop the state is the one at the throw, for a whole
operation it is the state its caller observes. `checkFailed`: a `CHECK`
aborted the process. `badDeref`: a `nullptr` or `end()` was dereferenced. -/
inductive Outcome (σ : Type) where
  | returned (s : σ)
  | threw (s : σ)
  | checkFailed
  | badDeref
deriving DecidableEq, Repr

/-- The state in which a call leaves the cache, when the process survives. -/
def Outcome.state? {σ : Type} : Outcome σ → Option σ
  | .returned s => some s
  | .threw s => some s
  | .checkFailed => none
  | .badDeref => none

/-- Sequencing of two steps: the second runs only when the first returned. -/
def Outcome.andThen {σ : Type} (o : Outcome σ) (f : σ → Outcome σ) : Outcome σ :=
  match o with
  | .returned s => f s
  | .threw s => .threw s
  | .checkFailed => .checkFailed
  | .badDeref => .badDeref

section Cache

variable {R S : Type} [DecidableEq R] [DecidableEq S]

/-- The cache as default-constructed. -/
def RegexMatchCache.empty : RegexMatchCache R S := ⟨[], [], [], []⟩

/-- `RegexMatchCache::repair`. -/
def repair (c : RegexMatchCache R S) : RegexMatchCache R S :=
  { stringQueueReverse_ := []
    stringQueueForward_ := []
    cacheMatchToRegex_ := c.cacheMatchToRegex_.map (fun p => (p.1, []))
    cacheRegexToMatch_ := [] }

/-- The scope guard `makeGuard(bind(&repair, this))`: an exception leaving the
operation runs `repair` on the state reached so far. -/
def guarded (o : Outcome (RegexMatchCache R S)) : Outcome (RegexMatchCache R S) :=
  match o with
  | .threw s => .threw (repair s)
  | o => o

/-- `RegexMatchCache::hasRegex`. -/
def hasRegex (c : RegexMatchCache R S) (regex : R) : Bool :=
  mapContains c.cacheRegexToMatch_ regex

/-- `RegexMatchCache::hasString`. -/
def hasString (c : RegexMatchCache R S) (string : S) : Bool :=
  mapContains c.cacheMatchToRegex_ string || mapContains c.stringQueueForward_ string

/-- `RegexMatchCache::isReadyToFindMatches`. -/
def isReadyToFindMatches (c : RegexMatchCache R S) (regex : R) : Bool :=
  mapContains c.cacheRegexToMatch_ regex && !mapContains c.stringQueueReverse_ regex

/-- `RegexMatchCache::getRegexList`. -/
def getRegexList (c : RegexMatchCache R S) : List R := mapKeys c.cacheRegexToMatch_

/-- `RegexMatchCache::getStringList`. -/
def getStringList (c : RegexMatchCache R S) : List S := mapKeys c.cacheMatchToRegex_

/-- The body of the loop of `addRegex`, for one known string. -/
def addRegexBody (regexp : R) (c : RegexMatchCache R S) (string : S) : RegexMatchCache R S :=
  { c with
    stringQueueForward_ :=
      mapModify (try_emplace c.stringQueueForward_ string []) string (fun e => setInsert e regexp)
    stringQueueReverse_ :=
      mapModify c.stringQueueReverse_ regexp (fun e => setInsert e string) }

/-- `RegexMatchCache::addRegex`. -/
def addRegex (epoch : time_point) (c : RegexMatchCache R S) (regex : R) :
    Outcome (RegexMatchCache R S) :=
  let rtminserted := !mapContains c.cacheRegexToMatch_ regex
  if !rtminserted then .returned c
  else
    let c1 := { c with cacheRegexToMatch_ := try_emplace c.cacheRegexToMatch_ regex ⟨[], epoch⟩ }
    if c1.cacheMatchToRegex_.isEmpty then .returned c1
    else
      let sqrinserted := !mapContains c1.stringQueueReverse_ regex
      if !sqrinserted then .checkFailed
      else
        let c2 := { c1 with stringQueueReverse_ := try_emplace c1.stringQueueReverse_ regex [] }
        .returned ((mapKeys c2.cacheMatchToRegex_).foldl (addRegexBody regex) c2)

/-- The first loop of `eraseRegex`: drop the regex from the entry of each of
its matches. -/
def eraseRegexMatches (regexp : R) :
    List S → RegexMatchCache R S → Outcome (RegexMatchCache R S)
  | [], c => .returned c
  | m :: rest, c =>
    match get_ptr c.cacheMatchToRegex_ m with
    | none => .badDeref
    | some _ =>
      eraseRegexMatches regexp rest
        { c with cacheMatchToRegex_ :=
            mapModify c.cacheMatchToRegex_ m (fun e => setErase e regexp) }

/-- The second loop of `eraseRegex`: drop the regex from the forward queue of
each of its pending strings, erasing a queue entry that becomes empty. -/
def eraseRegexQueue (regexp : R) :
    List S → RegexMatchCache R S → Outcome (RegexMatchCache R S)
  | [], c => .returned c
  | string :: rest, c =>
    match get_ptr c.stringQueueForward_ string with
    | none => .badDeref
    | some e =>
      if (setErase e regexp).isEmpty then
        eraseRegexQueue regexp rest
          { c with stringQueueForward_ := mapErase c.stringQueueForward_ string }
      else
        eraseRegexQueue regexp rest
          { c with stringQueueForward_ :=
              mapModify c.stringQueueForward_ string (fun e => setErase e regexp) }

/-- The queue part of `eraseRegex`: when the regex has a reverse queue entry,
run the second loop and erase the entry. -/
def eraseRegexPending (regexp : R) (c : RegexMatchCache R S) : Outcome (RegexMatchCache R S) :=
  match get_ptr c.stringQueueReverse_ regexp with
  | some strings =>
    (eraseRegexQueue regexp strings c).andThen fun c1 =>
      .returned { c1 with stringQueueReverse_ := mapErase c1.stringQueueReverse_ regexp }
  | none => .returned c

/-- `RegexMatchCache::eraseRegex`. -/
def eraseRegex (c : RegexMatchCache R S) (regex : R) : Outcome (RegexMatchCache R S) :=
  match get_ptr c.cacheRegexToMatch_ regex with
  | none => .returned c
  | some rtmentry =>
    guarded <|
      (eraseRegexMatches regex rtmentry.matches_ c).andThen fun c1 =>
      (eraseRegexPending regex c1).andThen fun c2 =>
      .returned { c2 with cacheRegexToMatch_ := mapErase c2.cacheRegexToMatch_ regex }

/-- The body of the loop of `addString`, for one registered regex. -/
def addStringBody (string : S) (c : RegexMatchCache R S) (regex : R) : RegexMatchCache R S :=
  { c with
    stringQueueForward_ :=
      mapModify c.stringQueueForward_ string (fun e => setInsert e regex)
    stringQueueReverse_ :=
      mapModify (try_emplace c.stringQueueReverse_ regex []) regex (fun e => setInsert e string) }

/-- `RegexMatchCache::addString`. -/
def addString (c : RegexMatchCache R S) (string : S) : Outcome (RegexMatchCache R S) :=
  if mapContains c.cacheMatchToRegex_ string then .returned c
  else
    let c1 := { c with cacheMatchToRegex_ := try_emplace c.cacheMatchToRegex_ string [] }
    if c1.cacheRegexToMatch_.isEmpty then .returned c1
    else
      let sqfinserted := !mapContains c1.stringQueueForward_ string
      if !sqfinserted then .checkFailed
      else
        let c2 := { c1 with stringQueueForward_ := try_emplace c1.stringQueueForward_ string [] }
        .returned ((mapKeys c2.cacheRegexToMatch_).foldl (addStringBody string) c2)

/-- The first loop of `eraseString`: drop the string from the reverse queue of
each regex pending on it, erasing a queue entry that becomes empty. -/
def eraseStringQueue (string : S) :
    List R → RegexMatchCache R S → Outcome (RegexMatchCache R S)
  | [], c => .returned c
  | regex :: rest, c =>
    match get_ptr c.stringQueueReverse_ regex with
    | none => .badDeref
    | some e =>
      if (setErase e string).isEmpty then
        eraseStringQueue string rest
          { c with stringQueueReverse_ := mapErase c.stringQueueReverse_ regex }
      else
        eraseStringQueue string rest
          { c with stringQueueReverse_ :=
              mapModify c.stringQueueReverse_ regex (fun e => setErase e string) }

/-- The second loop of `eraseString`: drop the string from the match set of
each regex confirmed to match it. -/
def eraseStringMatches (string : S) :
    List R → RegexMatchCache R S → Outcome (RegexMatchCache R S)
  | [], c => .returned c
  | regex :: rest, c =>
    match get_ptr c.cacheRegexToMatch_ regex with
    | none => .badDeref
    | some _ =>
      eraseStringMatches string rest
        { c with
          cacheRegexToMatch_ :=
            mapModify c.cacheRegexToMatch_ regex
              (fun e => { e with matches_ := setErase e.matches_ string }) }

/-- The queue part of `eraseString`: when the string has a forward queue
entry, run the first loop and erase the entry. -/
def eraseStringPending (string : S) (c : RegexMatchCache R S) : Outcome (RegexMatchCache R S) :=
  match get_ptr c.stringQueueForward_ string with
  | some regexes =>
    (eraseStringQueue string regexes c).andThen fun c1 =>
      .returned { c1 with stringQueueForward_ := mapErase c1.stringQueueForward_ string }
  | none => .returned c

/-- The cache part of `eraseString`: when the string is known, run the second
loop and erase its entry. -/
def eraseStringCached (string : S) (c : RegexMatchCache R S) : Outcome (RegexMatchCache R S) :=
  match get_ptr c.cacheMatchToRegex_ string with
  | some regexes =>
    (eraseStringMatches string regexes c).andThen fun c1 =>
      .returned { c1 with cacheMatchToRegex_ := mapErase c1.cacheMatchToRegex_ string }
  | none => .returned c

/-- `RegexMatchCache::eraseString`. -/
def eraseString (c : RegexMatchCache R S) (string : S) : Outcome (RegexMatchCache R S) :=
  guarded <|
    (eraseStringPending string c).andThen fun c1 => eraseStringCached string c1

/-- The exceptions of the query functions. -/
inductive QueryError where
  | logic_error
  | out_of_range
  | regex_error
deriving DecidableEq, Repr

/-- The loop of `findMatchesUncached` over the known strings: the strings the
pattern matches so far, or the exception of the engine. -/
def findMatchesUncachedLoop (E : Env R S) (regex : R) : List S → List S → Except QueryError (List S)
  | [], result => .ok result
  | string :: rest, result =>
    match E.eval regex string with
    | none => .error .regex_error
    | some true => findMatchesUncachedLoop E regex rest (result ++ [string])
    | some false => findMatchesUncachedLoop E regex rest result

/-- `RegexMatchCache::findMatchesUncached`. -/
def findMatchesUncached (E : Env R S) (c : RegexMatchCache R S) (regex : R) :
    Except QueryError (List S) :=
  if !E.compile regex then .error .regex_error
  else findMatchesUncachedLoop E regex (mapKeys c.cacheMatchToRegex_) []

/-- The two insertions made for a string the regex matches:
`rtmentry.matches.insert(string); mtrentry.regexes.insert(regexp)`. -/
def confirm (regexp : R) (string : S) (c : RegexMatchCache R S) : RegexMatchCache R S :=
  { c with
    cacheRegexToMatch_ :=
      mapModify c.cacheRegexToMatch_ regexp
        (fun e => { e with matches_ := setInsert e.matches_ string })
    cacheMatchToRegex_ :=
      mapModify c.cacheMatchToRegex_ string (fun e => setInsert e regexp) }

/-- The loop of `prepareToFindMatches` for a new regex, over all known strings.
The second component of the state lists the strings the matcher was run on. -/
def prepareNew (E : Env R S) (regex : R) :
    List S → RegexMatchCache R S × List S → Outcome (RegexMatchCache R S × List S)
  | [], st => .returned st
  | string :: rest, (c, evals) =>
    match E.eval regex string with
    | none => .threw (c, evals ++ [string])
    | some b =>
      prepareNew E regex rest ((if b then confirm regex string c else c), evals ++ [string])

/-- The loop of `prepareToFindMatches` for an old regex, over its queue. -/
def prepareOld (E : Env R S) (regex : R) :
    List S → RegexMatchCache R S × List S → Outcome (RegexMatchCache R S × List S)
  | [], st => .returned st
  | string :: rest, (c, evals) =>
    match get_ptr c.stringQueueForward_ string with
    | none => .checkFailed
    | some e =>
      if regex ∉ e then .checkFailed
      else
        let c1 : RegexMatchCache R S :=
          { c with
            stringQueueForward_ :=
              if (setErase e regex).isEmpty then mapErase c.stringQueueForward_ string
              else mapModify c.stringQueueForward_ string (fun e => setErase e regex) }
        match get_ptr c1.cacheMatchToRegex_ string with
        | none => .checkFailed
        | some _ =>
          match E.eval regex string with
          | none => .threw (c1, evals ++ [string])
          | some b =>
            prepareOld E regex rest
              ((if b then confirm regex string c1 else c1), evals ++ [string])

/-- The scope guard of `prepareToFindMatches`, with the list of evaluations
carried along. -/
def guardedEvals (o : Outcome (RegexMatchCache R S × List S)) :
    Outcome (RegexMatchCache R S × List S) :=
  match o with
  | .threw st => .threw (repair st.1, st.2)
  | o => o

/-- `RegexMatchCache::prepareToFindMatches`: the outcome, with the strings on
which the matcher was run. -/
def prepareToFindMatches (E : Env R S) (c : RegexMatchCache R S) (regex : R) :
    Outcome (RegexMatchCache R S × List S) :=
  let inserted := !mapContains c.cacheRegexToMatch_ regex
  let c0 := { c with cacheRegexToMatch_ := try_emplace c.cacheRegexToMatch_ regex ⟨[], E.epoch⟩ }
  guardedEvals <|
    if inserted then
      if mapContains c0.stringQueueReverse_ regex then .checkFailed
      else if c0.cacheMatchToRegex_.isEmpty then
        if !c0.stringQueueForward_.isEmpty then .checkFailed
        else if !c0.stringQueueReverse_.isEmpty then .checkFailed
        else .returned (c0, [])
      else if !E.compile regex then .threw (c0, [])
      else prepareNew E regex (mapKeys c0.cacheMatchToRegex_) (c0, [])
    else
      match get_ptr c0.stringQueueReverse_ regex with
      | none => .checkFailed
      | some strings =>
        if strings.isEmpty then .checkFailed
        else
          let c1 := { c0 with stringQueueReverse_ := mapErase c0.stringQueueReverse_ regex }
          if !E.compile regex then .threw (c1, [])
          else prepareOld E regex strings (c1, [])

/-- `RegexMatchCache::findMatchesUnsafe`: the match set and the cache with the
bumped timestamp, or the exception thrown (the cache is then untouched). -/
def findMatchesUnsafe (E : Env R S) (c : RegexMatchCache R S) (regex : R) (now : time_point) :
    Except QueryError (List S × RegexMatchCache R S) :=
  if E.kIsDebug && !isReadyToFindMatches c regex then .error .logic_error
  else
    match get_ptr c.cacheRegexToMatch_ regex with
    | none => .error .out_of_range
    | some rtmentry =>
      .ok (rtmentry.matches_,
        { c with
          cacheRegexToMatch_ :=
            mapModify c.cacheRegexToMatch_ regex
              (fun e => { e with accessed_at := max now e.accessed_at }) })

/-- `RegexMatchCache::findMatches`. -/
def findMatches (E : Env R S) (c : RegexMatchCache R S) (regex : R) (now : time_point) :
    Except QueryError (List S × RegexMatchCache R S) :=
  findMatchesUnsafe E c regex now

/-- `RegexMatchCache::clear`. -/
def clear (_c : RegexMatchCache R S) : RegexMatchCache R S :=
  { stringQueueReverse_ := []
    stringQueueForward_ := []
    cacheMatchToRegex_ := []
    cacheRegexToMatch_ := [] }

/-- The second loop of `purge`: erase the collected regexes one by one. -/
def purgeLoop : List R → RegexMatchCache R S → Outcome (RegexMatchCache R S)
  | [], c => .returned c
  | regex :: rest, c => (eraseRegex c regex).andThen (purgeLoop rest)

/-- `RegexMatchCache::purge`. -/
def purge (c : RegexMatchCache R S) (expiry : time_point) : Outcome (RegexMatchCache R S) :=
  let regexes :=
    mapKeys (c.cacheRegexToMatch_.filter (fun p => decide (p.2.accessed_at ≤ expiry)))
  purgeLoop regexes c

/-! ## Call sequences -/

/-- The public mutating calls of the cache. -/
inductive Op (R S : Type) where
  | addRegex (regex : R)
  | addString (string : S)
  | eraseRegex (regex : R)
  | eraseString (string : S)
  | prepareToFindMatches (regex : R)
  | findMatches (regex : R) (now : time_point)
  | purge (expiry : time_point)
  | repair
  | clear
deriving DecidableEq, Repr

/-- One call on the cache: how it ends, in which state, and the strings on
which the matcher was run during the call. -/
def run (E : Env R S) (c : RegexMatchCache R S) : Op R S → Outcome (RegexMatchCache R S × List S)
  | .addRegex regex =>
    match addRegex E.epoch c regex with
    | .returned s => .returned (s, [])
    | .threw s => .threw (s, [])
    | .checkFailed => .checkFailed
    | .badDeref => .badDeref
  | .addString string =>
    match addString c string with
    | .returned s => .returned (s, [])
    | .threw s => .threw (s, [])
    | .checkFailed => .checkFailed
    | .badDeref => .badDeref
  | .eraseRegex regex =>
    match eraseRegex c regex with
    | .returned s => .returned (s, [])
    | .threw s => .threw (s, [])
    | .checkFailed => .checkFailed
    | .badDeref => .badDeref
  | .eraseString string =>
    match eraseString c string with
    | .returned s => .returned (s, [])
    | .threw s => .threw (s, [])
    | .checkFailed => .checkFailed
    | .badDeref => .badDeref
  | .prepareToFindMatches regex => prepareToFindMatches E c regex
  | .findMatches regex now =>
    match findMatches E c regex now with
    | .ok (_, s) => .returned (s, [])
    | .error _ => .threw (c, [])
  | .purge expiry =>
    match purge c expiry with
    | .returned s => .returned (s, [])
    | .threw s => .threw (s, [])
    | .checkFailed => .checkFailed
    | .badDeref => .badDeref
  | .repair => .returned (repair c, [])
  | .clear => .returned (clear c, [])

/-- The state after a call, when the process survives it. -/
def next? (E : Env R S) (c : RegexMatchCache R S) (op : Op R S) : Option (RegexMatchCache R S) :=
  (run E c op).state?.map Prod.fst

/-- The cache states obtained from the empty cache by a finite sequence of
calls. -/
inductive Reachable (E : Env R S) : RegexMatchCache R S → Prop where
  | init : Reachable E RegexMatchCache.empty
  | step {c c1 : RegexMatchCache R S} (op : Op R S) :
      Reachable E c → next? E c op = some c1 → Reachable E c1

end Cache

/-! ## Views and invariants -/

section Views

variable {R S : Type} [DecidableEq R] [DecidableEq S]

/-- The set stored for a key in a map of sets, empty when the key is absent. -/
def look {K V : Type} [DecidableEq K] (m : List (K × List V)) (k : K) : List V :=
  (get_ptr m k).getD []

/-- The match set stored for a regex in `cacheRegexToMatch_`. -/
def matchesOf (c : RegexMatchCache R S) (r : R) : List S :=
  match get_ptr c.cacheRegexToMatch_ r with
  | some e => e.matches_
  | none => []

/-- The regex set stored for a string in `cacheMatchToRegex_`. -/
def regexesOf (c : RegexMatchCache R S) (s : S) : List R := look c.cacheMatchToRegex_ s

/-- The pending-regex set stored for a string in `stringQueueForward_`. -/
def pendingRegexesOf (c : RegexMatchCache R S) (s : S) : List R := look c.stringQueueForward_ s

/-- The pending-string set stored for a regex in `stringQueueReverse_`. -/
def pendingStringsOf (c : RegexMatchCache R S) (r : R) : List S := look c.stringQueueReverse_ r

/-- The last-access timestamp recorded for a regex. -/
def accessedAt (c : RegexMatchCache R S) (r : R) : Option time_point :=
  (get_ptr c.cacheRegexToMatch_ r).map (fun e => e.accessed_at)

/-- The strings on which `prepareToFindMatches` has to run the matcher: the
queue of the regex when it is registered, every known string otherwise. -/
def prepareTargets (c : RegexMatchCache R S) (regex : R) : List S :=
  if mapContains c.cacheRegexToMatch_ regex then pendingStringsOf c regex
  else mapKeys c.cacheMatchToRegex_

/-- The invariants of the cache, the ones `RegexMatchCache::consistency`
looks for: the two caches agree, the two queues agree, queue entries are known, not
empty and not cached, and a pair of a registered regex and a known string that
is not queued was evaluated, with the outcome the cache records. -/
structure Consistent (E : Env R S) (c : RegexMatchCache R S) : Prop where
  cache_bidi : ∀ r s, s ∈ matchesOf c r ↔ r ∈ regexesOf c s
  queue_bidi : ∀ r s, r ∈ pendingRegexesOf c s ↔ s ∈ pendingStringsOf c r
  queue_regex : ∀ r, mapContains c.stringQueueReverse_ r = true →
    mapContains c.cacheRegexToMatch_ r = true
  queue_string : ∀ s, mapContains c.stringQueueForward_ s = true →
    mapContains c.cacheMatchToRegex_ s = true
  disjoint : ∀ r s, s ∈ pendingStringsOf c r → s ∉ matchesOf c r
  forward_nonempty : ∀ s, mapContains c.stringQueueForward_ s = true → pendingRegexesOf c s ≠ []
  reverse_nonempty : ∀ r, mapContains c.stringQueueReverse_ r = true → pendingStringsOf c r ≠ []
  forward_nodup : ∀ s, (pendingRegexesOf c s).Nodup
  reverse_nodup : ∀ r, (pendingStringsOf c r).Nodup
  accurate : ∀ r s, mapContains c.cacheRegexToMatch_ r = true →
    mapContains c.cacheMatchToRegex_ s = true → s ∉ pendingStringsOf c r →
    E.compile r = true ∧ E.eval r s = some (decide (s ∈ matchesOf c r))

end Views

/-! ## Sequences of queries -/

/-- A sequence of `findMatches` calls, each with its pattern and its `now`; a
call that throws leaves the cache as it was. -/
def findMatchesSeq {R S : Type} [DecidableEq R] [DecidableEq S] (E : Env R S) :
    RegexMatchCache R S → List (R × time_point) → RegexMatchCache R S
  | c, [] => c
  | c, (regex, now) :: rest =>
    match findMatches E c regex now with
    | .ok (_, c1) => findMatchesSeq E c1 rest
    | .error _ => findMatchesSeq E c rest

/-! ## A concrete engine -/

/-- An engine on strings for which `"ca.*"` matches the strings starting with
`ca`, `"("` does not compile, and any other pattern matches itself only. -/
def demoEnv : Env String String :=
  { compile := fun r => r != "("
    eval := fun r s => some (if r = "ca.*" then s.take 2 == "ca" else r == s)
    kIsDebug := true
    epoch := 0 }

/-- The cache after `addString` of `"cat"`, `"car"` and `"dog"`. -/
def demoStrings : RegexMatchCache String String :=
  { cacheRegexToMatch_ := []
    cacheMatchToRegex_ := [("cat", []), ("car", []), ("dog", [])]
    stringQueueForward_ := []
    stringQueueReverse_ := [] }

/-- The cache after a further `addRegex` of `"ca.*"`. -/
def demoQueued : RegexMatchCache String String :=
  { cacheRegexToMatch_ := [("ca.*", ⟨[], 0⟩)]
    cacheMatchToRegex_ := [("cat", []), ("car", []), ("dog", [])]
    stringQueueForward_ := [("cat", ["ca.*"]), ("car", ["ca.*"]), ("dog", ["ca.*"])]
    stringQueueReverse_ := [("ca.*", ["cat", "car", "dog"])] }

/-- The cache after a further `prepareToFindMatches` of `"ca.*"`. -/
def demoReady : RegexMatchCache String String :=
  { cacheRegexToMatch_ := [("ca.*", ⟨["cat", "car"], 0⟩)]
    cacheMatchToRegex_ := [("cat", ["ca.*"]), ("car", ["ca.*"]), ("dog", [])]
    stringQueueForward_ := []
    stringQueueReverse_ := [] }

/-- The cache after `addString` of `"cat"`, `prepareToFindMatches` of `"ca.*"`
and `addRegex` of the pattern `"("`, which does not compile. -/
def demoBroken : RegexMatchCache String String :=
  { cacheRegexToMatch_ := [("ca.*", ⟨["cat"], 0⟩), ("(", ⟨[], 0⟩)]
    cacheMatchToRegex_ := [("cat", ["ca.*"])]
    stringQueueForward_ := [("cat", ["("])]
    stringQueueReverse_ := [("(", ["cat"])] }

/-- An engine like `demoEnv`, except that matching the pattern `"(a*)*b"`
against a long run of `a` raises an error, as a backtracking engine does when
the match exceeds its complexity bound. -/
def demoEnvLimited : Env String String :=
  { compile := fun r => r != "("
    eval := fun r s =>
      if r = "(a*)*b" ∧ s = "aaaaaaaaaaaaaaaaaaaaaaaaaaaaaaa" then none
      else some (if r = "ca.*" then s.take 2 == "ca" else r == s)
    kIsDebug := true
    epoch := 0 }

/-- The cache after `addString` of a long run of `a`. -/
def demoLong : RegexMatchCache String String :=
  { cacheRegexToMatch_ := []
    cacheMatchToRegex_ := [("aaaaaaaaaaaaaaaaaaaaaaaaaaaaaaa", [])]
    stringQueueForward_ := []
    stringQueueReverse_ := [] }

/-! ## The states of the scenario -/

/-- The scenario after `addString` of `"cat"`, `"car"`, `"dog"` and `addRegex`
of `"ca.*"`, the regex carrying timestamp `t`. -/
def scenarioQueued (t : time_point) : RegexMatchCache String String :=
  { cacheRegexToMatch_ := [("ca.*", ⟨[], t⟩)]
    cacheMatchToRegex_ := [("cat", []), ("car", []), ("dog", [])]
    stringQueueForward_ := [("cat", ["ca.*"]), ("car", ["ca.*"]), ("dog", ["ca.*"])]
    stringQueueReverse_ := [("ca.*", ["cat", "car", "dog"])] }

/-- The scenario after the first `prepareToFindMatches`. -/
def scenarioReady (t : time_point) : RegexMatchCache String String :=
  { cacheRegexToMatch_ := [("ca.*", ⟨["cat", "car"], t⟩)]
    cacheMatchToRegex_ := [("cat", ["ca.*"]), ("car", ["ca.*"]), ("dog", [])]
    stringQueueForward_ := []
    stringQueueReverse_ := [] }

/-- The scenario after `addString` of `"can"`. -/
def scenarioGrown (t : time_point) : RegexMatchCache String String :=
  { cacheRegexToMatch_ := [("ca.*", ⟨["cat", "car"], t⟩)]
    cacheMatchToRegex_ := [("cat", ["ca.*"]), ("car", ["ca.*"]), ("dog", []), ("can", [])]
    stringQueueForward_ := [("can", ["ca.*"])]
    stringQueueReverse_ := [("ca.*", ["can"])] }

/-- The scenario after the second `prepareToFindMatches`. -/
def scenarioFull (t : time_point) : RegexMatchCache String String :=
  { cacheRegexToMatch_ := [("ca.*", ⟨["cat", "car", "can"], t⟩)]
    cacheMatchToRegex_ :=
      [("cat", ["ca.*"]), ("car", ["ca.*"]), ("dog", []), ("can", ["ca.*"])]
    stringQueueForward_ := []
    stringQueueReverse_ := [] }

/-- The scenario after `purge`. -/
def scenarioPurged : RegexMatchCache String String :=
  { cacheRegexToMatch_ := []
    cacheMatchToRegex_ := [("cat", []), ("car", []), ("dog", []), ("can", [])]
    stringQueueForward_ := []
    stringQueueReverse_ := [] }

/-! ## Container lemmas -/

section ContainerLemmas

variable {K V : Type} [DecidableEq K]

@[simp] theorem get_ptr_nil (k : K) : get_ptr ([] : List (K × V)) k = none := rfl

theorem get_ptr_cons (a : K) (v : V) (t : List (K × V)) (k : K) :
    get_ptr ((a, v) :: t) k = if a = k then some v else get_ptr t k := rfl

theorem get_ptr_append (m m1 : List (K × V)) (k : K) :
    get_ptr (m ++ m1) k = (get_ptr m k).orElse (fun _ => get_ptr m1 k) := by
  induction m with
  | nil => simp
  | cons p t ih =>
    obtain ⟨a, v⟩ := p
    simp only [List.cons_append, get_ptr_cons]
    split <;> simp [ih]

theorem get_ptr_mapErase (m : List (K × V)) (k k1 : K) :
    get_ptr (mapErase m k) k1 = if k1 = k then none else get_ptr m k1 := by
  induction m with
  | nil => simp [mapErase]
  | cons p t ih =>
    obtain ⟨a, v⟩ := p
    unfold mapErase at ih ⊢
    by_cases ha : a = k
    · subst ha
      simp only [List.filter_cons, ne_eq, not_true_eq_false, decide_False, Bool.false_eq_true,
        ↓reduceIte, ih, get_ptr_cons]
      by_cases h1 : k1 = a
      · simp [h1]
      · have : ¬ a = k1 := fun h => h1 h.symm
        simp [h1, this]
    · simp only [List.filter_cons, ne_eq, ha, not_false_eq_true, decide_True, ↓reduceIte,
        get_ptr_cons, ih]
      by_cases h1 : k1 = k
      · subst h1
        simp [ha]
      · simp [h1]

theorem get_ptr_mapModify (m : List (K × V)) (k k1 : K) (f : V → V) :
    get_ptr (mapModify m k f) k1 = if k1 = k then (get_ptr m k).map f else get_ptr m k1 := by
  induction m with
  | nil => simp [mapModify]
  | cons p t ih =>
    obtain ⟨a, v⟩ := p
    unfold mapModify at ih ⊢
    by_cases ha : a = k
    · subst ha
      simp only [List.map_cons, ↓reduceIte, get_ptr_cons, ih]
      by_cases h1 : k1 = a
      · simp [h1]
      · have : ¬ a = k1 := fun h => h1 h.symm
        simp [h1, this]
    · simp only [List.map_cons, ha, ↓reduceIte, get_ptr_cons, ih]
      by_cases h1 : k1 = k
      · subst h1
        simp [ha]
      · simp [h1]

theorem get_ptr_try_emplace (m : List (K × V)) (k k1 : K) (v : V) :
    get_ptr (try_emplace m k v) k1 =
      if k1 = k then some ((get_ptr m k).getD v) else get_ptr m k1 := by
  unfold try_emplace mapContains
  cases h : get_ptr m k with
  | some e =>
    by_cases h1 : k1 = k
    · simp [h1, h]
    · simp [h1]
  | none =>
    simp only [Option.isSome_none, Bool.false_eq_true, ↓reduceIte, get_ptr_append, get_ptr_cons,
      get_ptr_nil, Option.getD_none]
    by_cases h1 : k1 = k
    · subst h1
      simp [h]
    · have : ¬ k = k1 := fun h => h1 h.symm
      simp [h1, this]

theorem mapContains_iff (m : List (K × V)) (k : K) :
    mapContains m k = true ↔ ∃ e, get_ptr m k = some e := by
  unfold mapContains
  cases get_ptr m k <;> simp

theorem mapContains_false_iff (m : List (K × V)) (k : K) :
    mapContains m k = false ↔ get_ptr m k = none := by
  unfold mapContains
  cases get_ptr m k <;> simp

theorem mapContains_mapErase (m : List (K × V)) (k k1 : K) :
    mapContains (mapErase m k) k1 = (mapContains m k1 && decide (k1 ≠ k)) := by
  unfold mapContains
  rw [get_ptr_mapErase]
  by_cases h : k1 = k <;> simp [h]

theorem mapContains_mapModify (m : List (K × V)) (k k1 : K) (f : V → V) :
    mapContains (mapModify m k f) k1 = mapContains m k1 := by
  unfold mapContains
  rw [get_ptr_mapModify]
  by_cases h : k1 = k
  · subst h
    cases get_ptr m k1 <;> simp
  · simp [h]

theorem mapContains_try_emplace (m : List (K × V)) (k k1 : K) (v : V) :
    mapContains (try_emplace m k v) k1 = (mapContains m k1 || decide (k1 = k)) := by
  unfold mapContains
  rw [get_ptr_try_emplace]
  by_cases h : k1 = k <;> simp [h]

theorem mapContains_iff_mem_keys (m : List (K × V)) (k : K) :
    mapContains m k = true ↔ k ∈ mapKeys m := by
  induction m with
  | nil => simp [mapContains, mapKeys]
  | cons p t ih =>
    obtain ⟨a, v⟩ := p
    unfold mapContains mapKeys at ih ⊢
    simp only [get_ptr_cons, List.map_cons, List.mem_cons]
    by_cases h : a = k
    · simp [h]
    · have : ¬ k = a := fun h1 => h h1.symm
      simp [h, this, ih]

theorem eq_nil_of_no_keys (m : List (K × V)) (h : ∀ k, mapContains m k = false) : m = [] := by
  cases m with
  | nil => rfl
  | cons p t =>
    obtain ⟨a, v⟩ := p
    have := h a
    simp [mapContains, get_ptr_cons] at this

theorem mem_setInsert (xs : List K) (x y : K) : y ∈ setInsert xs x ↔ y ∈ xs ∨ y = x := by
  unfold setInsert
  by_cases h : x ∈ xs
  · simp only [h, ↓reduceIte]
    constructor
    · exact Or.inl
    · rintro (h1 | h1)
      · exact h1
      · exact h1 ▸ h
  · simp [h]

theorem nodup_setInsert (xs : List K) (x : K) (h : xs.Nodup) : (setInsert xs x).Nodup := by
  unfold setInsert
  by_cases h1 : x ∈ xs
  · simp [h1, h]
  · simp only [h1, ↓reduceIte]
    rw [List.nodup_append]
    refine ⟨h, List.nodup_singleton x, ?_⟩
    intro a ha
    simp only [List.mem_singleton]
    rintro rfl
    exact h1 ha

theorem setInsert_ne_nil (xs : List K) (x : K) : setInsert xs x ≠ [] := by
  intro h
  have : x ∈ setInsert xs x := (mem_setInsert xs x x).2 (Or.inr rfl)
  rw [h] at this
  simp at this

theorem mem_setErase (xs : List K) (x y : K) : y ∈ setErase xs x ↔ y ∈ xs ∧ y ≠ x := by
  unfold setErase
  simp

theorem nodup_setErase (xs : List K) (x : K) (h : xs.Nodup) : (setErase xs x).Nodup := by
  unfold setErase
  exact h.filter _

theorem setErase_of_not_mem (xs : List K) (x : K) (h : x ∉ xs) : setErase xs x = xs := by
  unfold setErase
  rw [List.filter_eq_self]
  intro a ha
  simp only [ne_eq, decide_not, Bool.not_eq_eq_eq_not, Bool.not_true, decide_eq_false_iff_not]
  rintro rfl
  exact h ha

end ContainerLemmas

section LookLemmas

variable {K V : Type} [DecidableEq K]

theorem look_mapErase (m : List (K × List V)) (k k1 : K) :
    look (mapErase m k) k1 = if k1 = k then [] else look m k1 := by
  unfold look
  rw [get_ptr_mapErase]
  split <;> simp

theorem look_mapModify (m : List (K × List V)) (k k1 : K) (f : List V → List V) :
    look (mapModify m k f) k1 =
      if k1 = k then (if mapContains m k then f (look m k) else []) else look m k1 := by
  unfold look mapContains
  rw [get_ptr_mapModify]
  by_cases h : k1 = k
  · simp only [h, ↓reduceIte]
    cases get_ptr m k <;> simp
  · simp [h]

theorem look_try_emplace (m : List (K × List V)) (k k1 : K) :
    look (try_emplace m k []) k1 = look m k1 := by
  unfold look
  rw [get_ptr_try_emplace]
  by_cases h : k1 = k
  · subst h
    cases get_ptr m k1 <;> simp
  · simp [h]

theorem look_eq_nil_of_not_contains (m : List (K × List V)) (k : K)
    (h : mapContains m k = false) : look m k = [] := by
  unfold look
  rw [(mapContains_false_iff m k).1 h]
  rfl

theorem mapContains_of_mem_look (m : List (K × List V)) (k : K) (x : V) (h : x ∈ look m k) :
    mapContains m k = true := by
  cases hc : mapContains m k with
  | true => rfl
  | false =>
    rw [look_eq_nil_of_not_contains m k hc] at h
    simp at h

end LookLemmas

section AddRegex

variable {R S : Type} [DecidableEq R] [DecidableEq S]

theorem addRegexBody_spec (regex : R) (c : RegexMatchCache R S) (string : S) :
    (addRegexBody regex c string).cacheRegexToMatch_ = c.cacheRegexToMatch_ ∧
    (addRegexBody regex c string).cacheMatchToRegex_ = c.cacheMatchToRegex_ ∧
    (∀ s, mapContains (addRegexBody regex c string).stringQueueForward_ s =
      (mapContains c.stringQueueForward_ s || decide (s = string))) ∧
    (∀ r, mapContains (addRegexBody regex c string).stringQueueReverse_ r =
      mapContains c.stringQueueReverse_ r) ∧
    (∀ s r, r ∈ look (addRegexBody regex c string).stringQueueForward_ s ↔
      r ∈ look c.stringQueueForward_ s ∨ (s = string ∧ r = regex)) ∧
    (∀ r s, s ∈ look (addRegexBody regex c string).stringQueueReverse_ r ↔
      s ∈ look c.stringQueueReverse_ r ∨
        (r = regex ∧ s = string ∧ mapContains c.stringQueueReverse_ regex = true)) ∧
    ((∀ s, (look c.stringQueueForward_ s).Nodup) →
      ∀ s, (look (addRegexBody regex c string).stringQueueForward_ s).Nodup) ∧
    ((∀ r, (look c.stringQueueReverse_ r).Nodup) →
      ∀ r, (look (addRegexBody regex c string).stringQueueReverse_ r).Nodup) := by
  refine ⟨rfl, rfl, ?_, ?_, ?_, ?_, ?_, ?_⟩
  · intro s
    simp [addRegexBody, mapContains_mapModify, mapContains_try_emplace]
  · intro r
    simp [addRegexBody, mapContains_mapModify]
  · intro s r
    simp only [addRegexBody, look_mapModify, look_try_emplace, mapContains_try_emplace]
    by_cases h : s = string
    · subst h
      simp [mem_setInsert]
    · simp [h]
  · intro r s
    simp only [addRegexBody, look_mapModify]
    by_cases h : r = regex
    · subst h
      cases hc : mapContains c.stringQueueReverse_ r
      · simp [look_eq_nil_of_not_contains _ _ hc]
      · simp [mem_setInsert]
    · simp [h]
  · intro hn s
    simp only [addRegexBody, look_mapModify, look_try_emplace, mapContains_try_emplace]
    by_cases h : s = string
    · subst h
      simp only [↓reduceIte, decide_True, Bool.or_true]
      exact nodup_setInsert _ _ (hn s)
    · simp [h, hn s]
  · intro hn r
    simp only [addRegexBody, look_mapModify]
    by_cases h : r = regex
    · subst h
      cases hc : mapContains c.stringQueueReverse_ r
      · simp
      · simp only [↓reduceIte]
        exact nodup_setInsert _ _ (hn r)
    · simp [h, hn r]

theorem addRegex_loop (regex : R) (keys : List S) (c : RegexMatchCache R S) :
    (keys.foldl (addRegexBody regex) c).cacheRegexToMatch_ = c.cacheRegexToMatch_ ∧
    (keys.foldl (addRegexBody regex) c).cacheMatchToRegex_ = c.cacheMatchToRegex_ ∧
    (∀ s, mapContains (keys.foldl (addRegexBody regex) c).stringQueueForward_ s =
      (mapContains c.stringQueueForward_ s || decide (s ∈ keys))) ∧
    (∀ r, mapContains (keys.foldl (addRegexBody regex) c).stringQueueReverse_ r =
      mapContains c.stringQueueReverse_ r) ∧
    (∀ s r, r ∈ look (keys.foldl (addRegexBody regex) c).stringQueueForward_ s ↔
      r ∈ look c.stringQueueForward_ s ∨ (s ∈ keys ∧ r = regex)) ∧
    (∀ r s, s ∈ look (keys.foldl (addRegexBody regex) c).stringQueueReverse_ r ↔
      s ∈ look c.stringQueueReverse_ r ∨
        (r = regex ∧ s ∈ keys ∧ mapContains c.stringQueueReverse_ regex = true)) ∧
    ((∀ s, (look c.stringQueueForward_ s).Nodup) →
      ∀ s, (look (keys.foldl (addRegexBody regex) c).stringQueueForward_ s).Nodup) ∧
    ((∀ r, (look c.stringQueueReverse_ r).Nodup) →
      ∀ r, (look (keys.foldl (addRegexBody regex) c).stringQueueReverse_ r).Nodup) := by
  induction keys generalizing c with
  | nil => simp
  | cons k t ih =>
    obtain ⟨b1, b2, b3, b4, b5, b6, b7, b8⟩ := addRegexBody_spec regex c k
    obtain ⟨i1, i2, i3, i4, i5, i6, i7, i8⟩ := ih (addRegexBody regex c k)
    simp only [List.foldl_cons]
    refine ⟨i1.trans b1, i2.trans b2, ?_, ?_, ?_, ?_, ?_, ?_⟩
    · intro s
      rw [i3, b3]
      simp [Bool.or_assoc]
    · intro r
      rw [i4, b4]
    · intro s r
      rw [i5, b5]
      simp only [List.mem_cons]
      tauto
    · intro r s
      rw [i6, b6, b4]
      simp only [List.mem_cons]
      tauto
    · exact fun h => i7 (b7 h)
    · exact fun h => i8 (b8 h)

end AddRegex

section AddRegexSpec

variable {R S : Type} [DecidableEq R] [DecidableEq S]

theorem isEmpty_eq_false_iff_exists_key {K V : Type} [DecidableEq K] (m : List (K × V)) :
    m.isEmpty = false ↔ ∃ k, mapContains m k = true := by
  cases m with
  | nil => simp [mapContains]
  | cons p t =>
    obtain ⟨a, v⟩ := p
    simp only [List.isEmpty_cons, true_iff]
    exact ⟨a, by simp [mapContains, get_ptr_cons]⟩

theorem isEmpty_iff_no_key {K V : Type} [DecidableEq K] (m : List (K × V)) :
    m.isEmpty = true ↔ ∀ k, mapContains m k = false := by
  cases m with
  | nil => simp [mapContains]
  | cons p t =>
    obtain ⟨a, v⟩ := p
    simp only [List.isEmpty_cons, Bool.false_eq_true, false_iff, not_forall,
      Bool.not_eq_false]
    exact ⟨a, by simp [mapContains, get_ptr_cons]⟩

/-- What `addRegex` does to a consistent cache for an unregistered regex. -/
theorem addRegex_spec (E : Env R S) (epoch : time_point) (c : RegexMatchCache R S) (regex : R)
    (hc : Consistent E c) (hnew : hasRegex c regex = false) :
    ∃ c1, addRegex epoch c regex = .returned c1 ∧
      c1.cacheRegexToMatch_ = c.cacheRegexToMatch_ ++ [(regex, ⟨[], epoch⟩)] ∧
      c1.cacheMatchToRegex_ = c.cacheMatchToRegex_ ∧
      (∀ s, mapContains c1.stringQueueForward_ s = mapContains c.cacheMatchToRegex_ s) ∧
      (∀ r, mapContains c1.stringQueueReverse_ r =
        (mapContains c.stringQueueReverse_ r ||
          (decide (r = regex) && !c.cacheMatchToRegex_.isEmpty))) ∧
      (∀ s r, r ∈ pendingRegexesOf c1 s ↔
        r ∈ pendingRegexesOf c s ∨ (r = regex ∧ mapContains c.cacheMatchToRegex_ s = true)) ∧
      (∀ r s, s ∈ pendingStringsOf c1 r ↔
        s ∈ pendingStringsOf c r ∨ (r = regex ∧ mapContains c.cacheMatchToRegex_ s = true)) ∧
      (∀ s, (pendingRegexesOf c1 s).Nodup) ∧ (∀ r, (pendingStringsOf c1 r).Nodup) := by
  have hnew1 : mapContains c.cacheRegexToMatch_ regex = false := hnew
  have hsqr : mapContains c.stringQueueReverse_ regex = false := by
    cases h : mapContains c.stringQueueReverse_ regex with
    | false => rfl
    | true => rw [hc.queue_regex regex h] at hnew1; exact absurd hnew1 (by simp)
  unfold addRegex
  simp only [hnew1, Bool.not_false, Bool.not_true, Bool.false_eq_true, ↓reduceIte, try_emplace]
  cases he : c.cacheMatchToRegex_.isEmpty with
  | true =>
    have hk := (isEmpty_iff_no_key _).1 he
    have hf : ∀ s, mapContains c.stringQueueForward_ s = false := by
      intro s
      cases h : mapContains c.stringQueueForward_ s with
      | false => rfl
      | true => have := hc.queue_string s h; rw [hk s] at this; exact absurd this (by simp)
    refine ⟨_, rfl, rfl, rfl, ?_, ?_, ?_, ?_, hc.forward_nodup, hc.reverse_nodup⟩
    · intro s; simp [hf s, hk s]
    · intro r; simp
    · intro s r; simp [hk s, pendingRegexesOf]
    · intro r s; simp [hk s, pendingStringsOf]
  | false =>
    simp only [hsqr, Bool.not_false, Bool.not_true, Bool.false_eq_true, ↓reduceIte]
    refine ⟨_, rfl, ?_⟩
    obtain ⟨i1, i2, i3, i4, i5, i6, i7, i8⟩ := addRegex_loop regex (mapKeys c.cacheMatchToRegex_)
      { c with
        cacheRegexToMatch_ := c.cacheRegexToMatch_ ++ [(regex, ⟨[], epoch⟩)]
        stringQueueReverse_ := c.stringQueueReverse_ ++ [(regex, [])] }
    have hte : c.stringQueueReverse_ ++ [(regex, ([] : List S))] =
        try_emplace c.stringQueueReverse_ regex [] := by
      simp [try_emplace, hsqr]
    simp only [hte] at i1 i2 i3 i4 i5 i6 i7 i8 ⊢
    refine ⟨i1, i2, ?_, ?_, ?_, ?_, ?_, ?_⟩
    · intro s
      rw [i3]
      cases hm : mapContains c.cacheMatchToRegex_ s with
      | true =>
        have := (mapContains_iff_mem_keys _ _).1 hm
        simp [this]
      | false =>
        have hnk : s ∉ mapKeys c.cacheMatchToRegex_ := by
          rw [← mapContains_iff_mem_keys]; simp [hm]
        have : mapContains c.stringQueueForward_ s = false := by
          cases h : mapContains c.stringQueueForward_ s with
          | false => rfl
          | true => have := hc.queue_string s h; rw [hm] at this; exact absurd this (by simp)
        simp [this, hnk]
    · intro r
      rw [i4, mapContains_try_emplace]
      simp
    · intro s r
      unfold pendingRegexesOf
      rw [i5, ← mapContains_iff_mem_keys]
      tauto
    · intro r s
      unfold pendingStringsOf
      rw [i6, ← mapContains_iff_mem_keys, look_try_emplace, mapContains_try_emplace]
      simp
    · exact i7 hc.forward_nodup
    · apply i8
      intro r
      rw [look_try_emplace]
      exact hc.reverse_nodup r

end AddRegexSpec

section AddRegexConsistent

variable {R S : Type} [DecidableEq R] [DecidableEq S]

theorem matchesOf_append_new (c : RegexMatchCache R S) (regex : R) (epoch : time_point)
    (rtm : List (R × RegexEntry S)) (mtr : List (S × List R)) (f : List (S × List R))
    (g : List (R × List S))
    (hnew : mapContains c.cacheRegexToMatch_ regex = false)
    (h : rtm = c.cacheRegexToMatch_ ++ [(regex, ⟨[], epoch⟩)]) (r : R) :
    matchesOf (RegexMatchCache.mk rtm mtr f g) r = matchesOf c r := by
  unfold matchesOf
  simp only [h, get_ptr_append, get_ptr_cons, get_ptr_nil]
  have hn := (mapContains_false_iff _ _).1 hnew
  by_cases hr : regex = r
  · subst hr
    simp [hn]
  · cases get_ptr c.cacheRegexToMatch_ r <;> simp [hr]

theorem mapContains_append_new {K V : Type} [DecidableEq K] (m : List (K × V)) (k k1 : K) (v : V) :
    mapContains (m ++ [(k, v)]) k1 = (mapContains m k1 || decide (k1 = k)) := by
  unfold mapContains
  rw [get_ptr_append]
  cases get_ptr m k1 with
  | some e => simp
  | none =>
    by_cases h : k = k1
    · simp [get_ptr_cons, h]
    · have : ¬ k1 = k := fun h1 => h h1.symm
      simp [get_ptr_cons, h, this]

theorem addRegex_consistent (E : Env R S) (epoch : time_point) (c c1 : RegexMatchCache R S)
    (regex : R) (hc : Consistent E c) (h : (addRegex epoch c regex).state? = some c1) :
    Consistent E c1 := by
  cases hreg : hasRegex c regex with
  | true =>
    have : addRegex epoch c regex = .returned c := by
      unfold addRegex
      have : mapContains c.cacheRegexToMatch_ regex = true := hreg
      simp [this]
    rw [this] at h
    simp only [Outcome.state?, Option.some.injEq] at h
    exact h ▸ hc
  | false =>
    obtain ⟨c2, h2, hrtm, hmtr, hcf, hcr, hpf, hpr, hnf, hnr⟩ := addRegex_spec E epoch c regex hc hreg
    rw [h2] at h
    simp only [Outcome.state?, Option.some.injEq] at h
    subst h
    have hnew1 : mapContains c.cacheRegexToMatch_ regex = false := hreg
    have hm : ∀ r, matchesOf c2 r = matchesOf c r := by
      intro r
      obtain ⟨a, b, f, g⟩ := c2
      exact matchesOf_append_new c regex epoch a b f g hnew1 hrtm r
    have hx : ∀ s, regexesOf c2 s = regexesOf c s := by
      intro s; unfold regexesOf; rw [hmtr]
    have hreg2 : ∀ r, mapContains c2.cacheRegexToMatch_ r =
        (mapContains c.cacheRegexToMatch_ r || decide (r = regex)) := by
      intro r; rw [hrtm, mapContains_append_new]
    have hm0 : matchesOf c regex = [] := by
      unfold matchesOf
      rw [(mapContains_false_iff _ _).1 hnew1]
    refine ⟨?_, ?_, ?_, ?_, ?_, ?_, ?_, hnf, hnr, ?_⟩
    · intro r s
      rw [hm, hx]
      exact hc.cache_bidi r s
    · intro r s
      rw [hpf, hpr, hc.queue_bidi r s]
    · intro r hr
      rw [hcr] at hr
      rw [hreg2]
      simp only [Bool.or_eq_true, Bool.and_eq_true, decide_eq_true_eq] at hr ⊢
      rcases hr with hr | hr
      · exact Or.inl (hc.queue_regex r hr)
      · exact Or.inr hr.1
    · intro s hs
      rw [hcf] at hs
      rw [hmtr]
      exact hs
    · intro r s hs
      rw [hpr] at hs
      rw [hm]
      rcases hs with hs | ⟨rfl, _⟩
      · exact hc.disjoint r s hs
      · rw [hm0]; simp
    · intro s hs
      rw [hcf] at hs
      intro h0
      have hne : c.cacheMatchToRegex_.isEmpty = false := by
        rw [isEmpty_eq_false_iff_exists_key]; exact ⟨s, hs⟩
      have : regex ∈ pendingRegexesOf c2 s := (hpf s regex).2 (Or.inr ⟨rfl, hs⟩)
      rw [h0] at this
      simp at this
    · intro r hr
      rw [hcr] at hr
      simp only [Bool.or_eq_true, Bool.and_eq_true, decide_eq_true_eq, Bool.not_eq_true'] at hr
      intro h0
      rcases hr with hr | ⟨rfl, hr⟩
      · have hne := hc.reverse_nonempty r hr
        obtain ⟨s, hs⟩ := List.exists_mem_of_ne_nil _ hne
        have : s ∈ pendingStringsOf c2 r := (hpr r s).2 (Or.inl hs)
        rw [h0] at this
        simp at this
      · obtain ⟨s, hs⟩ := (isEmpty_eq_false_iff_exists_key _).1 hr
        have : s ∈ pendingStringsOf c2 r := (hpr r s).2 (Or.inr ⟨rfl, hs⟩)
        rw [h0] at this
        simp at this
    · intro r s hr hs hp
      rw [hmtr] at hs
      rw [hreg2] at hr
      rw [hpr] at hp
      rw [hm]
      simp only [Bool.or_eq_true, decide_eq_true_eq] at hr
      push_neg at hp
      rcases hr with hr | rfl
      · exact hc.accurate r s hr hs hp.1
      · exact absurd hs (hp.2 rfl)

end AddRegexConsistent

section AddString

variable {R S : Type} [DecidableEq R] [DecidableEq S]

theorem addStringBody_spec (string : S) (c : RegexMatchCache R S) (regex : R) :
    (addStringBody string c regex).cacheRegexToMatch_ = c.cacheRegexToMatch_ ∧
    (addStringBody string c regex).cacheMatchToRegex_ = c.cacheMatchToRegex_ ∧
    (∀ r, mapContains (addStringBody string c regex).stringQueueReverse_ r =
      (mapContains c.stringQueueReverse_ r || decide (r = regex))) ∧
    (∀ s, mapContains (addStringBody string c regex).stringQueueForward_ s =
      mapContains c.stringQueueForward_ s) ∧
    (∀ r s, s ∈ look (addStringBody string c regex).stringQueueReverse_ r ↔
      s ∈ look c.stringQueueReverse_ r ∨ (r = regex ∧ s = string)) ∧
    (∀ s r, r ∈ look (addStringBody string c regex).stringQueueForward_ s ↔
      r ∈ look c.stringQueueForward_ s ∨
        (s = string ∧ r = regex ∧ mapContains c.stringQueueForward_ string = true)) ∧
    ((∀ r, (look c.stringQueueReverse_ r).Nodup) →
      ∀ r, (look (addStringBody string c regex).stringQueueReverse_ r).Nodup) ∧
    ((∀ s, (look c.stringQueueForward_ s).Nodup) →
      ∀ s, (look (addStringBody string c regex).stringQueueForward_ s).Nodup) := by
  refine ⟨rfl, rfl, ?_, ?_, ?_, ?_, ?_, ?_⟩
  · intro r
    simp [addStringBody, mapContains_mapModify, mapContains_try_emplace]
  · intro s
    simp [addStringBody, mapContains_mapModify]
  · intro r s
    simp only [addStringBody, look_mapModify, look_try_emplace, mapContains_try_emplace]
    by_cases h : r = regex
    · subst h
      simp [mem_setInsert]
    · simp [h]
  · intro s r
    simp only [addStringBody, look_mapModify]
    by_cases h : s = string
    · subst h
      cases hc : mapContains c.stringQueueForward_ s
      · simp [look_eq_nil_of_not_contains _ _ hc]
      · simp [mem_setInsert]
    · simp [h]
  · intro hn r
    simp only [addStringBody, look_mapModify, look_try_emplace, mapContains_try_emplace]
    by_cases h : r = regex
    · subst h
      simp only [↓reduceIte, decide_True, Bool.or_true]
      exact nodup_setInsert _ _ (hn r)
    · simp [h, hn r]
  · intro hn s
    simp only [addStringBody, look_mapModify]
    by_cases h : s = string
    · subst h
      cases hc : mapContains c.stringQueueForward_ s
      · simp
      · simp only [↓reduceIte]
        exact nodup_setInsert _ _ (hn s)
    · simp [h, hn s]

theorem addString_loop (string : S) (keys : List R) (c : RegexMatchCache R S) :
    (keys.foldl (addStringBody string) c).cacheRegexToMatch_ = c.cacheRegexToMatch_ ∧
    (keys.foldl (addStringBody string) c).cacheMatchToRegex_ = c.cacheMatchToRegex_ ∧
    (∀ r, mapContains (keys.foldl (addStringBody string) c).stringQueueReverse_ r =
      (mapContains c.stringQueueReverse_ r || decide (r ∈ keys))) ∧
    (∀ s, mapContains (keys.foldl (addStringBody string) c).stringQueueForward_ s =
      mapContains c.stringQueueForward_ s) ∧
    (∀ r s, s ∈ look (keys.foldl (addStringBody string) c).stringQueueReverse_ r ↔
      s ∈ look c.stringQueueReverse_ r ∨ (r ∈ keys ∧ s = string)) ∧
    (∀ s r, r ∈ look (keys.foldl (addStringBody string) c).stringQueueForward_ s ↔
      r ∈ look c.stringQueueForward_ s ∨
        (s = string ∧ r ∈ keys ∧ mapContains c.stringQueueForward_ string = true)) ∧
    ((∀ r, (look c.stringQueueReverse_ r).Nodup) →
      ∀ r, (look (keys.foldl (addStringBody string) c).stringQueueReverse_ r).Nodup) ∧
    ((∀ s, (look c.stringQueueForward_ s).Nodup) →
      ∀ s, (look (keys.foldl (addStringBody string) c).stringQueueForward_ s).Nodup) := by
  induction keys generalizing c with
  | nil => simp
  | cons k t ih =>
    obtain ⟨b1, b2, b3, b4, b5, b6, b7, b8⟩ := addStringBody_spec string c k
    obtain ⟨i1, i2, i3, i4, i5, i6, i7, i8⟩ := ih (addStringBody string c k)
    simp only [List.foldl_cons]
    refine ⟨i1.trans b1, i2.trans b2, ?_, ?_, ?_, ?_, ?_, ?_⟩
    · intro r
      rw [i3, b3]
      simp [Bool.or_assoc]
    · intro s
      rw [i4, b4]
    · intro r s
      rw [i5, b5]
      simp only [List.mem_cons]
      tauto
    · intro s r
      rw [i6, b6, b4]
      simp only [List.mem_cons]
      tauto
    · exact fun h => i7 (b7 h)
    · exact fun h => i8 (b8 h)

/-- What `addString` does to a consistent cache for an unknown string. -/
theorem addString_spec (E : Env R S) (c : RegexMatchCache R S) (string : S)
    (hc : Consistent E c) (hnew : mapContains c.cacheMatchToRegex_ string = false) :
    ∃ c1, addString c string = .returned c1 ∧
      c1.cacheRegexToMatch_ = c.cacheRegexToMatch_ ∧
      c1.cacheMatchToRegex_ = c.cacheMatchToRegex_ ++ [(string, [])] ∧
      (∀ r, mapContains c1.stringQueueReverse_ r =
        (mapContains c.stringQueueReverse_ r || mapContains c.cacheRegexToMatch_ r)) ∧
      (∀ s, mapContains c1.stringQueueForward_ s =
        (mapContains c.stringQueueForward_ s ||
          (decide (s = string) && !c.cacheRegexToMatch_.isEmpty))) ∧
      (∀ s r, r ∈ pendingRegexesOf c1 s ↔
        r ∈ pendingRegexesOf c s ∨ (s = string ∧ mapContains c.cacheRegexToMatch_ r = true)) ∧
      (∀ r s, s ∈ pendingStringsOf c1 r ↔
        s ∈ pendingStringsOf c r ∨ (s = string ∧ mapContains c.cacheRegexToMatch_ r = true)) ∧
      (∀ s, (pendingRegexesOf c1 s).Nodup) ∧ (∀ r, (pendingStringsOf c1 r).Nodup) := by
  have hsqf : mapContains c.stringQueueForward_ string = false := by
    cases h : mapContains c.stringQueueForward_ string with
    | false => rfl
    | true => rw [hc.queue_string string h] at hnew; exact absurd hnew (by simp)
  unfold addString
  simp only [hnew, Bool.false_eq_true, ↓reduceIte, try_emplace, Bool.not_false, Bool.not_true]
  cases he : c.cacheRegexToMatch_.isEmpty with
  | true =>
    have hk := (isEmpty_iff_no_key _).1 he
    refine ⟨_, rfl, rfl, rfl, ?_, ?_, ?_, ?_, hc.forward_nodup, hc.reverse_nodup⟩
    · intro r; simp [hk r]
    · intro s; simp
    · intro s r; simp [hk r, pendingRegexesOf]
    · intro r s; simp [hk r, pendingStringsOf]
  | false =>
    simp only [hsqf, Bool.not_false, Bool.not_true, Bool.false_eq_true, ↓reduceIte]
    refine ⟨_, rfl, ?_⟩
    obtain ⟨i1, i2, i3, i4, i5, i6, i7, i8⟩ := addString_loop string (mapKeys c.cacheRegexToMatch_)
      { c with
        cacheMatchToRegex_ := c.cacheMatchToRegex_ ++ [(string, [])]
        stringQueueForward_ := c.stringQueueForward_ ++ [(string, [])] }
    have hte : c.stringQueueForward_ ++ [(string, ([] : List R))] =
        try_emplace c.stringQueueForward_ string [] := by
      simp [try_emplace, hsqf]
    simp only [hte] at i1 i2 i3 i4 i5 i6 i7 i8 ⊢
    refine ⟨i1, i2, ?_, ?_, ?_, ?_, ?_, ?_⟩
    · intro r
      rw [i3]
      cases hm : mapContains c.cacheRegexToMatch_ r with
      | true =>
        have := (mapContains_iff_mem_keys _ _).1 hm
        simp [this]
      | false =>
        have hnk : r ∉ mapKeys c.cacheRegexToMatch_ := by
          rw [← mapContains_iff_mem_keys]; simp [hm]
        simp [hnk]
    · intro s
      rw [i4, mapContains_try_emplace]
      simp
    · intro s r
      unfold pendingRegexesOf
      rw [i6, ← mapContains_iff_mem_keys, look_try_emplace, mapContains_try_emplace]
      simp
    · intro r s
      unfold pendingStringsOf
      rw [i5, ← mapContains_iff_mem_keys]
      tauto
    · apply i8
      intro s
      rw [look_try_emplace]
      exact hc.forward_nodup s
    · exact i7 hc.reverse_nodup

theorem addString_consistent (E : Env R S) (c c1 : RegexMatchCache R S)
    (string : S) (hc : Consistent E c) (h : (addString c string).state? = some c1) :
    Consistent E c1 := by
  cases hreg : mapContains c.cacheMatchToRegex_ string with
  | true =>
    have : addString c string = .returned c := by
      unfold addString
      simp [hreg]
    rw [this] at h
    simp only [Outcome.state?, Option.some.injEq] at h
    exact h ▸ hc
  | false =>
    obtain ⟨c2, h2, hrtm, hmtr, hcr, hcf, hpf, hpr, hnf, hnr⟩ := addString_spec E c string hc hreg
    rw [h2] at h
    simp only [Outcome.state?, Option.some.injEq] at h
    subst h
    have hm : ∀ r, matchesOf c2 r = matchesOf c r := by
      intro r; unfold matchesOf; rw [hrtm]
    have hx0 : regexesOf c string = [] := by
      unfold regexesOf
      exact look_eq_nil_of_not_contains _ _ hreg
    have hx : ∀ s, regexesOf c2 s = regexesOf c s := by
      intro s
      unfold regexesOf look
      rw [hmtr, get_ptr_append]
      by_cases hs : string = s
      · subst hs
        rw [(mapContains_false_iff _ _).1 hreg]
        simp [get_ptr_cons]
      · cases get_ptr c.cacheMatchToRegex_ s <;> simp [get_ptr_cons, hs]
    have hstr2 : ∀ s, mapContains c2.cacheMatchToRegex_ s =
        (mapContains c.cacheMatchToRegex_ s || decide (s = string)) := by
      intro s; rw [hmtr, mapContains_append_new]
    have hnm : ∀ r, string ∉ matchesOf c r := by
      intro r hr
      rw [hc.cache_bidi, hx0] at hr
      simp at hr
    refine ⟨?_, ?_, ?_, ?_, ?_, ?_, ?_, hnf, hnr, ?_⟩
    · intro r s
      rw [hm, hx]
      exact hc.cache_bidi r s
    · intro r s
      rw [hpf, hpr, hc.queue_bidi r s]
    · intro r hr
      rw [hcr] at hr
      rw [hrtm]
      simp only [Bool.or_eq_true] at hr
      rcases hr with hr | hr
      · exact hc.queue_regex r hr
      · exact hr
    · intro s hs
      rw [hcf] at hs
      rw [hstr2]
      simp only [Bool.or_eq_true, Bool.and_eq_true, decide_eq_true_eq] at hs ⊢
      rcases hs with hs | hs
      · exact Or.inl (hc.queue_string s hs)
      · exact Or.inr hs.1
    · intro r s hs
      rw [hpr] at hs
      rw [hm]
      rcases hs with hs | ⟨rfl, _⟩
      · exact hc.disjoint r s hs
      · exact hnm r
    · intro s hs
      rw [hcf] at hs
      simp only [Bool.or_eq_true, Bool.and_eq_true, decide_eq_true_eq, Bool.not_eq_true'] at hs
      intro h0
      rcases hs with hs | ⟨rfl, hs⟩
      · have hne := hc.forward_nonempty s hs
        obtain ⟨r, hr⟩ := List.exists_mem_of_ne_nil _ hne
        have : r ∈ pendingRegexesOf c2 s := (hpf s r).2 (Or.inl hr)
        rw [h0] at this
        simp at this
      · obtain ⟨r, hr⟩ := (isEmpty_eq_false_iff_exists_key _).1 hs
        have : r ∈ pendingRegexesOf c2 s := (hpf s r).2 (Or.inr ⟨rfl, hr⟩)
        rw [h0] at this
        simp at this
    · intro r hr
      rw [hcr] at hr
      simp only [Bool.or_eq_true] at hr
      intro h0
      have hr1 : mapContains c.cacheRegexToMatch_ r = true := by
        rcases hr with hr | hr
        · exact hc.queue_regex r hr
        · exact hr
      have : string ∈ pendingStringsOf c2 r := (hpr r string).2 (Or.inr ⟨rfl, hr1⟩)
      rw [h0] at this
      simp at this
    · intro r s hr hs hp
      rw [hrtm] at hr
      rw [hstr2] at hs
      rw [hpr] at hp
      rw [hm]
      simp only [Bool.or_eq_true, decide_eq_true_eq] at hs
      push_neg at hp
      rcases hs with hs | rfl
      · exact hc.accurate r s hr hs hp.1
      · exact absurd hr (hp.2 rfl)

end AddString

section QueueErase

variable {K V : Type} [DecidableEq K] [DecidableEq V]

theorem look_of_get_ptr (m : List (K × List V)) (k : K) (e : List V)
    (h : get_ptr m k = some e) : look m k = e := by
  unfold look; rw [h]; rfl

theorem look_queueErase (m : List (K × List V)) (k : K) (x : V) (e : List V)
    (h : get_ptr m k = some e) (k1 : K) :
    look (if (setErase e x).isEmpty then mapErase m k
      else mapModify m k (fun e => setErase e x)) k1 =
      if k1 = k then setErase (look m k) x else look m k1 := by
  have hl := look_of_get_ptr m k e h
  have hc : mapContains m k = true := (mapContains_iff m k).2 ⟨e, h⟩
  cases he : (setErase e x).isEmpty with
  | true =>
    simp only [↓reduceIte, look_mapErase, hl]
    by_cases h1 : k1 = k
    · simp only [h1, ↓reduceIte]
      exact (List.isEmpty_iff.1 he).symm
    · simp [h1]
  | false =>
    simp only [Bool.false_eq_true, ↓reduceIte, look_mapModify, hc, hl]

theorem mapContains_queueErase (m : List (K × List V)) (k : K) (x : V) (e : List V)
    (h : get_ptr m k = some e) (k1 : K) :
    mapContains (if (setErase e x).isEmpty then mapErase m k
      else mapModify m k (fun e => setErase e x)) k1 =
      if k1 = k then !(setErase (look m k) x).isEmpty else mapContains m k1 := by
  have hl := look_of_get_ptr m k e h
  have hc : mapContains m k = true := (mapContains_iff m k).2 ⟨e, h⟩
  cases he : (setErase e x).isEmpty with
  | true =>
    simp only [↓reduceIte, mapContains_mapErase, hl, he]
    by_cases h1 : k1 = k
    · simp [h1]
    · simp [h1]
  | false =>
    simp only [Bool.false_eq_true, ↓reduceIte, mapContains_mapModify, hl, he]
    by_cases h1 : k1 = k
    · simp [h1, hc]
    · simp [h1]

theorem mapKeys_mapModify {W : Type} (m : List (K × W)) (k : K) (f : W → W) :
    mapKeys (mapModify m k f) = mapKeys m := by
  unfold mapKeys mapModify
  rw [List.map_map]
  apply List.map_congr_left
  intro p _
  simp only [Function.comp]
  split <;> rfl

end QueueErase

section EraseRegex

variable {R S : Type} [DecidableEq R] [DecidableEq S]

theorem eraseRegexMatches_spec (regexp : R) (ms : List S) (c : RegexMatchCache R S)
    (hk : ∀ s ∈ ms, mapContains c.cacheMatchToRegex_ s = true) :
    ∃ c1, eraseRegexMatches regexp ms c = .returned c1 ∧
      c1.cacheRegexToMatch_ = c.cacheRegexToMatch_ ∧
      c1.stringQueueForward_ = c.stringQueueForward_ ∧
      c1.stringQueueReverse_ = c.stringQueueReverse_ ∧
      mapKeys c1.cacheMatchToRegex_ = mapKeys c.cacheMatchToRegex_ ∧
      (∀ s, mapContains c1.cacheMatchToRegex_ s = mapContains c.cacheMatchToRegex_ s) ∧
      (∀ s, look c1.cacheMatchToRegex_ s =
        if s ∈ ms then setErase (look c.cacheMatchToRegex_ s) regexp
        else look c.cacheMatchToRegex_ s) := by
  induction ms generalizing c with
  | nil => exact ⟨c, rfl, rfl, rfl, rfl, rfl, fun _ => rfl, fun s => by simp⟩
  | cons m rest ih =>
    obtain ⟨e, he⟩ := (mapContains_iff _ _).1 (hk m (List.mem_cons_self _ _))
    unfold eraseRegexMatches
    simp only [he]
    have hk1 : ∀ s ∈ rest, mapContains (RegexMatchCache.mk c.cacheRegexToMatch_
        (mapModify c.cacheMatchToRegex_ m (fun e => setErase e regexp))
        c.stringQueueForward_ c.stringQueueReverse_).cacheMatchToRegex_ s = true := by
      intro s hs
      simp only [mapContains_mapModify]
      exact hk s (List.mem_cons_of_mem _ hs)
    obtain ⟨c1, h1, h2, h3, h4, h5, h6, h7⟩ := ih _ hk1
    refine ⟨c1, h1, h2, h3, h4, ?_, ?_, ?_⟩
    · rw [h5]
      exact mapKeys_mapModify _ _ _
    · intro s
      rw [h6, mapContains_mapModify]
    · intro s
      rw [h7]
      simp only [look_mapModify, List.mem_cons]
      have hcm : mapContains c.cacheMatchToRegex_ m = true := (mapContains_iff _ _).2 ⟨e, he⟩
      by_cases hs : s = m
      · subst hs
        simp only [↓reduceIte, hcm, true_or]
        split
        · unfold setErase; simp [List.filter_filter]
        · rfl
      · simp [hs]

theorem eraseRegexQueue_spec (regexp : R) (strings : List S) (c : RegexMatchCache R S)
    (hnd : strings.Nodup)
    (hk : ∀ s ∈ strings, mapContains c.stringQueueForward_ s = true) :
    ∃ c1, eraseRegexQueue regexp strings c = .returned c1 ∧
      c1.cacheRegexToMatch_ = c.cacheRegexToMatch_ ∧
      c1.cacheMatchToRegex_ = c.cacheMatchToRegex_ ∧
      c1.stringQueueReverse_ = c.stringQueueReverse_ ∧
      (∀ s, look c1.stringQueueForward_ s =
        if s ∈ strings then setErase (look c.stringQueueForward_ s) regexp
        else look c.stringQueueForward_ s) ∧
      (∀ s, mapContains c1.stringQueueForward_ s =
        if s ∈ strings then !(setErase (look c.stringQueueForward_ s) regexp).isEmpty
        else mapContains c.stringQueueForward_ s) := by
  induction strings generalizing c with
  | nil => exact ⟨c, rfl, rfl, rfl, rfl, fun s => by simp, fun s => by simp⟩
  | cons m rest ih =>
    obtain ⟨e, he⟩ := (mapContains_iff _ _).1 (hk m (List.mem_cons_self _ _))
    have hnd1 := (List.nodup_cons.1 hnd)
    have hlk := look_queueErase c.stringQueueForward_ m regexp e he
    have hct := mapContains_queueErase c.stringQueueForward_ m regexp e he
    have key : eraseRegexQueue regexp (m :: rest) c = eraseRegexQueue regexp rest
        { c with stringQueueForward_ :=
            if (setErase e regexp).isEmpty then mapErase c.stringQueueForward_ m
            else mapModify c.stringQueueForward_ m (fun e => setErase e regexp) } := by
      conv_lhs => unfold eraseRegexQueue
      simp only [he]
      split <;> rfl
    rw [key]
    have hk1 : ∀ s ∈ rest, mapContains (RegexMatchCache.mk c.cacheRegexToMatch_
        c.cacheMatchToRegex_
        (if (setErase e regexp).isEmpty then mapErase c.stringQueueForward_ m
          else mapModify c.stringQueueForward_ m (fun e => setErase e regexp))
        c.stringQueueReverse_).stringQueueForward_ s = true := by
      intro s hs
      have hsm : s ≠ m := fun h => hnd1.1 (h ▸ hs)
      simp only [hct, hsm, ↓reduceIte]
      exact hk s (List.mem_cons_of_mem _ hs)
    obtain ⟨c1, h1, h2, h3, h4, h5, h6⟩ := ih _ hnd1.2 hk1
    refine ⟨c1, h1, h2, h3, h4, ?_, ?_⟩
    · intro s
      rw [h5]
      simp only [hlk, List.mem_cons]
      by_cases hs : s = m
      · subst hs
        simp [hnd1.1]
      · simp [hs]
    · intro s
      rw [h6]
      simp only [hlk, hct, List.mem_cons]
      by_cases hs : s = m
      · subst hs
        simp [hnd1.1]
      · simp [hs]

end EraseRegex

section EraseRegexSpec

variable {R S : Type} [DecidableEq R] [DecidableEq S]

theorem eraseRegexPending_spec (E : Env R S) (c c0 : RegexMatchCache R S) (regex : R)
    (hc : Consistent E c)
    (hf : c0.stringQueueForward_ = c.stringQueueForward_)
    (hr : c0.stringQueueReverse_ = c.stringQueueReverse_) :
    ∃ c1, eraseRegexPending regex c0 = .returned c1 ∧
      c1.cacheRegexToMatch_ = c0.cacheRegexToMatch_ ∧
      c1.cacheMatchToRegex_ = c0.cacheMatchToRegex_ ∧
      c1.stringQueueReverse_ = mapErase c.stringQueueReverse_ regex ∧
      (∀ s, look c1.stringQueueForward_ s = setErase (pendingRegexesOf c s) regex) ∧
      (∀ s, mapContains c1.stringQueueForward_ s = true → look c1.stringQueueForward_ s ≠ []) ∧
      (∀ s, mapContains c1.stringQueueForward_ s = true →
        mapContains c.stringQueueForward_ s = true) := by
  unfold eraseRegexPending
  rw [hr]
  cases hg : get_ptr c.stringQueueReverse_ regex with
  | none =>
    have hnone : ∀ s, regex ∉ pendingRegexesOf c s := by
      intro s h
      rw [hc.queue_bidi] at h
      unfold pendingStringsOf look at h
      rw [hg] at h
      simp at h
    have hme : mapErase c.stringQueueReverse_ regex = c.stringQueueReverse_ := by
      unfold mapErase
      rw [List.filter_eq_self]
      intro p hp
      simp only [ne_eq, decide_not, Bool.not_eq_eq_eq_not, Bool.not_true, decide_eq_false_iff_not]
      intro h
      have : p.1 ∈ mapKeys c.stringQueueReverse_ := List.mem_map_of_mem _ hp
      rw [← mapContains_iff_mem_keys, h, (mapContains_false_iff _ _).2 hg] at this
      simp at this
    refine ⟨c0, rfl, rfl, rfl, ?_, ?_, ?_, ?_⟩
    · rw [hr, hme]
    · intro s
      rw [hf, setErase_of_not_mem _ _ (hnone s)]
      rfl
    · intro s hs
      rw [hf] at hs ⊢
      exact hc.forward_nonempty s hs
    · intro s hs
      rw [hf] at hs
      exact hs
  | some strings =>
    have hl : pendingStringsOf c regex = strings := look_of_get_ptr _ _ _ hg
    have hnd : strings.Nodup := hl ▸ hc.reverse_nodup regex
    have hk : ∀ s ∈ strings, mapContains c0.stringQueueForward_ s = true := by
      intro s hs
      rw [hf]
      rw [← hl, ← hc.queue_bidi] at hs
      exact mapContains_of_mem_look _ _ _ hs
    obtain ⟨c1, h1, h2, h3, h4, h5, h6⟩ := eraseRegexQueue_spec regex strings c0 hnd hk
    simp only [h1, Outcome.andThen]
    refine ⟨_, rfl, h2, h3, ?_, ?_, ?_, ?_⟩
    · simp only [h4, hr]
    · intro s
      simp only [h5, hf]
      split
      · rfl
      · rename_i hs
        have : regex ∉ pendingRegexesOf c s := by
          intro h
          rw [hc.queue_bidi, hl] at h
          exact hs h
        rw [setErase_of_not_mem _ _ this]
        rfl
    · intro s hs
      simp only [h6, hf] at hs
      simp only [h5, hf]
      split
      · rename_i hm
        simp only [hm, ↓reduceIte, Bool.not_eq_true', List.isEmpty_eq_false] at hs
        intro h0
        rw [h0] at hs
        simp at hs
      · rename_i hm
        simp only [hm, ↓reduceIte] at hs
        exact hc.forward_nonempty s hs
    · intro s hs
      simp only [h6, hf] at hs
      by_cases hm : s ∈ strings
      · rw [← hl, ← hc.queue_bidi] at hm
        exact mapContains_of_mem_look _ _ _ hm
      · simp only [hm, ↓reduceIte] at hs
        exact hs

/-- What `eraseRegex` does to a consistent cache for a registered regex. -/
theorem eraseRegex_spec (E : Env R S) (c : RegexMatchCache R S) (regex : R)
    (hc : Consistent E c) (hreg : hasRegex c regex = true) :
    ∃ c1, eraseRegex c regex = .returned c1 ∧
      c1.cacheRegexToMatch_ = mapErase c.cacheRegexToMatch_ regex ∧
      mapKeys c1.cacheMatchToRegex_ = mapKeys c.cacheMatchToRegex_ ∧
      c1.stringQueueReverse_ = mapErase c.stringQueueReverse_ regex ∧
      (∀ s, regexesOf c1 s = setErase (regexesOf c s) regex) ∧
      (∀ s, pendingRegexesOf c1 s = setErase (pendingRegexesOf c s) regex) ∧
      (∀ s, mapContains c1.stringQueueForward_ s = true → pendingRegexesOf c1 s ≠ []) ∧
      (∀ s, mapContains c1.stringQueueForward_ s = true →
        mapContains c.stringQueueForward_ s = true) := by
  obtain ⟨e, he⟩ := (mapContains_iff _ _).1 hreg
  have hm : matchesOf c regex = e.matches_ := by
    unfold matchesOf; rw [he]
  have hk : ∀ s ∈ e.matches_, mapContains c.cacheMatchToRegex_ s = true := by
    intro s hs
    rw [← hm, hc.cache_bidi] at hs
    exact mapContains_of_mem_look _ _ _ hs
  obtain ⟨c1, h1, h2, h3, h4, h5, h6, h7⟩ := eraseRegexMatches_spec regex e.matches_ c hk
  obtain ⟨c2, g1, g2, g3, g4, g5, g6, g7⟩ := eraseRegexPending_spec E c c1 regex hc h3 h4
  unfold eraseRegex
  simp only [he, h1, Outcome.andThen, g1, guarded]
  refine ⟨_, rfl, ?_, ?_, g4, ?_, g5, g6, g7⟩
  · simp only [g2, h2]
  · simp only [g3, h5]
  · intro s
    unfold regexesOf
    simp only [g3, h7]
    split
    · rfl
    · rename_i hs
      have : regex ∉ regexesOf c s := by
        intro h
        rw [← hc.cache_bidi, hm] at h
        exact hs h
      exact (setErase_of_not_mem _ _ this).symm

theorem mapContains_of_mapKeys_eq {K V W : Type} [DecidableEq K] (m : List (K × V))
    (m1 : List (K × W)) (h : mapKeys m = mapKeys m1) (k : K) :
    mapContains m k = mapContains m1 k := by
  have h1 := mapContains_iff_mem_keys m k
  have h2 := mapContains_iff_mem_keys m1 k
  rw [h] at h1
  cases ha : mapContains m k <;> cases hb : mapContains m1 k <;> simp_all

theorem matchesOf_mapErase (c c1 : RegexMatchCache R S) (regex : R)
    (h : c1.cacheRegexToMatch_ = mapErase c.cacheRegexToMatch_ regex) (r : R) :
    matchesOf c1 r = if r = regex then [] else matchesOf c r := by
  unfold matchesOf
  rw [h, get_ptr_mapErase]
  by_cases hr : r = regex <;> simp [hr]

theorem eraseRegex_consistent (E : Env R S) (c c1 : RegexMatchCache R S)
    (regex : R) (hc : Consistent E c) (h : (eraseRegex c regex).state? = some c1) :
    Consistent E c1 := by
  cases hreg : hasRegex c regex with
  | false =>
    have : eraseRegex c regex = .returned c := by
      unfold eraseRegex
      rw [(mapContains_false_iff _ _).1 hreg]
    rw [this] at h
    simp only [Outcome.state?, Option.some.injEq] at h
    exact h ▸ hc
  | true =>
    obtain ⟨c2, h2, hrtm, hmtr, hsqr, hx, hpf, hne, hsub⟩ := eraseRegex_spec E c regex hc hreg
    rw [h2] at h
    simp only [Outcome.state?, Option.some.injEq] at h
    subst h
    have hm := matchesOf_mapErase c c2 regex hrtm
    have hcs := mapContains_of_mapKeys_eq _ _ hmtr
    have hpr : ∀ r, pendingStringsOf c2 r = if r = regex then [] else pendingStringsOf c r := by
      intro r
      unfold pendingStringsOf
      rw [hsqr, look_mapErase]
    refine ⟨?_, ?_, ?_, ?_, ?_, hne, ?_, ?_, ?_, ?_⟩
    · intro r s
      rw [hm, hx, mem_setErase, ← hc.cache_bidi]
      by_cases hr : r = regex <;> simp [hr]
    · intro r s
      rw [hpf, hpr, mem_setErase, hc.queue_bidi]
      by_cases hr : r = regex <;> simp [hr]
    · intro r hr
      rw [hsqr, mapContains_mapErase] at hr
      rw [hrtm, mapContains_mapErase]
      simp only [Bool.and_eq_true] at hr ⊢
      exact ⟨hc.queue_regex r hr.1, hr.2⟩
    · intro s hs
      rw [hcs]
      exact hc.queue_string s (hsub s hs)
    · intro r s hs
      rw [hpr] at hs
      rw [hm]
      by_cases hr : r = regex
      · simp [hr]
      · simp only [hr, ↓reduceIte] at hs ⊢
        exact hc.disjoint r s hs
    · intro r hr
      rw [hsqr, mapContains_mapErase] at hr
      simp only [Bool.and_eq_true, decide_eq_true_eq] at hr
      rw [hpr]
      simp only [hr.2, ↓reduceIte]
      exact hc.reverse_nonempty r hr.1
    · intro s
      rw [hpf]
      exact nodup_setErase _ _ (hc.forward_nodup s)
    · intro r
      rw [hpr]
      split
      · exact List.nodup_nil
      · exact hc.reverse_nodup r
    · intro r s hr hs hp
      rw [hrtm, mapContains_mapErase] at hr
      simp only [Bool.and_eq_true, decide_eq_true_eq] at hr
      rw [hcs] at hs
      rw [hpr] at hp
      rw [hm]
      simp only [hr.2, ↓reduceIte] at hp ⊢
      exact hc.accurate r s hr.1 hs hp

end EraseRegexSpec

section EraseString

variable {R S : Type} [DecidableEq R] [DecidableEq S]

theorem mapErase_of_not_contains {K V : Type} [DecidableEq K] (m : List (K × V)) (k : K)
    (h : mapContains m k = false) : mapErase m k = m := by
  unfold mapErase
  rw [List.filter_eq_self]
  intro p hp
  simp only [ne_eq, decide_not, Bool.not_eq_eq_eq_not, Bool.not_true, decide_eq_false_iff_not]
  intro h1
  have : p.1 ∈ mapKeys m := List.mem_map_of_mem _ hp
  rw [← mapContains_iff_mem_keys, h1, h] at this
  simp at this

theorem matchesOf_mapModify (c c1 : RegexMatchCache R S) (k : R) (f : List S → List S)
    (h : c1.cacheRegexToMatch_ =
      mapModify c.cacheRegexToMatch_ k (fun e => { e with matches_ := f e.matches_ })) (r : R) :
    matchesOf c1 r =
      if r = k then (if mapContains c.cacheRegexToMatch_ k then f (matchesOf c k) else [])
      else matchesOf c r := by
  unfold matchesOf mapContains
  rw [h, get_ptr_mapModify]
  by_cases hr : r = k
  · subst hr
    cases get_ptr c.cacheRegexToMatch_ r <;> simp
  · simp [hr]

theorem accessedAt_mapModify (c c1 : RegexMatchCache R S) (k : R) (f : List S → List S)
    (h : c1.cacheRegexToMatch_ =
      mapModify c.cacheRegexToMatch_ k (fun e => { e with matches_ := f e.matches_ })) (r : R) :
    accessedAt c1 r = accessedAt c r := by
  unfold accessedAt
  rw [h, get_ptr_mapModify]
  by_cases hr : r = k
  · subst hr
    cases get_ptr c.cacheRegexToMatch_ r <;> simp
  · simp [hr]

theorem eraseStringMatches_spec (string : S) (rs : List R) (c : RegexMatchCache R S)
    (hk : ∀ r ∈ rs, mapContains c.cacheRegexToMatch_ r = true) :
    ∃ c1, eraseStringMatches string rs c = .returned c1 ∧
      c1.cacheMatchToRegex_ = c.cacheMatchToRegex_ ∧
      c1.stringQueueForward_ = c.stringQueueForward_ ∧
      c1.stringQueueReverse_ = c.stringQueueReverse_ ∧
      mapKeys c1.cacheRegexToMatch_ = mapKeys c.cacheRegexToMatch_ ∧
      (∀ r, accessedAt c1 r = accessedAt c r) ∧
      (∀ r, matchesOf c1 r =
        if r ∈ rs then setErase (matchesOf c r) string else matchesOf c r) := by
  induction rs generalizing c with
  | nil => exact ⟨c, rfl, rfl, rfl, rfl, rfl, fun _ => rfl, fun s => by simp⟩
  | cons m rest ih =>
    obtain ⟨e, he⟩ := (mapContains_iff _ _).1 (hk m (List.mem_cons_self _ _))
    unfold eraseStringMatches
    simp only [he]
    have hk1 : ∀ r ∈ rest, mapContains (RegexMatchCache.mk
        (mapModify c.cacheRegexToMatch_ m
          (fun e => { e with matches_ := setErase e.matches_ string }))
        c.cacheMatchToRegex_ c.stringQueueForward_ c.stringQueueReverse_).cacheRegexToMatch_ r
          = true := by
      intro r hr
      simp only [mapContains_mapModify]
      exact hk r (List.mem_cons_of_mem _ hr)
    obtain ⟨c1, h1, h2, h3, h4, h5, h6, h7⟩ := ih _ hk1
    refine ⟨c1, h1, h2, h3, h4, ?_, ?_, ?_⟩
    · rw [h5]
      simp only [mapKeys_mapModify]
    · intro r
      rw [h6]
      exact accessedAt_mapModify c (RegexMatchCache.mk
        (mapModify c.cacheRegexToMatch_ m
          (fun e => { e with matches_ := setErase e.matches_ string }))
        c.cacheMatchToRegex_ c.stringQueueForward_ c.stringQueueReverse_) m
        (fun l => setErase l string) rfl r
    · intro r
      rw [h7]
      have hmm := matchesOf_mapModify c (RegexMatchCache.mk
        (mapModify c.cacheRegexToMatch_ m
          (fun e => { e with matches_ := setErase e.matches_ string }))
        c.cacheMatchToRegex_ c.stringQueueForward_ c.stringQueueReverse_) m
        (fun l => setErase l string) rfl
      simp only [hmm, List.mem_cons]
      have hcm : mapContains c.cacheRegexToMatch_ m = true := (mapContains_iff _ _).2 ⟨e, he⟩
      by_cases hr : r = m
      · subst hr
        simp only [↓reduceIte, hcm, true_or]
        split
        · unfold setErase; simp [List.filter_filter]
        · rfl
      · simp [hr]

theorem eraseStringQueue_spec (string : S) (regexes : List R) (c : RegexMatchCache R S)
    (hnd : regexes.Nodup)
    (hk : ∀ r ∈ regexes, mapContains c.stringQueueReverse_ r = true) :
    ∃ c1, eraseStringQueue string regexes c = .returned c1 ∧
      c1.cacheRegexToMatch_ = c.cacheRegexToMatch_ ∧
      c1.cacheMatchToRegex_ = c.cacheMatchToRegex_ ∧
      c1.stringQueueForward_ = c.stringQueueForward_ ∧
      (∀ r, look c1.stringQueueReverse_ r =
        if r ∈ regexes then setErase (look c.stringQueueReverse_ r) string
        else look c.stringQueueReverse_ r) ∧
      (∀ r, mapContains c1.stringQueueReverse_ r =
        if r ∈ regexes then !(setErase (look c.stringQueueReverse_ r) string).isEmpty
        else mapContains c.stringQueueReverse_ r) := by
  induction regexes generalizing c with
  | nil => exact ⟨c, rfl, rfl, rfl, rfl, fun s => by simp, fun s => by simp⟩
  | cons m rest ih =>
    obtain ⟨e, he⟩ := (mapContains_iff _ _).1 (hk m (List.mem_cons_self _ _))
    have hnd1 := (List.nodup_cons.1 hnd)
    have hlk := look_queueErase c.stringQueueReverse_ m string e he
    have hct := mapContains_queueErase c.stringQueueReverse_ m string e he
    have key : eraseStringQueue string (m :: rest) c = eraseStringQueue string rest
        { c with stringQueueReverse_ :=
            if (setErase e string).isEmpty then mapErase c.stringQueueReverse_ m
            else mapModify c.stringQueueReverse_ m (fun e => setErase e string) } := by
      conv_lhs => unfold eraseStringQueue
      simp only [he]
      split <;> rfl
    rw [key]
    have hk1 : ∀ r ∈ rest, mapContains (RegexMatchCache.mk c.cacheRegexToMatch_
        c.cacheMatchToRegex_ c.stringQueueForward_
        (if (setErase e string).isEmpty then mapErase c.stringQueueReverse_ m
          else mapModify c.stringQueueReverse_ m (fun e => setErase e string))
        ).stringQueueReverse_ r = true := by
      intro r hr
      have hsm : r ≠ m := fun h => hnd1.1 (h ▸ hr)
      simp only [hct, hsm, ↓reduceIte]
      exact hk r (List.mem_cons_of_mem _ hr)
    obtain ⟨c1, h1, h2, h3, h4, h5, h6⟩ := ih _ hnd1.2 hk1
    refine ⟨c1, h1, h2, h3, h4, ?_, ?_⟩
    · intro r
      rw [h5]
      simp only [hlk, List.mem_cons]
      by_cases hr : r = m
      · subst hr
        simp [hnd1.1]
      · simp [hr]
    · intro r
      rw [h6]
      simp only [hlk, hct, List.mem_cons]
      by_cases hr : r = m
      · subst hr
        simp [hnd1.1]
      · simp [hr]

theorem eraseStringPending_spec (E : Env R S) (c : RegexMatchCache R S) (string : S)
    (hc : Consistent E c) :
    ∃ c1, eraseStringPending string c = .returned c1 ∧
      c1.cacheRegexToMatch_ = c.cacheRegexToMatch_ ∧
      c1.cacheMatchToRegex_ = c.cacheMatchToRegex_ ∧
      c1.stringQueueForward_ = mapErase c.stringQueueForward_ string ∧
      (∀ r, look c1.stringQueueReverse_ r = setErase (pendingStringsOf c r) string) ∧
      (∀ r, mapContains c1.stringQueueReverse_ r = true → look c1.stringQueueReverse_ r ≠ []) ∧
      (∀ r, mapContains c1.stringQueueReverse_ r = true →
        mapContains c.stringQueueReverse_ r = true) := by
  unfold eraseStringPending
  cases hg : get_ptr c.stringQueueForward_ string with
  | none =>
    have hnone : ∀ r, string ∉ pendingStringsOf c r := by
      intro r h
      rw [← hc.queue_bidi] at h
      unfold pendingRegexesOf look at h
      rw [hg] at h
      simp at h
    have hme := mapErase_of_not_contains c.stringQueueForward_ string
      ((mapContains_false_iff _ _).2 hg)
    refine ⟨c, rfl, rfl, rfl, ?_, ?_, ?_, ?_⟩
    · rw [hme]
    · intro r
      rw [setErase_of_not_mem _ _ (hnone r)]
      rfl
    · intro r hr
      exact hc.reverse_nonempty r hr
    · intro r hr
      exact hr
  | some regexes =>
    have hl : pendingRegexesOf c string = regexes := look_of_get_ptr _ _ _ hg
    have hnd : regexes.Nodup := hl ▸ hc.forward_nodup string
    have hk : ∀ r ∈ regexes, mapContains c.stringQueueReverse_ r = true := by
      intro r hr
      rw [← hl, hc.queue_bidi] at hr
      exact mapContains_of_mem_look _ _ _ hr
    obtain ⟨c1, h1, h2, h3, h4, h5, h6⟩ := eraseStringQueue_spec string regexes c hnd hk
    simp only [h1, Outcome.andThen]
    refine ⟨_, rfl, h2, h3, ?_, ?_, ?_, ?_⟩
    · simp only [h4]
    · intro r
      simp only [h5]
      split
      · rfl
      · rename_i hr
        have : string ∉ pendingStringsOf c r := by
          intro h
          rw [← hc.queue_bidi, hl] at h
          exact hr h
        rw [setErase_of_not_mem _ _ this]
        rfl
    · intro r hr
      simp only [h6] at hr
      simp only [h5]
      split
      · rename_i hm
        simp only [hm, ↓reduceIte, Bool.not_eq_true', List.isEmpty_eq_false] at hr
        intro h0
        rw [h0] at hr
        simp at hr
      · rename_i hm
        simp only [hm, ↓reduceIte] at hr
        exact hc.reverse_nonempty r hr
    · intro r hr
      simp only [h6] at hr
      by_cases hm : r ∈ regexes
      · rw [← hl, hc.queue_bidi] at hm
        exact mapContains_of_mem_look _ _ _ hm
      · simp only [hm, ↓reduceIte] at hr
        exact hr

/-- What `eraseString` does to a consistent cache. -/
theorem eraseString_spec (E : Env R S) (c : RegexMatchCache R S) (string : S)
    (hc : Consistent E c) :
    ∃ c1, eraseString c string = .returned c1 ∧
      c1.cacheMatchToRegex_ = mapErase c.cacheMatchToRegex_ string ∧
      c1.stringQueueForward_ = mapErase c.stringQueueForward_ string ∧
      mapKeys c1.cacheRegexToMatch_ = mapKeys c.cacheRegexToMatch_ ∧
      (∀ r, accessedAt c1 r = accessedAt c r) ∧
      (∀ r, matchesOf c1 r = setErase (matchesOf c r) string) ∧
      (∀ r, pendingStringsOf c1 r = setErase (pendingStringsOf c r) string) ∧
      (∀ r, mapContains c1.stringQueueReverse_ r = true → pendingStringsOf c1 r ≠ []) ∧
      (∀ r, mapContains c1.stringQueueReverse_ r = true →
        mapContains c.stringQueueReverse_ r = true) := by
  obtain ⟨c1, g1, g2, g3, g4, g5, g6, g7⟩ := eraseStringPending_spec E c string hc
  unfold eraseString
  simp only [g1, Outcome.andThen]
  unfold eraseStringCached
  rw [g3]
  cases hg : get_ptr c.cacheMatchToRegex_ string with
  | none =>
    have hme := mapErase_of_not_contains c.cacheMatchToRegex_ string
      ((mapContains_false_iff _ _).2 hg)
    have hnone : ∀ r, string ∉ matchesOf c r := by
      intro r h
      rw [hc.cache_bidi] at h
      unfold regexesOf look at h
      rw [hg] at h
      simp at h
    simp only [guarded]
    refine ⟨c1, rfl, ?_, g4, ?_, ?_, ?_, g5, g6, g7⟩
    · rw [g3, hme]
    · rw [g2]
    · intro r; unfold accessedAt; rw [g2]
    · intro r
      rw [setErase_of_not_mem _ _ (hnone r)]
      unfold matchesOf; rw [g2]
  | some regexes =>
    have hl : regexesOf c string = regexes := look_of_get_ptr _ _ _ hg
    have hk : ∀ r ∈ regexes, mapContains c1.cacheRegexToMatch_ r = true := by
      intro r hr
      rw [g2]
      rw [← hl, ← hc.cache_bidi] at hr
      cases hcm : mapContains c.cacheRegexToMatch_ r with
      | true => rfl
      | false =>
        unfold matchesOf at hr
        rw [(mapContains_false_iff _ _).1 hcm] at hr
        simp at hr
    obtain ⟨c2, h1, h2, h3, h4, h5, h6, h7⟩ := eraseStringMatches_spec string regexes c1 hk
    simp only [h1, Outcome.andThen, guarded]
    have hmc : ∀ r, matchesOf c1 r = matchesOf c r := by
      intro r; unfold matchesOf; rw [g2]
    have hac : ∀ r, accessedAt c1 r = accessedAt c r := by
      intro r; unfold accessedAt; rw [g2]
    refine ⟨_, rfl, ?_, ?_, ?_, ?_, ?_, ?_, ?_, ?_⟩
    · simp only [h2, g3]
    · simp only [h3, g4]
    · simp only [h5, g2]
    · intro r
      exact (h6 r).trans (hac r)
    · intro r
      have := h7 r
      unfold matchesOf at this ⊢
      simp only at this ⊢
      rw [this]
      have hmc1 := hmc r
      unfold matchesOf at hmc1
      rw [hmc1]
      split
      · rfl
      · rename_i hr
        have hn : string ∉ matchesOf c r := by
          intro h
          rw [hc.cache_bidi, hl] at h
          exact hr h
        exact (setErase_of_not_mem _ _ hn).symm
    · intro r
      unfold pendingStringsOf
      simp only [h4]
      exact g5 r
    · intro r hr
      unfold pendingStringsOf
      simp only [h4] at hr ⊢
      exact g6 r hr
    · intro r hr
      simp only [h4] at hr
      exact g7 r hr

end EraseString

section SimpleOps

variable {R S : Type} [DecidableEq R] [DecidableEq S]

theorem eraseString_consistent (E : Env R S) (c c1 : RegexMatchCache R S)
    (string : S) (hc : Consistent E c) (h : (eraseString c string).state? = some c1) :
    Consistent E c1 := by
  obtain ⟨c2, h2, hmtr, hsqf, hrtm, hacc, hm, hpr, hne, hsub⟩ := eraseString_spec E c string hc
  rw [h2] at h
  simp only [Outcome.state?, Option.some.injEq] at h
  subst h
  have hcr := mapContains_of_mapKeys_eq _ _ hrtm
  have hx : ∀ s, regexesOf c2 s = if s = string then [] else regexesOf c s := by
    intro s; unfold regexesOf; rw [hmtr, look_mapErase]
  have hpf : ∀ s, pendingRegexesOf c2 s = if s = string then [] else pendingRegexesOf c s := by
    intro s; unfold pendingRegexesOf; rw [hsqf, look_mapErase]
  refine ⟨?_, ?_, ?_, ?_, ?_, ?_, hne, ?_, ?_, ?_⟩
  · intro r s
    rw [hm, hx, mem_setErase, hc.cache_bidi]
    by_cases hs : s = string <;> simp [hs]
  · intro r s
    rw [hpf, hpr, mem_setErase, ← hc.queue_bidi]
    by_cases hs : s = string <;> simp [hs]
  · intro r hr
    rw [hcr]
    exact hc.queue_regex r (hsub r hr)
  · intro s hs
    rw [hsqf, mapContains_mapErase] at hs
    rw [hmtr, mapContains_mapErase]
    simp only [Bool.and_eq_true] at hs ⊢
    exact ⟨hc.queue_string s hs.1, hs.2⟩
  · intro r s hs
    rw [hpr, mem_setErase] at hs
    rw [hm, mem_setErase]
    exact fun h => hc.disjoint r s hs.1 h.1
  · intro s hs
    rw [hsqf, mapContains_mapErase] at hs
    simp only [Bool.and_eq_true, decide_eq_true_eq] at hs
    rw [hpf]
    simp only [hs.2, ↓reduceIte]
    exact hc.forward_nonempty s hs.1
  · intro s
    rw [hpf]
    split
    · exact List.nodup_nil
    · exact hc.forward_nodup s
  · intro r
    rw [hpr]
    exact nodup_setErase _ _ (hc.reverse_nodup r)
  · intro r s hr hs hp
    rw [hcr] at hr
    rw [hmtr, mapContains_mapErase] at hs
    simp only [Bool.and_eq_true, decide_eq_true_eq] at hs
    rw [hpr, mem_setErase] at hp
    have hp1 : s ∉ pendingStringsOf c r := fun h => hp ⟨h, hs.2⟩
    have := hc.accurate r s hr hs.1 hp1
    refine ⟨this.1, ?_⟩
    rw [this.2]
    congr 1
    rw [decide_eq_decide, hm, mem_setErase]
    simp [hs.2]

theorem look_map_nil {K V : Type} [DecidableEq K] (m : List (K × List V)) (k : K) :
    look (m.map (fun p => (p.1, ([] : List V)))) k = [] := by
  induction m with
  | nil => rfl
  | cons p t ih =>
    unfold look at ih ⊢
    simp only [List.map_cons, get_ptr_cons]
    split
    · rfl
    · exact ih

theorem repair_consistent (E : Env R S) (c : RegexMatchCache R S) :
    Consistent E (repair c) := by
  refine ⟨?_, ?_, ?_, ?_, ?_, ?_, ?_, ?_, ?_, ?_⟩
  · intro r s
    simp [matchesOf, regexesOf, repair, look_map_nil]
  · intro r s
    simp [pendingRegexesOf, pendingStringsOf, repair, look]
  · intro r hr
    simp [repair, mapContains] at hr
  · intro s hs
    simp [repair, mapContains] at hs
  · intro r s hs
    simp [pendingStringsOf, repair, look] at hs
  · intro s hs
    simp [repair, mapContains] at hs
  · intro r hr
    simp [repair, mapContains] at hr
  · intro s
    simp [pendingRegexesOf, repair, look]
  · intro r
    simp [pendingStringsOf, repair, look]
  · intro r s hr
    simp [repair, mapContains] at hr

theorem clear_consistent (E : Env R S) (c : RegexMatchCache R S) :
    Consistent E (clear c) := by
  refine ⟨?_, ?_, ?_, ?_, ?_, ?_, ?_, ?_, ?_, ?_⟩ <;>
    simp [matchesOf, regexesOf, pendingRegexesOf, pendingStringsOf, clear, look, mapContains]

theorem empty_consistent (E : Env R S) :
    Consistent E (RegexMatchCache.empty : RegexMatchCache R S) := clear_consistent E ⟨[], [], [], []⟩

theorem consistent_of_same_views (E : Env R S) (c c1 : RegexMatchCache R S)
    (hm : ∀ r, matchesOf c1 r = matchesOf c r)
    (hr : ∀ r, mapContains c1.cacheRegexToMatch_ r = mapContains c.cacheRegexToMatch_ r)
    (h2 : c1.cacheMatchToRegex_ = c.cacheMatchToRegex_)
    (h3 : c1.stringQueueForward_ = c.stringQueueForward_)
    (h4 : c1.stringQueueReverse_ = c.stringQueueReverse_)
    (hc : Consistent E c) : Consistent E c1 := by
  obtain ⟨a1, a2, a3, a4, a5, a6, a7, a8, a9, a10⟩ := hc
  refine ⟨?_, ?_, ?_, ?_, ?_, ?_, ?_, ?_, ?_, ?_⟩
  · intro r s; unfold regexesOf; rw [hm, h2]; exact a1 r s
  · intro r s; unfold pendingRegexesOf pendingStringsOf; rw [h3, h4]; exact a2 r s
  · intro r; rw [h4, hr]; exact a3 r
  · intro s; rw [h3, h2]; exact a4 s
  · intro r s; unfold pendingStringsOf; rw [h4, hm]; exact a5 r s
  · intro s; unfold pendingRegexesOf; rw [h3]; exact a6 s
  · intro r; unfold pendingStringsOf; rw [h4]; exact a7 r
  · intro s; unfold pendingRegexesOf; rw [h3]; exact a8 s
  · intro r; unfold pendingStringsOf; rw [h4]; exact a9 r
  · intro r s; unfold pendingStringsOf; rw [hr, h2, h4, hm]; exact a10 r s

theorem findMatches_consistent (E : Env R S) (c c1 : RegexMatchCache R S) (regex : R)
    (now : time_point) (l : List S) (hc : Consistent E c)
    (h : findMatches E c regex now = .ok (l, c1)) : Consistent E c1 := by
  unfold findMatches findMatchesUnsafe at h
  split at h
  · cases h
  · split at h
    · cases h
    · rename_i e he
      simp only [Except.ok.injEq, Prod.mk.injEq] at h
      obtain ⟨_, rfl⟩ := h
      refine consistent_of_same_views E c _ ?_ ?_ rfl rfl rfl hc
      · intro r
        unfold matchesOf
        simp only [get_ptr_mapModify]
        by_cases hr : r = regex
        · subst hr
          simp [he]
        · simp [hr]
      · intro r
        simp only [mapContains_mapModify]

end SimpleOps

section Prepare

variable {R S : Type} [DecidableEq R] [DecidableEq S]

theorem confirm_spec (regex : R) (string : S) (b : Bool) (c : RegexMatchCache R S)
    (hreg : mapContains c.cacheRegexToMatch_ regex = true)
    (hs : mapContains c.cacheMatchToRegex_ string = true) :
    mapKeys (if b then confirm regex string c else c).cacheRegexToMatch_ =
      mapKeys c.cacheRegexToMatch_ ∧
    mapKeys (if b then confirm regex string c else c).cacheMatchToRegex_ =
      mapKeys c.cacheMatchToRegex_ ∧
    (if b then confirm regex string c else c).stringQueueForward_ = c.stringQueueForward_ ∧
    (if b then confirm regex string c else c).stringQueueReverse_ = c.stringQueueReverse_ ∧
    (∀ r, accessedAt (if b then confirm regex string c else c) r = accessedAt c r) ∧
    (∀ r s, s ∈ matchesOf (if b then confirm regex string c else c) r ↔
      s ∈ matchesOf c r ∨ (r = regex ∧ s = string ∧ b = true)) ∧
    (∀ s r, r ∈ regexesOf (if b then confirm regex string c else c) s ↔
      r ∈ regexesOf c s ∨ (r = regex ∧ s = string ∧ b = true)) := by
  cases b with
  | false => simp
  | true =>
    simp only [↓reduceIte, and_true]
    refine ⟨?_, ?_, rfl, rfl, ?_, ?_, ?_⟩
    · simp only [confirm, mapKeys_mapModify]
    · simp only [confirm, mapKeys_mapModify]
    · intro r
      exact accessedAt_mapModify c (confirm regex string c) regex
        (fun l => setInsert l string) rfl r
    · intro r s
      rw [matchesOf_mapModify c (confirm regex string c) regex
        (fun l => setInsert l string) rfl r]
      by_cases hr : r = regex
      · subst hr
        simp [hreg, mem_setInsert]
      · simp [hr]
    · intro s r
      unfold regexesOf
      simp only [confirm, look_mapModify, hs]
      by_cases hs1 : s = string
      · subst hs1
        simp [mem_setInsert]
      · simp [hs1]

theorem prepareNew_spec (E : Env R S) (regex : R) (ks : List S) (c : RegexMatchCache R S)
    (evals : List S)
    (hreg : mapContains c.cacheRegexToMatch_ regex = true)
    (hk : ∀ s ∈ ks, mapContains c.cacheMatchToRegex_ s = true) :
    (∀ c1 evals1, prepareNew E regex ks (c, evals) = .returned (c1, evals1) →
      evals1 = evals ++ ks ∧ (∀ s ∈ ks, (E.eval regex s).isSome = true) ∧
      mapKeys c1.cacheRegexToMatch_ = mapKeys c.cacheRegexToMatch_ ∧
      mapKeys c1.cacheMatchToRegex_ = mapKeys c.cacheMatchToRegex_ ∧
      c1.stringQueueForward_ = c.stringQueueForward_ ∧
      c1.stringQueueReverse_ = c.stringQueueReverse_ ∧
      (∀ r, accessedAt c1 r = accessedAt c r) ∧
      (∀ r s, s ∈ matchesOf c1 r ↔
        s ∈ matchesOf c r ∨ (r = regex ∧ s ∈ ks ∧ E.eval regex s = some true)) ∧
      (∀ s r, r ∈ regexesOf c1 s ↔
        r ∈ regexesOf c s ∨ (r = regex ∧ s ∈ ks ∧ E.eval regex s = some true))) ∧
    (∀ c1 evals1, prepareNew E regex ks (c, evals) = .threw (c1, evals1) →
      mapKeys c1.cacheMatchToRegex_ = mapKeys c.cacheMatchToRegex_ ∧
      ∃ s ∈ ks, E.eval regex s = none) ∧
    prepareNew E regex ks (c, evals) ≠ .checkFailed ∧
    prepareNew E regex ks (c, evals) ≠ .badDeref := by
  induction ks generalizing c evals with
  | nil =>
    refine ⟨?_, ?_, ?_, ?_⟩
    · intro c1 evals1 h
      simp only [prepareNew, Outcome.returned.injEq, Prod.mk.injEq] at h
      obtain ⟨rfl, rfl⟩ := h
      simp
    · intro c1 evals1 h
      simp [prepareNew] at h
    · simp [prepareNew]
    · simp [prepareNew]
  | cons k rest ih =>
    unfold prepareNew
    cases hev : E.eval regex k with
    | none =>
      refine ⟨?_, ?_, ?_, ?_⟩
      · intro c1 evals1 h
        simp at h
      · intro c1 evals1 h
        simp only [Outcome.threw.injEq, Prod.mk.injEq] at h
        obtain ⟨rfl, rfl⟩ := h
        exact ⟨rfl, k, List.mem_cons_self _ _, hev⟩
      · simp
      · simp
    | some b =>
      simp only
      have hks : mapContains c.cacheMatchToRegex_ k = true := hk k (List.mem_cons_self _ _)
      obtain ⟨f1, f2, f3, f4, f5, f6, f7⟩ := confirm_spec regex k b c hreg hks
      have hreg1 : mapContains (if b then confirm regex k c else c).cacheRegexToMatch_ regex
          = true := by
        rw [mapContains_of_mapKeys_eq _ _ f1]; exact hreg
      have hk1 : ∀ s ∈ rest,
          mapContains (if b then confirm regex k c else c).cacheMatchToRegex_ s = true := by
        intro s hs
        rw [mapContains_of_mapKeys_eq _ _ f2]
        exact hk s (List.mem_cons_of_mem _ hs)
      obtain ⟨i1, i2, i3, i4⟩ := ih (if b then confirm regex k c else c) (evals ++ [k]) hreg1 hk1
      refine ⟨?_, ?_, i3, i4⟩
      · intro c1 evals1 h
        obtain ⟨j1, j2, j3, j4, j5, j6, j7, j8, j9⟩ := i1 c1 evals1 h
        refine ⟨?_, ?_, j3.trans f1, j4.trans f2, j5.trans f3, j6.trans f4, ?_, ?_, ?_⟩
        · rw [j1]; simp
        · intro s hs
          rcases List.mem_cons.1 hs with rfl | hs
          · simp [hev]
          · exact j2 s hs
        · intro r; rw [j7, f5]
        · intro r s
          rw [j8, f6]
          simp only [List.mem_cons]
          constructor
          · rintro ((h | ⟨h1, h2, h3⟩) | ⟨h1, h2, h3⟩)
            · exact Or.inl h
            · exact Or.inr ⟨h1, Or.inl h2, by rw [h2, hev, h3]⟩
            · exact Or.inr ⟨h1, Or.inr h2, h3⟩
          · rintro (h | ⟨h1, h2 | h2, h3⟩)
            · exact Or.inl (Or.inl h)
            · refine Or.inl (Or.inr ⟨h1, h2, ?_⟩)
              rw [h2, hev] at h3
              simpa using h3
            · exact Or.inr ⟨h1, h2, h3⟩
        · intro s r
          rw [j9, f7]
          simp only [List.mem_cons]
          constructor
          · rintro ((h | ⟨h1, h2, h3⟩) | ⟨h1, h2, h3⟩)
            · exact Or.inl h
            · exact Or.inr ⟨h1, Or.inl h2, by rw [h2, hev, h3]⟩
            · exact Or.inr ⟨h1, Or.inr h2, h3⟩
          · rintro (h | ⟨h1, h2 | h2, h3⟩)
            · exact Or.inl (Or.inl h)
            · refine Or.inl (Or.inr ⟨h1, h2, ?_⟩)
              rw [h2, hev] at h3
              simpa using h3
            · exact Or.inr ⟨h1, h2, h3⟩
      · intro c1 evals1 h
        obtain ⟨j1, s, hs, j2⟩ := i2 c1 evals1 h
        exact ⟨j1.trans f2, s, List.mem_cons_of_mem _ hs, j2⟩

end Prepare

section PrepareOld

variable {R S : Type} [DecidableEq R] [DecidableEq S]

theorem prepareOld_cons (E : Env R S) (regex : R) (k : S) (rest : List S)
    (c : RegexMatchCache R S) (evals : List S) (e : List R) (x : List R)
    (he : get_ptr c.stringQueueForward_ k = some e) (hmem : regex ∈ e)
    (hx : get_ptr c.cacheMatchToRegex_ k = some x) :
    prepareOld E regex (k :: rest) (c, evals) =
      match E.eval regex k with
      | none => .threw
          ({ c with stringQueueForward_ :=
              if (setErase e regex).isEmpty then mapErase c.stringQueueForward_ k
              else mapModify c.stringQueueForward_ k (fun e => setErase e regex) },
            evals ++ [k])
      | some b =>
        prepareOld E regex rest
          ((if b then confirm regex k
              { c with stringQueueForward_ :=
                if (setErase e regex).isEmpty then mapErase c.stringQueueForward_ k
                else mapModify c.stringQueueForward_ k (fun e => setErase e regex) }
            else
              { c with stringQueueForward_ :=
                if (setErase e regex).isEmpty then mapErase c.stringQueueForward_ k
                else mapModify c.stringQueueForward_ k (fun e => setErase e regex) }),
            evals ++ [k]) := by
  conv_lhs => unfold prepareOld
  simp only [he, hmem, not_true_eq_false, ↓reduceIte, hx]

theorem prepareOld_spec (E : Env R S) (regex : R) (strings : List S) (c : RegexMatchCache R S)
    (evals : List S)
    (hreg : mapContains c.cacheRegexToMatch_ regex = true)
    (hnd : strings.Nodup)
    (hk : ∀ s ∈ strings, regex ∈ look c.stringQueueForward_ s ∧
      mapContains c.cacheMatchToRegex_ s = true) :
    (∀ c1 evals1, prepareOld E regex strings (c, evals) = .returned (c1, evals1) →
      evals1 = evals ++ strings ∧ (∀ s ∈ strings, (E.eval regex s).isSome = true) ∧
      mapKeys c1.cacheRegexToMatch_ = mapKeys c.cacheRegexToMatch_ ∧
      mapKeys c1.cacheMatchToRegex_ = mapKeys c.cacheMatchToRegex_ ∧
      c1.stringQueueReverse_ = c.stringQueueReverse_ ∧
      (∀ r, accessedAt c1 r = accessedAt c r) ∧
      (∀ s, look c1.stringQueueForward_ s =
        if s ∈ strings then setErase (look c.stringQueueForward_ s) regex
        else look c.stringQueueForward_ s) ∧
      (∀ s, mapContains c1.stringQueueForward_ s =
        if s ∈ strings then !(setErase (look c.stringQueueForward_ s) regex).isEmpty
        else mapContains c.stringQueueForward_ s) ∧
      (∀ r s, s ∈ matchesOf c1 r ↔
        s ∈ matchesOf c r ∨ (r = regex ∧ s ∈ strings ∧ E.eval regex s = some true)) ∧
      (∀ s r, r ∈ regexesOf c1 s ↔
        r ∈ regexesOf c s ∨ (r = regex ∧ s ∈ strings ∧ E.eval regex s = some true))) ∧
    (∀ c1 evals1, prepareOld E regex strings (c, evals) = .threw (c1, evals1) →
      mapKeys c1.cacheMatchToRegex_ = mapKeys c.cacheMatchToRegex_ ∧
      ∃ s ∈ strings, E.eval regex s = none) ∧
    prepareOld E regex strings (c, evals) ≠ .checkFailed ∧
    prepareOld E regex strings (c, evals) ≠ .badDeref := by
  induction strings generalizing c evals with
  | nil =>
    refine ⟨?_, ?_, ?_, ?_⟩
    · intro c1 evals1 h
      simp only [prepareOld, Outcome.returned.injEq, Prod.mk.injEq] at h
      obtain ⟨rfl, rfl⟩ := h
      simp
    · intro c1 evals1 h
      simp [prepareOld] at h
    · simp [prepareOld]
    · simp [prepareOld]
  | cons k rest ih =>
    have hkk := hk k (List.mem_cons_self _ _)
    obtain ⟨e, he⟩ := (mapContains_iff _ _).1 (mapContains_of_mem_look _ _ _ hkk.1)
    obtain ⟨x, hx⟩ := (mapContains_iff _ _).1 hkk.2
    have hle := look_of_get_ptr _ _ _ he
    have hmem : regex ∈ e := hle ▸ hkk.1
    have hnd1 := List.nodup_cons.1 hnd
    have hlk := look_queueErase c.stringQueueForward_ k regex e he
    have hct := mapContains_queueErase c.stringQueueForward_ k regex e he
    rw [prepareOld_cons E regex k rest c evals e x he hmem hx]
    cases hev : E.eval regex k with
    | none =>
      refine ⟨?_, ?_, ?_, ?_⟩
      · intro c1 evals1 h
        simp at h
      · intro c1 evals1 h
        simp only [Outcome.threw.injEq, Prod.mk.injEq] at h
        obtain ⟨rfl, rfl⟩ := h
        exact ⟨rfl, k, List.mem_cons_self _ _, hev⟩
      · simp
      · simp
    | some b =>
      simp only
      obtain ⟨f1, f2, f3, f4, f5, f6, f7⟩ := confirm_spec regex k b
        (RegexMatchCache.mk c.cacheRegexToMatch_ c.cacheMatchToRegex_
          (if (setErase e regex).isEmpty then mapErase c.stringQueueForward_ k
            else mapModify c.stringQueueForward_ k (fun e => setErase e regex))
          c.stringQueueReverse_) hreg hkk.2
      have hreg1 := hreg
      rw [← mapContains_of_mapKeys_eq _ _ f1] at hreg1
      have hk1 : ∀ s ∈ rest,
          regex ∈ look (if b then confirm regex k
            (RegexMatchCache.mk c.cacheRegexToMatch_ c.cacheMatchToRegex_
              (if (setErase e regex).isEmpty then mapErase c.stringQueueForward_ k
                else mapModify c.stringQueueForward_ k (fun e => setErase e regex))
              c.stringQueueReverse_)
            else (RegexMatchCache.mk c.cacheRegexToMatch_ c.cacheMatchToRegex_
              (if (setErase e regex).isEmpty then mapErase c.stringQueueForward_ k
                else mapModify c.stringQueueForward_ k (fun e => setErase e regex))
              c.stringQueueReverse_)).stringQueueForward_ s ∧
          mapContains (if b then confirm regex k
            (RegexMatchCache.mk c.cacheRegexToMatch_ c.cacheMatchToRegex_
              (if (setErase e regex).isEmpty then mapErase c.stringQueueForward_ k
                else mapModify c.stringQueueForward_ k (fun e => setErase e regex))
              c.stringQueueReverse_)
            else (RegexMatchCache.mk c.cacheRegexToMatch_ c.cacheMatchToRegex_
              (if (setErase e regex).isEmpty then mapErase c.stringQueueForward_ k
                else mapModify c.stringQueueForward_ k (fun e => setErase e regex))
              c.stringQueueReverse_)).cacheMatchToRegex_ s = true := by
        intro s hs
        have hsk : s ≠ k := fun h => hnd1.1 (h ▸ hs)
        have hks := hk s (List.mem_cons_of_mem _ hs)
        refine ⟨?_, ?_⟩
        · rw [f3]
          simp only [hlk, hsk, ↓reduceIte]
          exact hks.1
        · rw [mapContains_of_mapKeys_eq _ _ f2]
          exact hks.2
      obtain ⟨i1, i2, i3, i4⟩ := ih _ (evals ++ [k]) hreg1 hnd1.2 hk1
      refine ⟨?_, ?_, i3, i4⟩
      · intro c1 evals1 h
        obtain ⟨j1, j2, j3, j4, j5, j6, j6a, j6b, j8, j9⟩ := i1 c1 evals1 h
        refine ⟨?_, ?_, j3.trans f1, j4.trans f2, j5.trans f4, ?_, ?_, ?_, ?_, ?_⟩
        · rw [j1]; simp
        · intro s hs
          rcases List.mem_cons.1 hs with rfl | hs
          · simp [hev]
          · exact j2 s hs
        · intro r; rw [j6, f5]; rfl
        · intro s
          rw [j6a, f3]
          simp only [hlk, List.mem_cons]
          by_cases hs : s = k
          · subst hs
            simp [hnd1.1]
          · simp [hs]
        · intro s
          rw [j6b, f3]
          simp only [hlk, hct, List.mem_cons]
          by_cases hs : s = k
          · subst hs
            simp [hnd1.1]
          · simp [hs]
        · intro r s
          rw [j8, f6]
          simp only [List.mem_cons]
          have : ∀ r, matchesOf (RegexMatchCache.mk c.cacheRegexToMatch_ c.cacheMatchToRegex_
              (if (setErase e regex).isEmpty then mapErase c.stringQueueForward_ k
                else mapModify c.stringQueueForward_ k (fun e => setErase e regex))
              c.stringQueueReverse_) r = matchesOf c r := fun _ => rfl
          rw [this]
          constructor
          · rintro ((h | ⟨h1, h2, h3⟩) | ⟨h1, h2, h3⟩)
            · exact Or.inl h
            · exact Or.inr ⟨h1, Or.inl h2, by rw [h2, hev, h3]⟩
            · exact Or.inr ⟨h1, Or.inr h2, h3⟩
          · rintro (h | ⟨h1, h2 | h2, h3⟩)
            · exact Or.inl (Or.inl h)
            · refine Or.inl (Or.inr ⟨h1, h2, ?_⟩)
              rw [h2, hev] at h3
              simpa using h3
            · exact Or.inr ⟨h1, h2, h3⟩
        · intro s r
          rw [j9, f7]
          simp only [List.mem_cons]
          have : ∀ s, regexesOf (RegexMatchCache.mk c.cacheRegexToMatch_ c.cacheMatchToRegex_
              (if (setErase e regex).isEmpty then mapErase c.stringQueueForward_ k
                else mapModify c.stringQueueForward_ k (fun e => setErase e regex))
              c.stringQueueReverse_) s = regexesOf c s := fun _ => rfl
          rw [this]
          constructor
          · rintro ((h | ⟨h1, h2, h3⟩) | ⟨h1, h2, h3⟩)
            · exact Or.inl h
            · exact Or.inr ⟨h1, Or.inl h2, by rw [h2, hev, h3]⟩
            · exact Or.inr ⟨h1, Or.inr h2, h3⟩
          · rintro (h | ⟨h1, h2 | h2, h3⟩)
            · exact Or.inl (Or.inl h)
            · refine Or.inl (Or.inr ⟨h1, h2, ?_⟩)
              rw [h2, hev] at h3
              simpa using h3
            · exact Or.inr ⟨h1, h2, h3⟩
      · intro c1 evals1 h
        obtain ⟨j1, s, hs, j2⟩ := i2 c1 evals1 h
        exact ⟨j1.trans f2, s, List.mem_cons_of_mem _ hs, j2⟩

end PrepareOld

section PrepareSpec

variable {R S : Type} [DecidableEq R] [DecidableEq S]

theorem repair_eq_of_mapKeys (c c1 : RegexMatchCache R S)
    (h : mapKeys c1.cacheMatchToRegex_ = mapKeys c.cacheMatchToRegex_) :
    repair c1 = repair c := by
  unfold repair
  have : ∀ m : List (S × List R), m.map (fun p => (p.1, ([] : List R))) =
      (mapKeys m).map (fun k => (k, ([] : List R))) := by
    intro m
    unfold mapKeys
    rw [List.map_map]
    rfl
  rw [this c1.cacheMatchToRegex_, this c.cacheMatchToRegex_, h]

theorem accessedAt_append_new (c : RegexMatchCache R S) (regex : R) (epoch : time_point)
    (rtm : List (R × RegexEntry S)) (mtr : List (S × List R)) (f : List (S × List R))
    (g : List (R × List S))
    (hnew : mapContains c.cacheRegexToMatch_ regex = false)
    (h : rtm = c.cacheRegexToMatch_ ++ [(regex, ⟨[], epoch⟩)]) (r : R) :
    accessedAt (RegexMatchCache.mk rtm mtr f g) r =
      if r = regex then some epoch else accessedAt c r := by
  unfold accessedAt
  simp only [h, get_ptr_append, get_ptr_cons, get_ptr_nil]
  have hn := (mapContains_false_iff _ _).1 hnew
  by_cases hr : regex = r
  · subst hr
    simp [hn]
  · have hr1 : ¬ r = regex := fun h => hr h.symm
    cases get_ptr c.cacheRegexToMatch_ r <;> simp [hr, hr1]

/-- What `prepareToFindMatches` does on a consistent cache for an unregistered
regex, by outcome. -/
theorem prepare_unregistered (E : Env R S) (c : RegexMatchCache R S) (regex : R)
    (hc : Consistent E c) (hreg : mapContains c.cacheRegexToMatch_ regex = false) :
    (∀ c1 evals, prepareToFindMatches E c regex = .returned (c1, evals) →
      evals = mapKeys c.cacheMatchToRegex_ ∧
      (mapKeys c.cacheMatchToRegex_ ≠ [] → E.compile regex = true) ∧
      (∀ s ∈ mapKeys c.cacheMatchToRegex_, (E.eval regex s).isSome = true) ∧
      (∀ r, mapContains c1.cacheRegexToMatch_ r =
        (mapContains c.cacheRegexToMatch_ r || decide (r = regex))) ∧
      mapKeys c1.cacheMatchToRegex_ = mapKeys c.cacheMatchToRegex_ ∧
      c1.stringQueueForward_ = c.stringQueueForward_ ∧
      c1.stringQueueReverse_ = c.stringQueueReverse_ ∧
      (∀ r, accessedAt c1 r = if r = regex then some E.epoch else accessedAt c r) ∧
      (∀ r s, s ∈ matchesOf c1 r ↔ s ∈ matchesOf c r ∨
        (r = regex ∧ s ∈ mapKeys c.cacheMatchToRegex_ ∧ E.eval regex s = some true)) ∧
      (∀ s r, r ∈ regexesOf c1 s ↔ r ∈ regexesOf c s ∨
        (r = regex ∧ s ∈ mapKeys c.cacheMatchToRegex_ ∧ E.eval regex s = some true))) ∧
    (∀ c1 evals, prepareToFindMatches E c regex = .threw (c1, evals) →
      c1 = repair c ∧ mapKeys c.cacheMatchToRegex_ ≠ [] ∧
      (E.compile regex = false ∧ evals = [] ∨
        E.compile regex = true ∧ ∃ s ∈ mapKeys c.cacheMatchToRegex_, E.eval regex s = none)) ∧
    prepareToFindMatches E c regex ≠ .checkFailed ∧
    prepareToFindMatches E c regex ≠ .badDeref := by
  have hsqr : mapContains c.stringQueueReverse_ regex = false := by
    cases h : mapContains c.stringQueueReverse_ regex with
    | false => rfl
    | true => rw [hc.queue_regex regex h] at hreg; exact absurd hreg (by simp)
  have hc0 : ∀ r, mapContains (c.cacheRegexToMatch_ ++ [(regex, (⟨[], E.epoch⟩ : RegexEntry S))]) r
      = (mapContains c.cacheRegexToMatch_ r || decide (r = regex)) :=
    fun r => mapContains_append_new _ _ _ _
  unfold prepareToFindMatches
  simp only [hreg, Bool.not_false, ↓reduceIte, try_emplace, Bool.false_eq_true, hsqr]
  cases he : c.cacheMatchToRegex_.isEmpty with
  | true =>
    have hk := (isEmpty_iff_no_key _).1 he
    have hmtr : c.cacheMatchToRegex_ = [] := List.isEmpty_iff.1 he
    have hf : c.stringQueueForward_ = [] := by
      apply eq_nil_of_no_keys
      intro s
      cases h : mapContains c.stringQueueForward_ s with
      | false => rfl
      | true => have := hc.queue_string s h; rw [hk s] at this; exact absurd this (by simp)
    have hr : c.stringQueueReverse_ = [] := by
      apply eq_nil_of_no_keys
      intro r
      cases h : mapContains c.stringQueueReverse_ r with
      | false => rfl
      | true =>
        obtain ⟨s, hs⟩ := List.exists_mem_of_ne_nil _ (hc.reverse_nonempty r h)
        rw [← hc.queue_bidi] at hs
        have := mapContains_of_mem_look _ _ _ hs
        rw [hf] at this
        simp [mapContains] at this
    simp only [hf, hr, List.isEmpty_nil, Bool.not_true, Bool.false_eq_true, ↓reduceIte,
      guardedEvals]
    refine ⟨?_, ?_, ?_, ?_⟩
    · intro c1 evals h
      simp only [Outcome.returned.injEq, Prod.mk.injEq] at h
      obtain ⟨rfl, rfl⟩ := h
      refine ⟨by simp [hmtr, mapKeys], by simp [hmtr, mapKeys], by simp [hmtr, mapKeys],
        hc0, rfl, rfl, rfl, ?_, ?_, ?_⟩
      · intro r
        exact accessedAt_append_new c regex E.epoch _ _ _ _ hreg rfl r
      · intro r s
        rw [matchesOf_append_new c regex E.epoch _ _ _ _ hreg rfl r]
        simp [hmtr, mapKeys]
      · intro s r
        simp [hmtr, mapKeys, regexesOf]
    · intro c1 evals h
      simp at h
    · simp
    · simp
  | false =>
    have hne : mapKeys c.cacheMatchToRegex_ ≠ [] := by
      intro h
      unfold mapKeys at h
      rw [List.map_eq_nil_iff] at h
      rw [h] at he
      simp at he
    simp only [Bool.false_eq_true, ↓reduceIte]
    cases hcomp : E.compile regex with
    | false =>
      simp only [Bool.not_false, ↓reduceIte, guardedEvals]
      refine ⟨?_, ?_, ?_, ?_⟩
      · intro c1 evals h
        simp at h
      · intro c1 evals h
        simp only [Outcome.threw.injEq, Prod.mk.injEq] at h
        obtain ⟨rfl, rfl⟩ := h
        exact ⟨repair_eq_of_mapKeys _ _ rfl, hne, by simp⟩
      · simp
      · simp
    | true =>
      simp only [Bool.not_true, Bool.false_eq_true, ↓reduceIte]
      have hreg0 : mapContains (RegexMatchCache.mk
          (c.cacheRegexToMatch_ ++ [(regex, (⟨[], E.epoch⟩ : RegexEntry S))])
          c.cacheMatchToRegex_ c.stringQueueForward_ c.stringQueueReverse_).cacheRegexToMatch_
            regex = true := by
        simp only [hc0]
        simp
      have hk0 : ∀ s ∈ mapKeys c.cacheMatchToRegex_, mapContains (RegexMatchCache.mk
          (c.cacheRegexToMatch_ ++ [(regex, (⟨[], E.epoch⟩ : RegexEntry S))])
          c.cacheMatchToRegex_ c.stringQueueForward_ c.stringQueueReverse_).cacheMatchToRegex_
            s = true := by
        intro s hs
        exact (mapContains_iff_mem_keys _ _).2 hs
      obtain ⟨i1, i2, i3, i4⟩ := prepareNew_spec E regex (mapKeys c.cacheMatchToRegex_) _ []
        hreg0 hk0
      refine ⟨?_, ?_, ?_, ?_⟩
      · intro c1 evals h
        have h1 : prepareNew E regex (mapKeys c.cacheMatchToRegex_)
            (RegexMatchCache.mk
              (c.cacheRegexToMatch_ ++ [(regex, (⟨[], E.epoch⟩ : RegexEntry S))])
              c.cacheMatchToRegex_ c.stringQueueForward_ c.stringQueueReverse_, [])
            = .returned (c1, evals) := by
          revert h
          cases prepareNew E regex (mapKeys c.cacheMatchToRegex_)
            (RegexMatchCache.mk
              (c.cacheRegexToMatch_ ++ [(regex, (⟨[], E.epoch⟩ : RegexEntry S))])
              c.cacheMatchToRegex_ c.stringQueueForward_ c.stringQueueReverse_, []) <;>
            simp [guardedEvals]
        obtain ⟨j1, j2, j3, j4, j5, j6, j7, j8, j9⟩ := i1 c1 evals h1
        refine ⟨by simpa using j1, fun _ => trivial, j2, ?_, j4, j5, j6, ?_, ?_, ?_⟩
        · intro r
          rw [mapContains_of_mapKeys_eq _ _ j3]
          exact hc0 r
        · intro r
          rw [j7]
          exact accessedAt_append_new c regex E.epoch _ _ _ _ hreg rfl r
        · intro r s
          rw [j8, matchesOf_append_new c regex E.epoch _ _ _ _ hreg rfl r]
        · intro s r
          rw [j9]
          rfl
      · intro c1 evals h
        have h1 : ∃ c2, prepareNew E regex (mapKeys c.cacheMatchToRegex_)
            (RegexMatchCache.mk
              (c.cacheRegexToMatch_ ++ [(regex, (⟨[], E.epoch⟩ : RegexEntry S))])
              c.cacheMatchToRegex_ c.stringQueueForward_ c.stringQueueReverse_, [])
            = .threw (c2, evals) ∧ c1 = repair c2 := by
          revert h
          cases prepareNew E regex (mapKeys c.cacheMatchToRegex_)
            (RegexMatchCache.mk
              (c.cacheRegexToMatch_ ++ [(regex, (⟨[], E.epoch⟩ : RegexEntry S))])
              c.cacheMatchToRegex_ c.stringQueueForward_ c.stringQueueReverse_, []) with
          | threw st =>
            simp only [guardedEvals, Outcome.threw.injEq, Prod.mk.injEq]
            rintro ⟨rfl, rfl⟩
            exact ⟨st.1, rfl, rfl⟩
          | returned st => simp [guardedEvals]
          | checkFailed => simp [guardedEvals]
          | badDeref => simp [guardedEvals]
        obtain ⟨c2, h2, rfl⟩ := h1
        obtain ⟨j1, j2⟩ := i2 c2 evals h2
        exact ⟨repair_eq_of_mapKeys _ _ j1, hne, Or.inr ⟨trivial, j2⟩⟩
      · intro h
        apply i3
        revert h
        cases prepareNew E regex (mapKeys c.cacheMatchToRegex_)
            (RegexMatchCache.mk
              (c.cacheRegexToMatch_ ++ [(regex, (⟨[], E.epoch⟩ : RegexEntry S))])
              c.cacheMatchToRegex_ c.stringQueueForward_ c.stringQueueReverse_, []) <;>
          simp [guardedEvals]
      · intro h
        apply i4
        revert h
        cases prepareNew E regex (mapKeys c.cacheMatchToRegex_)
            (RegexMatchCache.mk
              (c.cacheRegexToMatch_ ++ [(regex, (⟨[], E.epoch⟩ : RegexEntry S))])
              c.cacheMatchToRegex_ c.stringQueueForward_ c.stringQueueReverse_, []) <;>
          simp [guardedEvals]

end PrepareSpec

section PrepareRegistered

variable {R S : Type} [DecidableEq R] [DecidableEq S]

theorem guardedEvals_returned (o : Outcome (RegexMatchCache R S × List S))
    (st : RegexMatchCache R S × List S) (h : guardedEvals o = .returned st) :
    o = .returned st := by
  cases o <;> simp_all [guardedEvals]

theorem guardedEvals_threw (o : Outcome (RegexMatchCache R S × List S))
    (st : RegexMatchCache R S × List S) (h : guardedEvals o = .threw st) :
    ∃ c2, o = .threw (c2, st.2) ∧ st.1 = repair c2 := by
  cases o with
  | threw s =>
    simp only [guardedEvals, Outcome.threw.injEq] at h
    subst h
    exact ⟨s.1, rfl, rfl⟩
  | returned s => simp [guardedEvals] at h
  | checkFailed => simp [guardedEvals] at h
  | badDeref => simp [guardedEvals] at h

theorem guardedEvals_checkFailed (o : Outcome (RegexMatchCache R S × List S))
    (h : guardedEvals o = .checkFailed) : o = .checkFailed := by
  cases o <;> simp_all [guardedEvals]

theorem guardedEvals_badDeref (o : Outcome (RegexMatchCache R S × List S))
    (h : guardedEvals o = .badDeref) : o = .badDeref := by
  cases o <;> simp_all [guardedEvals]

/-- What `prepareToFindMatches` does on a consistent cache for a registered
regex, by outcome. -/
theorem prepare_registered (E : Env R S) (c : RegexMatchCache R S) (regex : R)
    (hc : Consistent E c) (hreg : mapContains c.cacheRegexToMatch_ regex = true) :
    (∀ c1 evals, prepareToFindMatches E c regex = .returned (c1, evals) →
      evals = pendingStringsOf c regex ∧
      mapContains c.stringQueueReverse_ regex = true ∧
      E.compile regex = true ∧
      (∀ s ∈ pendingStringsOf c regex, (E.eval regex s).isSome = true) ∧
      mapKeys c1.cacheRegexToMatch_ = mapKeys c.cacheRegexToMatch_ ∧
      mapKeys c1.cacheMatchToRegex_ = mapKeys c.cacheMatchToRegex_ ∧
      c1.stringQueueReverse_ = mapErase c.stringQueueReverse_ regex ∧
      (∀ r, accessedAt c1 r = accessedAt c r) ∧
      (∀ s, pendingRegexesOf c1 s = setErase (pendingRegexesOf c s) regex) ∧
      (∀ s, mapContains c1.stringQueueForward_ s = true → pendingRegexesOf c1 s ≠ []) ∧
      (∀ s, mapContains c1.stringQueueForward_ s = true →
        mapContains c.stringQueueForward_ s = true) ∧
      (∀ r s, s ∈ matchesOf c1 r ↔ s ∈ matchesOf c r ∨
        (r = regex ∧ s ∈ pendingStringsOf c regex ∧ E.eval regex s = some true)) ∧
      (∀ s r, r ∈ regexesOf c1 s ↔ r ∈ regexesOf c s ∨
        (r = regex ∧ s ∈ pendingStringsOf c regex ∧ E.eval regex s = some true))) ∧
    (∀ c1 evals, prepareToFindMatches E c regex = .threw (c1, evals) →
      c1 = repair c ∧ mapContains c.stringQueueReverse_ regex = true ∧
      (E.compile regex = false ∧ evals = [] ∨
        E.compile regex = true ∧ ∃ s ∈ pendingStringsOf c regex, E.eval regex s = none)) ∧
    (prepareToFindMatches E c regex = .checkFailed ↔
      mapContains c.stringQueueReverse_ regex = false) ∧
    prepareToFindMatches E c regex ≠ .badDeref := by
  have hc0 : (RegexMatchCache.mk (try_emplace c.cacheRegexToMatch_ regex ⟨[], E.epoch⟩)
      c.cacheMatchToRegex_ c.stringQueueForward_ c.stringQueueReverse_) = c := by
    simp [try_emplace, hreg]
  have hte : try_emplace c.cacheRegexToMatch_ regex (⟨[], E.epoch⟩ : RegexEntry S) =
      c.cacheRegexToMatch_ := by
    simp [try_emplace, hreg]
  unfold prepareToFindMatches
  simp only [hreg, Bool.not_true, Bool.false_eq_true, ↓reduceIte, hte]
  cases hg : get_ptr c.stringQueueReverse_ regex with
  | none =>
    have hcr := (mapContains_false_iff _ _).2 hg
    simp only [guardedEvals, hcr]
    refine ⟨?_, ?_, ?_, ?_⟩
    · intro c1 evals h; simp at h
    · intro c1 evals h; simp at h
    · simp
    · simp
  | some strings =>
    have hcr : mapContains c.stringQueueReverse_ regex = true := (mapContains_iff _ _).2 ⟨_, hg⟩
    have hl : pendingStringsOf c regex = strings := look_of_get_ptr _ _ _ hg
    have hne : strings ≠ [] := hl ▸ hc.reverse_nonempty regex hcr
    have hie : strings.isEmpty = false := by
      cases strings with
      | nil => exact absurd rfl hne
      | cons a t => rfl
    have hnd : strings.Nodup := hl ▸ hc.reverse_nodup regex
    simp only [hie, Bool.false_eq_true, ↓reduceIte, hcr, hl]
    cases hcomp : E.compile regex with
    | false =>
      simp only [Bool.not_false, ↓reduceIte, guardedEvals]
      refine ⟨?_, ?_, ?_, ?_⟩
      · intro c1 evals h; simp at h
      · intro c1 evals h
        simp only [Outcome.threw.injEq, Prod.mk.injEq] at h
        obtain ⟨rfl, rfl⟩ := h
        exact ⟨repair_eq_of_mapKeys _ _ rfl, trivial, by simp⟩
      · simp
      · simp
    | true =>
      simp only [Bool.not_true, Bool.false_eq_true, ↓reduceIte]
      have hk : ∀ s ∈ strings, regex ∈ look (RegexMatchCache.mk c.cacheRegexToMatch_
          c.cacheMatchToRegex_ c.stringQueueForward_
          (mapErase c.stringQueueReverse_ regex)).stringQueueForward_ s ∧
          mapContains (RegexMatchCache.mk c.cacheRegexToMatch_
          c.cacheMatchToRegex_ c.stringQueueForward_
          (mapErase c.stringQueueReverse_ regex)).cacheMatchToRegex_ s = true := by
        intro s hs
        rw [← hl, ← hc.queue_bidi] at hs
        exact ⟨hs, hc.queue_string s (mapContains_of_mem_look _ _ _ hs)⟩
      obtain ⟨i1, i2, i3, i4⟩ := prepareOld_spec E regex strings
        (RegexMatchCache.mk c.cacheRegexToMatch_ c.cacheMatchToRegex_ c.stringQueueForward_
          (mapErase c.stringQueueReverse_ regex)) [] hreg hnd hk
      refine ⟨?_, ?_, ?_, ?_⟩
      · intro c1 evals h
        obtain ⟨j1, j2, j3, j4, j5, j6, j7, j8, j9, j10⟩ :=
          i1 c1 evals (guardedEvals_returned _ _ h)
        have hpf : ∀ s, pendingRegexesOf c1 s = setErase (pendingRegexesOf c s) regex := by
          intro s
          unfold pendingRegexesOf
          rw [j7]
          split
          · rfl
          · rename_i hs
            have : regex ∉ pendingRegexesOf c s := by
              intro h
              rw [hc.queue_bidi, hl] at h
              exact hs h
            exact (setErase_of_not_mem _ _ this).symm
        refine ⟨by simpa using j1, trivial, trivial, j2, j3, j4, j5, j6, hpf, ?_, ?_, j9, j10⟩
        · intro s hs
          rw [j8] at hs
          rw [hpf]
          by_cases hm : s ∈ strings
          · simp only [hm, ↓reduceIte, Bool.not_eq_true', List.isEmpty_eq_false] at hs
            intro h0
            unfold pendingRegexesOf at h0
            rw [h0] at hs
            simp at hs
          · simp only [hm, ↓reduceIte] at hs
            have : regex ∉ pendingRegexesOf c s := by
              intro h
              rw [hc.queue_bidi, hl] at h
              exact hm h
            rw [setErase_of_not_mem _ _ this]
            exact hc.forward_nonempty s hs
        · intro s hs
          rw [j8] at hs
          by_cases hm : s ∈ strings
          · rw [← hl, ← hc.queue_bidi] at hm
            exact mapContains_of_mem_look _ _ _ hm
          · simp only [hm, ↓reduceIte] at hs
            exact hs
      · intro c1 evals h
        obtain ⟨c2, h2, h3⟩ := guardedEvals_threw _ _ h
        obtain ⟨j1, j2⟩ := i2 c2 evals h2
        simp only at h3
        subst h3
        exact ⟨repair_eq_of_mapKeys _ _ j1, trivial, Or.inr ⟨trivial, j2⟩⟩
      · simp only [Bool.true_eq_false, iff_false]
        intro h
        exact i3 (guardedEvals_checkFailed _ h)
      · intro h
        exact i4 (guardedEvals_badDeref _ h)

end PrepareRegistered

section PrepareUnified

variable {R S : Type} [DecidableEq R] [DecidableEq S]

/-- What a returning `prepareToFindMatches` did to a consistent cache. -/
theorem prepare_returned (E : Env R S) (c c1 : RegexMatchCache R S) (regex : R)
    (evals : List S) (hc : Consistent E c)
    (h : prepareToFindMatches E c regex = .returned (c1, evals)) :
    evals = prepareTargets c regex ∧
    isReadyToFindMatches c regex = false ∧
    (prepareTargets c regex ≠ [] → E.compile regex = true) ∧
    (∀ s ∈ prepareTargets c regex, (E.eval regex s).isSome = true) ∧
    (∀ r, mapContains c1.cacheRegexToMatch_ r =
      (mapContains c.cacheRegexToMatch_ r || decide (r = regex))) ∧
    mapKeys c1.cacheMatchToRegex_ = mapKeys c.cacheMatchToRegex_ ∧
    c1.stringQueueReverse_ = mapErase c.stringQueueReverse_ regex ∧
    (∀ s, pendingRegexesOf c1 s = setErase (pendingRegexesOf c s) regex) ∧
    (∀ s, mapContains c1.stringQueueForward_ s = true → pendingRegexesOf c1 s ≠ []) ∧
    (∀ s, mapContains c1.stringQueueForward_ s = true →
      mapContains c.stringQueueForward_ s = true) ∧
    (∀ r, accessedAt c1 r =
      if r = regex ∧ mapContains c.cacheRegexToMatch_ regex = false then some E.epoch
      else accessedAt c r) ∧
    (∀ r s, s ∈ matchesOf c1 r ↔ s ∈ matchesOf c r ∨
      (r = regex ∧ s ∈ prepareTargets c regex ∧ E.eval regex s = some true)) ∧
    (∀ s r, r ∈ regexesOf c1 s ↔ r ∈ regexesOf c s ∨
      (r = regex ∧ s ∈ prepareTargets c regex ∧ E.eval regex s = some true)) := by
  cases hreg : mapContains c.cacheRegexToMatch_ regex with
  | false =>
    have hsqr : mapContains c.stringQueueReverse_ regex = false := by
      cases h : mapContains c.stringQueueReverse_ regex with
      | false => rfl
      | true => rw [hc.queue_regex regex h] at hreg; exact absurd hreg (by simp)
    have hnp : ∀ s, regex ∉ pendingRegexesOf c s := by
      intro s hs
      rw [hc.queue_bidi] at hs
      have := mapContains_of_mem_look _ _ _ hs
      rw [hsqr] at this
      exact absurd this (by simp)
    obtain ⟨j1, j2, j3, j4, j5, j6, j7, j8, j9, j10⟩ :=
      (prepare_unregistered E c regex hc hreg).1 c1 evals h
    have hP : prepareTargets c regex = mapKeys c.cacheMatchToRegex_ := by
      simp [prepareTargets, hreg]
    rw [hP]
    refine ⟨j1, by simp [isReadyToFindMatches, hreg], j2, j3, j4, j5, ?_, ?_, ?_, ?_, ?_, j9, j10⟩
    · rw [j7, mapErase_of_not_contains _ _ hsqr]
    · intro s
      unfold pendingRegexesOf
      rw [j6]
      exact (setErase_of_not_mem _ _ (hnp s)).symm
    · intro s hs
      unfold pendingRegexesOf
      rw [j6] at hs ⊢
      exact hc.forward_nonempty s hs
    · intro s hs
      rw [j6] at hs
      exact hs
    · intro r
      rw [j8]
      simp
  | true =>
    obtain ⟨j1, j2, j3, j4, j5, j6, j7, j8, j9, j10, j11, j12, j13⟩ :=
      (prepare_registered E c regex hc hreg).1 c1 evals h
    have hP : prepareTargets c regex = pendingStringsOf c regex := by
      simp [prepareTargets, hreg]
    rw [hP]
    refine ⟨j1, by simp [isReadyToFindMatches, hreg, j2], fun _ => j3, j4, ?_, j6, j7, j9, j10,
      j11, ?_, j12, j13⟩
    · intro r
      rw [mapContains_of_mapKeys_eq _ _ j5]
      by_cases hr : r = regex
      · simp [hr, hreg]
      · simp [hr]
    · intro r
      rw [j8]
      simp

/-- A throwing `prepareToFindMatches` leaves the repaired cache. -/
theorem prepare_threw (E : Env R S) (c c1 : RegexMatchCache R S) (regex : R)
    (evals : List S) (hc : Consistent E c)
    (h : prepareToFindMatches E c regex = .threw (c1, evals)) :
    c1 = repair c ∧ isReadyToFindMatches c regex = false ∧ prepareTargets c regex ≠ [] ∧
    (E.compile regex = false ∧ evals = [] ∨
      E.compile regex = true ∧ ∃ s ∈ prepareTargets c regex, E.eval regex s = none) := by
  cases hreg : mapContains c.cacheRegexToMatch_ regex with
  | false =>
    obtain ⟨j1, j2, j3⟩ := (prepare_unregistered E c regex hc hreg).2.1 c1 evals h
    have hP : prepareTargets c regex = mapKeys c.cacheMatchToRegex_ := by
      simp [prepareTargets, hreg]
    rw [hP]
    exact ⟨j1, by simp [isReadyToFindMatches, hreg], j2, j3⟩
  | true =>
    obtain ⟨j1, j2, j3⟩ := (prepare_registered E c regex hc hreg).2.1 c1 evals h
    have hP : prepareTargets c regex = pendingStringsOf c regex := by
      simp [prepareTargets, hreg]
    rw [hP]
    exact ⟨j1, by simp [isReadyToFindMatches, hreg, j2], hc.reverse_nonempty regex j2, j3⟩

/-- On a consistent cache `prepareToFindMatches` fails a `CHECK` exactly when
the regex is already ready, and never dereferences a missing entry. -/
theorem prepare_checkFailed_iff (E : Env R S) (c : RegexMatchCache R S) (regex : R)
    (hc : Consistent E c) :
    (prepareToFindMatches E c regex = .checkFailed ↔ isReadyToFindMatches c regex = true) ∧
    prepareToFindMatches E c regex ≠ .badDeref := by
  cases hreg : mapContains c.cacheRegexToMatch_ regex with
  | false =>
    obtain ⟨_, _, j3, j4⟩ := prepare_unregistered E c regex hc hreg
    refine ⟨?_, j4⟩
    simp [isReadyToFindMatches, hreg, j3]
  | true =>
    obtain ⟨_, _, j3, j4⟩ := prepare_registered E c regex hc hreg
    refine ⟨?_, j4⟩
    rw [j3]
    simp [isReadyToFindMatches, hreg]

/-- On a consistent cache `prepareToFindMatches` of a regex that is not ready
returns when the engine compiles the regex (if there is a string to evaluate)
and evaluates it on every target string. -/
theorem prepare_returns (E : Env R S) (c : RegexMatchCache R S) (regex : R)
    (hc : Consistent E c) (hnr : isReadyToFindMatches c regex = false)
    (hcomp : prepareTargets c regex ≠ [] → E.compile regex = true)
    (hev : ∀ s ∈ prepareTargets c regex, (E.eval regex s).isSome = true) :
    ∃ c1, prepareToFindMatches E c regex = .returned (c1, prepareTargets c regex) := by
  cases ho : prepareToFindMatches E c regex with
  | returned st =>
    obtain ⟨c1, evals⟩ := st
    obtain ⟨j1, _⟩ := prepare_returned E c c1 regex evals hc ho
    exact ⟨c1, by rw [j1]⟩
  | threw st =>
    obtain ⟨c1, evals⟩ := st
    obtain ⟨_, _, j3, j4⟩ := prepare_threw E c c1 regex evals hc ho
    rcases j4 with ⟨h1, _⟩ | ⟨_, s, hs, h2⟩
    · rw [hcomp j3] at h1
      exact absurd h1 (by simp)
    · have := hev s hs
      rw [h2] at this
      exact absurd this (by simp)
  | checkFailed =>
    have := (prepare_checkFailed_iff E c regex hc).1.1 ho
    rw [hnr] at this
    exact absurd this (by simp)
  | badDeref =>
    exact absurd ho (prepare_checkFailed_iff E c regex hc).2

theorem prepare_consistent (E : Env R S) (c c1 : RegexMatchCache R S) (regex : R)
    (evals : List S) (hc : Consistent E c)
    (h : (prepareToFindMatches E c regex).state? = some (c1, evals)) :
    Consistent E c1 := by
  cases ho : prepareToFindMatches E c regex with
  | checkFailed => rw [ho] at h; simp [Outcome.state?] at h
  | badDeref => rw [ho] at h; simp [Outcome.state?] at h
  | threw st =>
    rw [ho] at h
    simp only [Outcome.state?, Option.some.injEq] at h
    subst h
    obtain ⟨j1, _⟩ := prepare_threw E c c1 regex evals hc ho
    rw [j1]
    exact repair_consistent E c
  | returned st =>
    rw [ho] at h
    simp only [Outcome.state?, Option.some.injEq] at h
    subst h
    obtain ⟨j1, j2, j3, j4, hrtm, hmtr, hsqr, hpf, hne, hsub, _, hm, hx⟩ :=
      prepare_returned E c c1 regex evals hc ho
    have hcs := mapContains_of_mapKeys_eq _ _ hmtr
    have hpr : ∀ r, pendingStringsOf c1 r = if r = regex then [] else pendingStringsOf c r := by
      intro r
      unfold pendingStringsOf
      rw [hsqr, look_mapErase]
    -- a target is not yet in the match set of the regex
    have htgt : ∀ s ∈ prepareTargets c regex, s ∉ matchesOf c regex := by
      intro s hs
      unfold prepareTargets at hs
      cases hreg : mapContains c.cacheRegexToMatch_ regex with
      | true =>
        rw [hreg] at hs
        exact hc.disjoint regex s hs
      | false =>
        unfold matchesOf
        rw [(mapContains_false_iff _ _).1 hreg]
        simp
    refine ⟨?_, ?_, ?_, ?_, ?_, hne, ?_, ?_, ?_, ?_⟩
    · intro r s
      rw [hm, hx, hc.cache_bidi]
    · intro r s
      rw [hpf, hpr, mem_setErase, hc.queue_bidi]
      by_cases hr : r = regex <;> simp [hr]
    · intro r hr
      rw [hsqr, mapContains_mapErase] at hr
      rw [hrtm]
      simp only [Bool.and_eq_true] at hr
      simp [hc.queue_regex r hr.1]
    · intro s hs
      rw [hcs]
      exact hc.queue_string s (hsub s hs)
    · intro r s hs
      rw [hpr] at hs
      by_cases hr : r = regex
      · simp [hr] at hs
      · simp only [hr, ↓reduceIte] at hs
        rw [hm]
        simp only [hr, false_and, or_false]
        exact hc.disjoint r s hs
    · intro r hr
      rw [hsqr, mapContains_mapErase] at hr
      simp only [Bool.and_eq_true, decide_eq_true_eq] at hr
      rw [hpr]
      simp only [hr.2, ↓reduceIte]
      exact hc.reverse_nonempty r hr.1
    · intro s
      rw [hpf]
      exact nodup_setErase _ _ (hc.forward_nodup s)
    · intro r
      rw [hpr]
      split
      · exact List.nodup_nil
      · exact hc.reverse_nodup r
    · intro r s hr hs hp
      rw [hrtm] at hr
      rw [hcs] at hs
      rw [hpr] at hp
      by_cases hreq : r = regex
      · subst hreq
        by_cases hin : s ∈ prepareTargets c r
        · have hcomp := j3 (List.ne_nil_of_mem hin)
          have hsome := j4 s hin
          refine ⟨hcomp, ?_⟩
          cases hev : E.eval r s with
          | none => rw [hev] at hsome; simp at hsome
          | some b =>
            congr 1
            have hiff : s ∈ matchesOf c1 r ↔ b = true := by
              rw [hm]
              constructor
              · rintro (h1 | ⟨_, _, h3⟩)
                · exact absurd h1 (htgt s hin)
                · rw [hev] at h3; simpa using h3
              · intro hb
                exact Or.inr ⟨rfl, hin, by rw [hev, hb]⟩
            cases b with
            | true => simp [hiff]
            | false => simp [hiff]
        · -- an old pair that was not queued
          have hreg : mapContains c.cacheRegexToMatch_ r = true := by
            cases hreg : mapContains c.cacheRegexToMatch_ r with
            | true => rfl
            | false =>
              exfalso
              apply hin
              unfold prepareTargets
              rw [hreg]
              exact (mapContains_iff_mem_keys _ _).1 hs
          have hnp : s ∉ pendingStringsOf c r := by
            intro hp1
            apply hin
            unfold prepareTargets
            rw [hreg]
            exact hp1
          have := hc.accurate r s hreg hs hnp
          refine ⟨this.1, ?_⟩
          rw [this.2]
          congr 1
          rw [decide_eq_decide, hm]
          simp [hin]
      · simp only [hreq, decide_False, Bool.or_false] at hr
        simp only [hreq, ↓reduceIte] at hp
        have := hc.accurate r s hr hs hp
        refine ⟨this.1, ?_⟩
        rw [this.2]
        congr 1
        rw [decide_eq_decide, hm]
        simp [hreq]

end PrepareUnified

section Reach

variable {R S : Type} [DecidableEq R] [DecidableEq S]

theorem eraseRegex_returns (E : Env R S) (c : RegexMatchCache R S) (regex : R)
    (hc : Consistent E c) :
    ∃ c1, eraseRegex c regex = .returned c1 ∧ Consistent E c1 := by
  cases hreg : hasRegex c regex with
  | false =>
    refine ⟨c, ?_, hc⟩
    unfold eraseRegex
    rw [(mapContains_false_iff _ _).1 hreg]
  | true =>
    obtain ⟨c1, h1, _⟩ := eraseRegex_spec E c regex hc hreg
    exact ⟨c1, h1, eraseRegex_consistent E c c1 regex hc (by rw [h1]; rfl)⟩

theorem purgeLoop_returns (E : Env R S) (regexes : List R) (c : RegexMatchCache R S)
    (hc : Consistent E c) :
    ∃ c1, purgeLoop regexes c = .returned c1 ∧ Consistent E c1 := by
  induction regexes generalizing c with
  | nil => exact ⟨c, rfl, hc⟩
  | cons r rest ih =>
    obtain ⟨c1, h1, hc1⟩ := eraseRegex_returns E c r hc
    obtain ⟨c2, h2, hc2⟩ := ih c1 hc1
    refine ⟨c2, ?_, hc2⟩
    simp only [purgeLoop, h1, Outcome.andThen, h2]

theorem purge_returns (E : Env R S) (c : RegexMatchCache R S) (expiry : time_point)
    (hc : Consistent E c) :
    ∃ c1, purge c expiry = .returned c1 ∧ Consistent E c1 :=
  purgeLoop_returns E _ c hc

/-- Every call keeps the cache consistent. -/
theorem next_consistent (E : Env R S) (c c1 : RegexMatchCache R S) (op : Op R S)
    (hc : Consistent E c) (h : next? E c op = some c1) : Consistent E c1 := by
  unfold next? at h
  cases op with
  | addRegex regex =>
    apply addRegex_consistent E E.epoch c c1 regex hc
    simp only [run] at h
    cases ho : addRegex E.epoch c regex <;> rw [ho] at h <;>
      simp_all [Outcome.state?]
  | addString string =>
    apply addString_consistent E c c1 string hc
    simp only [run] at h
    cases ho : addString c string <;> rw [ho] at h <;>
      simp_all [Outcome.state?]
  | eraseRegex regex =>
    apply eraseRegex_consistent E c c1 regex hc
    simp only [run] at h
    cases ho : eraseRegex c regex <;> rw [ho] at h <;>
      simp_all [Outcome.state?]
  | eraseString string =>
    apply eraseString_consistent E c c1 string hc
    simp only [run] at h
    cases ho : eraseString c string <;> rw [ho] at h <;>
      simp_all [Outcome.state?]
  | prepareToFindMatches regex =>
    simp only [run] at h
    cases ho : (prepareToFindMatches E c regex).state? with
    | none => rw [ho] at h; simp at h
    | some st =>
      rw [ho] at h
      simp only [Option.map_some', Option.some.injEq] at h
      subst h
      exact prepare_consistent E c st.1 regex st.2 hc ho
  | findMatches regex now =>
    simp only [run] at h
    cases ho : findMatches E c regex now with
    | error e =>
      rw [ho] at h
      simp only [Outcome.state?, Option.map_some', Option.some.injEq] at h
      exact h ▸ hc
    | ok v =>
      rw [ho] at h
      simp only [Outcome.state?, Option.map_some', Option.some.injEq] at h
      subst h
      exact findMatches_consistent E c v.2 regex now v.1 hc ho
  | purge expiry =>
    obtain ⟨c2, h2, hc2⟩ := purge_returns E c expiry hc
    simp only [run, h2, Outcome.state?, Option.map_some', Option.some.injEq] at h
    exact h ▸ hc2
  | repair =>
    simp only [run, Outcome.state?, Option.map_some', Option.some.injEq] at h
    exact h ▸ repair_consistent E c
  | clear =>
    simp only [run, Outcome.state?, Option.map_some', Option.some.injEq] at h
    exact h ▸ clear_consistent E c

/-- Every reachable cache state is consistent. -/
theorem reachable_consistent (E : Env R S) (c : RegexMatchCache R S) (h : Reachable E c) :
    Consistent E c := by
  induction h with
  | init => exact empty_consistent E
  | step op _ hn ih => exact next_consistent E _ _ op ih hn

end Reach

/-! ## The demo states are reachable -/

theorem demoStrings_reachable : Reachable demoEnv demoStrings := by
  have h1 : Reachable demoEnv ⟨[], [("cat", [])], [], []⟩ :=
    Reachable.step (.addString "cat") Reachable.init (by decide)
  have h2 : Reachable demoEnv ⟨[], [("cat", []), ("car", [])], [], []⟩ :=
    Reachable.step (.addString "car") h1 (by decide)
  exact Reachable.step (.addString "dog") h2 (by decide)

theorem demoQueued_reachable : Reachable demoEnv demoQueued :=
  Reachable.step (.addRegex "ca.*") demoStrings_reachable (by decide)

theorem demoReady_reachable : Reachable demoEnv demoReady :=
  Reachable.step (.prepareToFindMatches "ca.*") demoQueued_reachable (by decide)

theorem demoBroken_reachable : Reachable demoEnv demoBroken := by
  have h1 : Reachable demoEnv ⟨[], [("cat", [])], [], []⟩ :=
    Reachable.step (.addString "cat") Reachable.init (by decide)
  have h2 : Reachable demoEnv ⟨[("ca.*", ⟨["cat"], 0⟩)], [("cat", ["ca.*"])], [], []⟩ :=
    Reachable.step (.prepareToFindMatches "ca.*") h1 (by decide)
  exact Reachable.step (.addRegex "(") h2 (by decide)

/-! ## Invariants of reachable states -/

section Claims

variable {R S : Type} [DecidableEq R] [DecidableEq S]

theorem says_iff_of_accurate (E : Env R S) (r : R) (s : S) (p : Prop) [Decidable p]
    (h : E.compile r = true ∧ E.eval r s = some (decide p)) : p ↔ E.says r s = true := by
  unfold Env.says
  rw [h.1, h.2]
  by_cases hp : p <;> simp [hp]

theorem hasString_iff (E : Env R S) (c : RegexMatchCache R S) (hc : Consistent E c) (s : S) :
    hasString c s = mapContains c.cacheMatchToRegex_ s := by
  unfold hasString
  cases h1 : mapContains c.cacheMatchToRegex_ s with
  | true => simp
  | false =>
    cases h2 : mapContains c.stringQueueForward_ s with
    | false => simp
    | true => rw [hc.queue_string s h2] at h1; exact absurd h1 (by simp)

/-- C1: in a reachable state, when `prepareToFindMatches` of a pattern returns
without error, the pattern is ready, the known strings are those known before,
and `findMatches` succeeds with a result that holds a known string exactly when
the matcher says the pattern matches it, and holds known strings only. -/
theorem prepare_then_findMatches_correct (E : Env R S) (c c1 : RegexMatchCache R S) (regex : R)
    (evals : List S) (hr : Reachable E c)
    (h : prepareToFindMatches E c regex = .returned (c1, evals)) :
    isReadyToFindMatches c1 regex = true ∧
    (∀ s, hasString c1 s = hasString c s) ∧
    ∀ now, ∃ result c2, findMatches E c1 regex now = .ok (result, c2) ∧
      (∀ s, hasString c1 s = true → (s ∈ result ↔ E.says regex s = true)) ∧
      (∀ s, s ∈ result → hasString c1 s = true) := by
  have hc := reachable_consistent E c hr
  have hc1 : Consistent E c1 := prepare_consistent E c c1 regex evals hc (by rw [h]; rfl)
  obtain ⟨_, _, _, _, hrtm, hmtr, hsqr, _⟩ := prepare_returned E c c1 regex evals hc h
  have hreg : mapContains c1.cacheRegexToMatch_ regex = true := by rw [hrtm]; simp
  have hnq : mapContains c1.stringQueueReverse_ regex = false := by
    rw [hsqr, mapContains_mapErase]; simp
  have hready : isReadyToFindMatches c1 regex = true := by
    simp [isReadyToFindMatches, hreg, hnq]
  have hnp : ∀ s, s ∉ pendingStringsOf c1 regex := by
    intro s hs
    have := mapContains_of_mem_look _ _ _ hs
    rw [hnq] at this
    exact absurd this (by simp)
  refine ⟨hready, ?_, ?_⟩
  · intro s
    rw [hasString_iff E c1 hc1, hasString_iff E c hc]
    exact mapContains_of_mapKeys_eq _ _ hmtr s
  · intro now
    obtain ⟨e, he⟩ := (mapContains_iff _ _).1 hreg
    have hm : matchesOf c1 regex = e.matches_ := by unfold matchesOf; rw [he]
    have hfm : findMatches E c1 regex now = .ok (e.matches_,
        { c1 with
          cacheRegexToMatch_ :=
            mapModify c1.cacheRegexToMatch_ regex
              (fun e => { e with accessed_at := max now e.accessed_at }) }) := by
      unfold findMatches findMatchesUnsafe
      simp only [hready, Bool.not_true, Bool.and_false, Bool.false_eq_true, ↓reduceIte, he]
    refine ⟨e.matches_, _, hfm, ?_, ?_⟩
    · intro s hs
      rw [hasString_iff E c1 hc1] at hs
      rw [← hm]
      exact says_iff_of_accurate E regex s _ (hc1.accurate regex s hreg hs (hnp s))
    · intro s hs
      rw [hasString_iff E c1 hc1]
      rw [← hm, hc1.cache_bidi] at hs
      exact mapContains_of_mem_look _ _ _ hs

/-- C2: in a reachable state, for a registered regex and a known string that
is not in the pending-strings set of the regex, the string is in the match set
of the regex exactly when the matcher says the regex matches it. -/
theorem confirmed_iff_matcher (E : Env R S) (c : RegexMatchCache R S) (r : R) (s : S)
    (hr : Reachable E c) (hreg : hasRegex c r = true) (hs : hasString c s = true)
    (hp : s ∉ pendingStringsOf c r) :
    s ∈ matchesOf c r ↔ E.says r s = true := by
  have hc := reachable_consistent E c hr
  rw [hasString_iff E c hc] at hs
  exact says_iff_of_accurate E r s _ (hc.accurate r s hreg hs hp)

/-- C3: in a reachable state, a string is in the match set stored for a regex
exactly when the regex is in the regex set stored for the string; such a
string is known and such a regex is registered. -/
theorem cache_bidirectional (E : Env R S) (c : RegexMatchCache R S) (r : R) (s : S)
    (hr : Reachable E c) :
    (s ∈ matchesOf c r ↔ r ∈ regexesOf c s) ∧
    (s ∈ matchesOf c r → hasString c s = true ∧ hasRegex c r = true) ∧
    (r ∈ regexesOf c s → hasString c s = true ∧ hasRegex c r = true) := by
  have hc := reachable_consistent E c hr
  have key : r ∈ regexesOf c s → hasString c s = true ∧ hasRegex c r = true := by
    intro h
    refine ⟨?_, ?_⟩
    · rw [hasString_iff E c hc]
      exact mapContains_of_mem_look _ _ _ h
    · rw [← hc.cache_bidi] at h
      unfold hasRegex
      cases hcm : mapContains c.cacheRegexToMatch_ r with
      | true => rfl
      | false =>
        unfold matchesOf at h
        rw [(mapContains_false_iff _ _).1 hcm] at h
        simp at h
  exact ⟨hc.cache_bidi r s, fun h => key ((hc.cache_bidi r s).1 h), key⟩

/-- C4: in a reachable state, a regex is in the pending-regex set stored for a
string exactly when the string is in the pending-string set stored for the
regex. -/
theorem queue_bidirectional (E : Env R S) (c : RegexMatchCache R S) (r : R) (s : S)
    (hr : Reachable E c) :
    r ∈ pendingRegexesOf c s ↔ s ∈ pendingStringsOf c r :=
  (reachable_consistent E c hr).queue_bidi r s

/-- C5: in a reachable state, a pair that is pending in either queue is in
neither cache. -/
theorem pending_not_confirmed (E : Env R S) (c : RegexMatchCache R S) (r : R) (s : S)
    (hr : Reachable E c) (hp : s ∈ pendingStringsOf c r ∨ r ∈ pendingRegexesOf c s) :
    s ∉ matchesOf c r ∧ r ∉ regexesOf c s := by
  have hc := reachable_consistent E c hr
  have hp1 : s ∈ pendingStringsOf c r := by
    rcases hp with hp | hp
    · exact hp
    · exact (hc.queue_bidi r s).1 hp
  have := hc.disjoint r s hp1
  exact ⟨this, fun h => this ((hc.cache_bidi r s).2 h)⟩

/-- C6: in a reachable state, a pattern is ready exactly when it is registered
and pending with no string in either queue, and then it has no reverse queue
entry; a registered pattern is not ready exactly when some pair with it is
pending in both queues; and no queue entry is empty. -/
theorem ready_iff_no_pending (E : Env R S) (c : RegexMatchCache R S) (p : R)
    (hr : Reachable E c) :
    (isReadyToFindMatches c p = true ↔
      hasRegex c p = true ∧ ∀ s, p ∉ pendingRegexesOf c s ∧ s ∉ pendingStringsOf c p) ∧
    (isReadyToFindMatches c p = true → get_ptr c.stringQueueReverse_ p = none) ∧
    (hasRegex c p = true →
      (isReadyToFindMatches c p = false ↔
        ∃ s, s ∈ pendingStringsOf c p ∧ p ∈ pendingRegexesOf c s)) ∧
    (∀ r, get_ptr c.stringQueueReverse_ r ≠ some []) ∧
    (∀ s, get_ptr c.stringQueueForward_ s ≠ some []) := by
  have hc := reachable_consistent E c hr
  have hnone : mapContains c.stringQueueReverse_ p = false →
      ∀ s, p ∉ pendingRegexesOf c s ∧ s ∉ pendingStringsOf c p := by
    intro h s
    have h2 : s ∉ pendingStringsOf c p := by
      intro hs
      have := mapContains_of_mem_look _ _ _ hs
      rw [h] at this
      exact absurd this (by simp)
    exact ⟨fun h1 => h2 ((hc.queue_bidi p s).1 h1), h2⟩
  refine ⟨?_, ?_, ?_, ?_, ?_⟩
  · unfold isReadyToFindMatches hasRegex
    constructor
    · intro h
      simp only [Bool.and_eq_true, Bool.not_eq_true'] at h
      exact ⟨h.1, hnone h.2⟩
    · rintro ⟨h1, h2⟩
      have h3 : mapContains c.stringQueueReverse_ p = false := by
        cases h : mapContains c.stringQueueReverse_ p with
        | false => rfl
        | true =>
          obtain ⟨s, hs⟩ := List.exists_mem_of_ne_nil _ (hc.reverse_nonempty p h)
          exact absurd hs (h2 s).2
      simp [h1, h3]
  · intro h
    unfold isReadyToFindMatches at h
    simp only [Bool.and_eq_true, Bool.not_eq_true'] at h
    exact (mapContains_false_iff _ _).1 h.2
  · intro hreg
    have hreg1 : mapContains c.cacheRegexToMatch_ p = true := hreg
    unfold isReadyToFindMatches
    constructor
    · intro h
      simp only [hreg1, Bool.true_and, Bool.not_eq_false'] at h
      obtain ⟨s, hs⟩ := List.exists_mem_of_ne_nil _ (hc.reverse_nonempty p h)
      exact ⟨s, hs, (hc.queue_bidi p s).2 hs⟩
    · rintro ⟨s, hs, _⟩
      simp [hreg1, mapContains_of_mem_look _ _ _ hs]
  · intro r h
    have h1 : mapContains c.stringQueueReverse_ r = true := (mapContains_iff _ _).2 ⟨_, h⟩
    exact hc.reverse_nonempty r h1 (look_of_get_ptr _ _ _ h)
  · intro s h
    have h1 : mapContains c.stringQueueForward_ s = true := (mapContains_iff _ _).2 ⟨_, h⟩
    exact hc.forward_nonempty s h1 (look_of_get_ptr _ _ _ h)

end Claims

/-- Witness of C1 on the cache with `"ca.*"` queued on three strings. -/
theorem prepare_then_findMatches_correct_witness :
    Reachable demoEnv demoQueued ∧
    prepareToFindMatches demoEnv demoQueued "ca.*" =
      .returned (demoReady, ["cat", "car", "dog"]) ∧
    (isReadyToFindMatches demoReady "ca.*" = true ∧
    (∀ s, hasString demoReady s = hasString demoQueued s) ∧
    ∀ now, ∃ result c2, findMatches demoEnv demoReady "ca.*" now = .ok (result, c2) ∧
      (∀ s, hasString demoReady s = true → (s ∈ result ↔ demoEnv.says "ca.*" s = true)) ∧
      (∀ s, s ∈ result → hasString demoReady s = true)) :=
  ⟨demoQueued_reachable, by decide,
    prepare_then_findMatches_correct demoEnv demoQueued demoReady "ca.*" ["cat", "car", "dog"]
      demoQueued_reachable (by decide)⟩

/-- Witness of C2 on the prepared cache, for `"ca.*"` and `"dog"`. -/
theorem confirmed_iff_matcher_witness :
    Reachable demoEnv demoReady ∧ hasRegex demoReady "ca.*" = true ∧
    hasString demoReady "dog" = true ∧ "dog" ∉ pendingStringsOf demoReady "ca.*" ∧
    ("dog" ∈ matchesOf demoReady "ca.*" ↔ demoEnv.says "ca.*" "dog" = true) :=
  ⟨demoReady_reachable, by decide, by decide, by decide,
    confirmed_iff_matcher demoEnv demoReady "ca.*" "dog" demoReady_reachable
      (by decide) (by decide) (by decide)⟩

/-- Witness of C3 on the prepared cache, for `"ca.*"` and `"cat"`. -/
theorem cache_bidirectional_witness :
    Reachable demoEnv demoReady ∧
    (("cat" ∈ matchesOf demoReady "ca.*" ↔ "ca.*" ∈ regexesOf demoReady "cat") ∧
    ("cat" ∈ matchesOf demoReady "ca.*" →
      hasString demoReady "cat" = true ∧ hasRegex demoReady "ca.*" = true) ∧
    ("ca.*" ∈ regexesOf demoReady "cat" →
      hasString demoReady "cat" = true ∧ hasRegex demoReady "ca.*" = true)) :=
  ⟨demoReady_reachable,
    cache_bidirectional demoEnv demoReady "ca.*" "cat" demoReady_reachable⟩

/-- Witness of C4 on the queued cache, for `"ca.*"` and `"dog"`. -/
theorem queue_bidirectional_witness :
    Reachable demoEnv demoQueued ∧
    ("ca.*" ∈ pendingRegexesOf demoQueued "dog" ↔ "dog" ∈ pendingStringsOf demoQueued "ca.*") :=
  ⟨demoQueued_reachable,
    queue_bidirectional demoEnv demoQueued "ca.*" "dog" demoQueued_reachable⟩

/-- Witness of C5 on the queued cache, for `"ca.*"` and `"cat"`. -/
theorem pending_not_confirmed_witness :
    Reachable demoEnv demoQueued ∧
    ("cat" ∈ pendingStringsOf demoQueued "ca.*" ∨ "ca.*" ∈ pendingRegexesOf demoQueued "cat") ∧
    ("cat" ∉ matchesOf demoQueued "ca.*" ∧ "ca.*" ∉ regexesOf demoQueued "cat") :=
  ⟨demoQueued_reachable, by decide,
    pending_not_confirmed demoEnv demoQueued "ca.*" "cat" demoQueued_reachable (by decide)⟩

/-- Witness of C6 on the queued cache, for `"ca.*"`. -/
theorem ready_iff_no_pending_witness :
    Reachable demoEnv demoQueued ∧
    (hasRegex demoQueued "ca.*" = true →
      (isReadyToFindMatches demoQueued "ca.*" = false ↔
        ∃ s, s ∈ pendingStringsOf demoQueued "ca.*" ∧ "ca.*" ∈ pendingRegexesOf demoQueued s)) :=
  ⟨demoQueued_reachable,
    (ready_iff_no_pending demoEnv demoQueued "ca.*" demoQueued_reachable).2.2.1⟩

section Claims2

variable {R S : Type} [DecidableEq R] [DecidableEq S]

/-- C7, as amended: in a reachable state, when `prepareToFindMatches` of a
pattern returns without error the pattern is ready, and a second call right
after it does not complete: it fails the `CHECK` that the regex has a reverse
queue entry. -/
theorem prepare_twice_fails_check (E : Env R S) (c c1 : RegexMatchCache R S) (regex : R)
    (evals : List S) (hr : Reachable E c)
    (h : prepareToFindMatches E c regex = .returned (c1, evals)) :
    isReadyToFindMatches c1 regex = true ∧
    prepareToFindMatches E c1 regex = .checkFailed := by
  have hc := reachable_consistent E c hr
  have hc1 : Consistent E c1 := prepare_consistent E c c1 regex evals hc (by rw [h]; rfl)
  obtain ⟨_, _, _, _, hrtm, hmtr, hsqr, _⟩ := prepare_returned E c c1 regex evals hc h
  have hready : isReadyToFindMatches c1 regex = true := by
    unfold isReadyToFindMatches
    rw [hrtm, hsqr, mapContains_mapErase]
    simp
  exact ⟨hready, (prepare_checkFailed_iff E c1 regex hc1).1.2 hready⟩

/-- C8, as amended: in a reachable state, for a registered pattern that is
not ready: when the engine compiles the pattern and evaluates it on each string
of its pending-strings set, `prepareToFindMatches` returns without error; and
whenever it returns without error, it ran the matcher exactly once on each
string of the pending-strings set and on no other string, removed each such
pair from both queues, left no empty queue entry, and left the cached and
queued pairs of every other regex as they were. `addRegex` and `addString` run
the matcher on no string, whatever the engine. -/
theorem prepare_consumes_queue (E : Env R S) (c : RegexMatchCache R S) (p : R)
    (hr : Reachable E c) (hreg : hasRegex c p = true)
    (hnr : isReadyToFindMatches c p = false) :
    (E.compile p = true → (∀ s ∈ pendingStringsOf c p, (E.eval p s).isSome = true) →
      ∃ c1, prepareToFindMatches E c p = .returned (c1, pendingStringsOf c p)) ∧
    (∀ c1 evals, prepareToFindMatches E c p = .returned (c1, evals) →
      (evals = pendingStringsOf c p ∧ evals.Nodup) ∧
      (∀ s, s ∉ pendingStringsOf c1 p ∧ p ∉ pendingRegexesOf c1 s) ∧
      (mapContains c1.stringQueueReverse_ p = false ∧
        (∀ r, get_ptr c1.stringQueueReverse_ r ≠ some []) ∧
        (∀ s, get_ptr c1.stringQueueForward_ s ≠ some [])) ∧
      (∀ r s, r ≠ p →
        (s ∈ matchesOf c1 r ↔ s ∈ matchesOf c r) ∧ (r ∈ regexesOf c1 s ↔ r ∈ regexesOf c s) ∧
        (s ∈ pendingStringsOf c1 r ↔ s ∈ pendingStringsOf c r) ∧
        (r ∈ pendingRegexesOf c1 s ↔ r ∈ pendingRegexesOf c s))) ∧
    (∀ (E1 : Env R S) (c0 : RegexMatchCache R S) (r : R) (st : RegexMatchCache R S × List S),
      (run E1 c0 (.addRegex r)).state? = some st → st.2 = []) ∧
    (∀ (E1 : Env R S) (c0 : RegexMatchCache R S) (s : S) (st : RegexMatchCache R S × List S),
      (run E1 c0 (.addString s)).state? = some st → st.2 = []) := by
  have hc := reachable_consistent E c hr
  have hreg1 : mapContains c.cacheRegexToMatch_ p = true := hreg
  have hP : prepareTargets c p = pendingStringsOf c p := by
    simp [prepareTargets, hreg1]
  refine ⟨?_, ?_, ?_, ?_⟩
  · intro hcomp hev
    have := prepare_returns E c p hc hnr (fun _ => hcomp) (by rw [hP]; exact hev)
    rw [hP] at this
    exact this
  · intro c1 evals h
    have hc1 : Consistent E c1 := prepare_consistent E c c1 p evals hc (by rw [h]; rfl)
    obtain ⟨j1, _, _, _, hrtm, hmtr, hsqr, hpf, hne, _, _, hm, hx⟩ :=
      prepare_returned E c c1 p evals hc h
    have hpr : ∀ r, pendingStringsOf c1 r = if r = p then [] else pendingStringsOf c r := by
      intro r
      unfold pendingStringsOf
      rw [hsqr, look_mapErase]
    refine ⟨⟨j1.trans hP, ?_⟩, ?_, ⟨?_, ?_, ?_⟩, ?_⟩
    · rw [j1, hP]
      exact hc.reverse_nodup p
    · intro s
      rw [hpr, hpf, mem_setErase]
      simp
    · rw [hsqr, mapContains_mapErase]
      simp
    · intro r h0
      have h1 : mapContains c1.stringQueueReverse_ r = true := (mapContains_iff _ _).2 ⟨_, h0⟩
      exact hc1.reverse_nonempty r h1 (look_of_get_ptr _ _ _ h0)
    · intro s h0
      have h1 : mapContains c1.stringQueueForward_ s = true := (mapContains_iff _ _).2 ⟨_, h0⟩
      exact hc1.forward_nonempty s h1 (look_of_get_ptr _ _ _ h0)
    · intro r s hrp
      refine ⟨?_, ?_, ?_, ?_⟩
      · rw [hm]; simp [hrp]
      · rw [hx]; simp [hrp]
      · rw [hpr]; simp [hrp]
      · rw [hpf, mem_setErase]; simp [hrp]
  · intro E1 c0 r st hst
    simp only [run] at hst
    cases ho : addRegex E1.epoch c0 r <;> rw [ho] at hst <;>
      simp [Outcome.state?] at hst <;> rw [← hst]
  · intro E1 c0 s st hst
    simp only [run] at hst
    cases ho : addString c0 s <;> rw [ho] at hst <;>
      simp [Outcome.state?] at hst <;> rw [← hst]

/-- C9: in a reachable state, `addRegex` of an unregistered pattern returns;
afterwards the pattern is registered with an empty match set; when some string
is known, its pending-strings set holds exactly the known strings, it is in
the pending-regex set of each known string and it is not ready; when no string
is known, there is no queue entry at all and it is ready; no cached pair
changes and no queued pair of another regex changes. -/
theorem addRegex_new_spec (E : Env R S) (c : RegexMatchCache R S) (p : R)
    (hr : Reachable E c) (hnew : hasRegex c p = false) :
    ∃ c1, addRegex E.epoch c p = .returned c1 ∧
      hasRegex c1 p = true ∧ matchesOf c1 p = [] ∧
      ((∃ s, hasString c s = true) →
        (∀ s, s ∈ pendingStringsOf c1 p ↔ hasString c s = true) ∧
        (∀ s, hasString c s = true → p ∈ pendingRegexesOf c1 s) ∧
        isReadyToFindMatches c1 p = false) ∧
      ((∀ s, hasString c s = false) →
        (∀ r, mapContains c1.stringQueueReverse_ r = false) ∧
        (∀ s, mapContains c1.stringQueueForward_ s = false) ∧
        isReadyToFindMatches c1 p = true) ∧
      (∀ r s, (s ∈ matchesOf c1 r ↔ s ∈ matchesOf c r) ∧
        (r ∈ regexesOf c1 s ↔ r ∈ regexesOf c s)) ∧
      (∀ r s, r ≠ p →
        (s ∈ pendingStringsOf c1 r ↔ s ∈ pendingStringsOf c r) ∧
        (r ∈ pendingRegexesOf c1 s ↔ r ∈ pendingRegexesOf c s)) := by
  have hc := reachable_consistent E c hr
  obtain ⟨c1, h1, hrtm, hmtr, hcf, hcr, hpf, hpr, _, _⟩ := addRegex_spec E E.epoch c p hc hnew
  have hnew1 : mapContains c.cacheRegexToMatch_ p = false := hnew
  have hm : ∀ r, matchesOf c1 r = matchesOf c r := by
    intro r
    obtain ⟨a, b, f, g⟩ := c1
    exact matchesOf_append_new c p E.epoch a b f g hnew1 hrtm r
  have hm0 : matchesOf c p = [] := by
    unfold matchesOf
    rw [(mapContains_false_iff _ _).1 hnew1]
  have hreg1 : mapContains c1.cacheRegexToMatch_ p = true := by
    rw [hrtm, mapContains_append_new]; simp
  have hsqr : mapContains c.stringQueueReverse_ p = false := by
    cases h : mapContains c.stringQueueReverse_ p with
    | false => rfl
    | true => rw [hc.queue_regex p h] at hnew1; exact absurd hnew1 (by simp)
  refine ⟨c1, h1, hreg1, by rw [hm, hm0], ?_, ?_, ?_, ?_⟩
  · rintro ⟨s0, hs0⟩
    rw [hasString_iff E c hc] at hs0
    refine ⟨?_, ?_, ?_⟩
    · intro s
      rw [hpr, hasString_iff E c hc]
      constructor
      · rintro (h | ⟨_, h⟩)
        · have := mapContains_of_mem_look _ _ _ h
          rw [hsqr] at this
          exact absurd this (by simp)
        · exact h
      · intro h
        exact Or.inr ⟨rfl, h⟩
    · intro s hs
      rw [hasString_iff E c hc] at hs
      exact (hpf s p).2 (Or.inr ⟨rfl, hs⟩)
    · unfold isReadyToFindMatches
      rw [hreg1, hcr]
      have : c.cacheMatchToRegex_.isEmpty = false :=
        (isEmpty_eq_false_iff_exists_key _).2 ⟨s0, hs0⟩
      simp [this]
  · intro hno
    have hno1 : ∀ s, mapContains c.cacheMatchToRegex_ s = false := by
      intro s
      rw [← hasString_iff E c hc]
      exact hno s
    have hemp : c.cacheMatchToRegex_.isEmpty = true := (isEmpty_iff_no_key _).2 hno1
    have hrev : ∀ r, mapContains c1.stringQueueReverse_ r = false := by
      intro r
      rw [hcr, hemp]
      simp only [Bool.not_true, Bool.and_false, Bool.or_false]
      cases h : mapContains c.stringQueueReverse_ r with
      | false => rfl
      | true =>
        obtain ⟨s, hs⟩ := List.exists_mem_of_ne_nil _ (hc.reverse_nonempty r h)
        rw [← hc.queue_bidi] at hs
        have := hc.queue_string s (mapContains_of_mem_look _ _ _ hs)
        rw [hno1 s] at this
        exact absurd this (by simp)
    refine ⟨hrev, ?_, ?_⟩
    · intro s
      rw [hcf]
      exact hno1 s
    · unfold isReadyToFindMatches
      rw [hreg1, hrev p]
      rfl
  · intro r s
    refine ⟨by rw [hm], ?_⟩
    unfold regexesOf
    rw [hmtr]
  · intro r s hrp
    refine ⟨?_, ?_⟩
    · rw [hpr]; simp [hrp]
    · rw [hpf]; simp [hrp]

/-- C10: in a reachable state, `addString` of an unknown string returns;
afterwards the string is known with an empty regex set; when some regex is
registered, its pending-regex set holds exactly the registered regexes, it is
in the pending-strings set of each of them and none of them is ready; when no
regex is registered, there is no queue entry at all; no cached pair changes and
no queued pair of another string changes. -/
theorem addString_new_spec (E : Env R S) (c : RegexMatchCache R S) (string : S)
    (hr : Reachable E c) (hnew : hasString c string = false) :
    ∃ c1, addString c string = .returned c1 ∧
      hasString c1 string = true ∧ regexesOf c1 string = [] ∧
      (∀ r, hasRegex c1 r = hasRegex c r) ∧
      ((∃ r, hasRegex c r = true) →
        (∀ r, r ∈ pendingRegexesOf c1 string ↔ hasRegex c r = true) ∧
        (∀ r, hasRegex c r = true →
          string ∈ pendingStringsOf c1 r ∧ isReadyToFindMatches c1 r = false)) ∧
      ((∀ r, hasRegex c r = false) →
        (∀ r, mapContains c1.stringQueueReverse_ r = false) ∧
        (∀ s, mapContains c1.stringQueueForward_ s = false)) ∧
      (∀ r s, (s ∈ matchesOf c1 r ↔ s ∈ matchesOf c r) ∧
        (r ∈ regexesOf c1 s ↔ r ∈ regexesOf c s)) ∧
      (∀ r s, s ≠ string →
        (s ∈ pendingStringsOf c1 r ↔ s ∈ pendingStringsOf c r) ∧
        (r ∈ pendingRegexesOf c1 s ↔ r ∈ pendingRegexesOf c s)) := by
  have hc := reachable_consistent E c hr
  rw [hasString_iff E c hc] at hnew
  obtain ⟨c1, h1, hrtm, hmtr, hcr, hcf, hpf, hpr, _, _⟩ := addString_spec E c string hc hnew
  have hc1 : Consistent E c1 := addString_consistent E c c1 string hc (by rw [h1]; rfl)
  have hm : ∀ r, matchesOf c1 r = matchesOf c r := by
    intro r; unfold matchesOf; rw [hrtm]
  have hx0 : regexesOf c string = [] := by
    unfold regexesOf
    exact look_eq_nil_of_not_contains _ _ hnew
  have hx : ∀ s, regexesOf c1 s = regexesOf c s := by
    intro s
    unfold regexesOf look
    rw [hmtr, get_ptr_append]
    by_cases hs : string = s
    · subst hs
      rw [(mapContains_false_iff _ _).1 hnew]
      simp [get_ptr_cons]
    · cases get_ptr c.cacheMatchToRegex_ s <;> simp [get_ptr_cons, hs]
  have hsqf : mapContains c.stringQueueForward_ string = false := by
    cases h : mapContains c.stringQueueForward_ string with
    | false => rfl
    | true => rw [hc.queue_string string h] at hnew; exact absurd hnew (by simp)
  have hknown : hasString c1 string = true := by
    rw [hasString_iff E c1 hc1, hmtr, mapContains_append_new]; simp
  refine ⟨c1, h1, hknown, by rw [hx, hx0], ?_, ?_, ?_, ?_, ?_⟩
  · intro r; unfold hasRegex; rw [hrtm]
  · rintro ⟨r0, hr0⟩
    refine ⟨?_, ?_⟩
    · intro r
      rw [hpf]
      unfold hasRegex
      constructor
      · rintro (h | ⟨_, h⟩)
        · have := mapContains_of_mem_look _ _ _ h
          rw [hsqf] at this
          exact absurd this (by simp)
        · exact h
      · intro h
        exact Or.inr ⟨rfl, h⟩
    · intro r hreg
      have hmem : string ∈ pendingStringsOf c1 r := (hpr r string).2 (Or.inr ⟨rfl, hreg⟩)
      refine ⟨hmem, ?_⟩
      unfold isReadyToFindMatches
      rw [mapContains_of_mem_look _ _ _ hmem]
      simp
  · intro hno
    have hno1 : ∀ r, mapContains c.cacheRegexToMatch_ r = false := hno
    have hrev : ∀ r, mapContains c1.stringQueueReverse_ r = false := by
      intro r
      rw [hcr, hno1 r]
      simp only [Bool.or_false]
      cases h : mapContains c.stringQueueReverse_ r with
      | false => rfl
      | true =>
        have := hc.queue_regex r h
        rw [hno1 r] at this
        exact absurd this (by simp)
    refine ⟨hrev, ?_⟩
    intro s
    cases h : mapContains c1.stringQueueForward_ s with
    | false => rfl
    | true =>
      obtain ⟨r, hr1⟩ := List.exists_mem_of_ne_nil _ (hc1.forward_nonempty s h)
      rw [hc1.queue_bidi] at hr1
      have := mapContains_of_mem_look _ _ _ hr1
      rw [hrev r] at this
      exact absurd this (by simp)
  · intro r s
    exact ⟨by rw [hm], by rw [hx]⟩
  · intro r s hss
    refine ⟨?_, ?_⟩
    · rw [hpr]; simp [hss]
    · rw [hpf]; simp [hss]

end Claims2

/-- C7 fails as stated: on the cache with `"ca.*"` queued on three strings the
first `prepareToFindMatches` returns, and the second one fails a `CHECK`. -/
theorem prepare_twice_counterexample :
    Reachable demoEnv demoQueued ∧
    prepareToFindMatches demoEnv demoQueued "ca.*" =
      .returned (demoReady, ["cat", "car", "dog"]) ∧
    prepareToFindMatches demoEnv demoReady "ca.*" = .checkFailed :=
  ⟨demoQueued_reachable, by decide, by decide⟩

/-- Witness of the amended C7 on the cache with `"ca.*"` queued. -/
theorem prepare_twice_fails_check_witness :
    Reachable demoEnv demoQueued ∧
    prepareToFindMatches demoEnv demoQueued "ca.*" =
      .returned (demoReady, ["cat", "car", "dog"]) ∧
    (isReadyToFindMatches demoReady "ca.*" = true ∧
      prepareToFindMatches demoEnv demoReady "ca.*" = .checkFailed) :=
  ⟨demoQueued_reachable, by decide,
    prepare_twice_fails_check demoEnv demoQueued demoReady "ca.*" ["cat", "car", "dog"]
      demoQueued_reachable (by decide)⟩

/-- C8 fails as stated: the pattern `"("` is registered, not ready and queued
on `"cat"`, yet `prepareToFindMatches` leaves with the compile error, having
run the matcher on no string, and the repair drops the cached pair of the
other regex `"ca.*"`. -/
theorem prepare_throws_counterexample :
    Reachable demoEnv demoBroken ∧
    hasRegex demoBroken "(" = true ∧ isReadyToFindMatches demoBroken "(" = false ∧
    pendingStringsOf demoBroken "(" = ["cat"] ∧
    prepareToFindMatches demoEnv demoBroken "(" = .threw (repair demoBroken, []) ∧
    "cat" ∈ matchesOf demoBroken "ca.*" ∧ "cat" ∉ matchesOf (repair demoBroken) "ca.*" :=
  ⟨demoBroken_reachable, by decide, by decide, by decide, by decide, by decide, by decide⟩

/-- Witness of the amended C8 on the cache with `"ca.*"` queued. -/
theorem prepare_consumes_queue_witness :
    Reachable demoEnv demoQueued ∧ hasRegex demoQueued "ca.*" = true ∧
    isReadyToFindMatches demoQueued "ca.*" = false ∧
    (demoEnv.compile "ca.*" = true →
      (∀ s ∈ pendingStringsOf demoQueued "ca.*", (demoEnv.eval "ca.*" s).isSome = true) →
      ∃ c1, prepareToFindMatches demoEnv demoQueued "ca.*" =
        .returned (c1, pendingStringsOf demoQueued "ca.*")) :=
  ⟨demoQueued_reachable, by decide, by decide,
    (prepare_consumes_queue demoEnv demoQueued "ca.*" demoQueued_reachable
      (by decide) (by decide)).1⟩

/-- Witness of C9: `addRegex` of `"ca.*"` on the cache with three strings. -/
theorem addRegex_new_spec_witness :
    Reachable demoEnv demoStrings ∧ hasRegex demoStrings "ca.*" = false ∧
    ∃ c1, addRegex demoEnv.epoch demoStrings "ca.*" = .returned c1 ∧
      hasRegex c1 "ca.*" = true ∧ matchesOf c1 "ca.*" = [] :=
  ⟨demoStrings_reachable, by decide,
    (addRegex_new_spec demoEnv demoStrings "ca.*" demoStrings_reachable (by decide)).imp
      (fun _ h => ⟨h.1, h.2.1, h.2.2.1⟩)⟩

/-- Witness of C10: `addString` of `"can"` on the prepared cache. -/
theorem addString_new_spec_witness :
    Reachable demoEnv demoReady ∧ hasString demoReady "can" = false ∧
    ∃ c1, addString demoReady "can" = .returned c1 ∧
      hasString c1 "can" = true ∧ regexesOf c1 "can" = [] :=
  ⟨demoReady_reachable, by decide,
    (addString_new_spec demoEnv demoReady "can" demoReady_reachable (by decide)).imp
      (fun _ h => ⟨h.1, h.2.1, h.2.2.1⟩)⟩

/-! ## The keys of `cacheRegexToMatch_` are distinct -/

section KeysNodup

variable {R S : Type} [DecidableEq R] [DecidableEq S]

theorem mapKeys_mapErase {K V : Type} [DecidableEq K] (m : List (K × V)) (k : K) :
    mapKeys (mapErase m k) = (mapKeys m).filter (fun a => decide (a ≠ k)) := by
  unfold mapKeys mapErase
  rw [List.filter_map]
  rfl

theorem nodup_keys_mapErase {K V : Type} [DecidableEq K] (m : List (K × V)) (k : K)
    (h : (mapKeys m).Nodup) : (mapKeys (mapErase m k)).Nodup := by
  rw [mapKeys_mapErase]
  exact h.filter _

theorem nodup_keys_try_emplace {K V : Type} [DecidableEq K] (m : List (K × V)) (k : K) (v : V)
    (h : (mapKeys m).Nodup) : (mapKeys (try_emplace m k v)).Nodup := by
  unfold try_emplace
  cases hc : mapContains m k with
  | true => simpa using h
  | false =>
    have hk : k ∉ mapKeys m := by
      rw [← mapContains_iff_mem_keys, hc]; simp
    simp only [Bool.false_eq_true, ↓reduceIte, mapKeys, List.map_append, List.map_cons,
      List.map_nil]
    rw [List.nodup_append]
    refine ⟨h, List.nodup_singleton k, ?_⟩
    intro a ha
    simp only [List.mem_singleton]
    rintro rfl
    exact hk ha

theorem get_ptr_eq_some_of_mem {K V : Type} [DecidableEq K] (m : List (K × V)) (k : K) (v : V)
    (hn : (mapKeys m).Nodup) (h : (k, v) ∈ m) : get_ptr m k = some v := by
  induction m with
  | nil => simp at h
  | cons p t ih =>
    obtain ⟨a, w⟩ := p
    simp only [mapKeys, List.map_cons, List.nodup_cons] at hn
    rcases List.mem_cons.1 h with h1 | h1
    · simp only [Prod.mk.injEq] at h1
      obtain ⟨rfl, rfl⟩ := h1
      simp [get_ptr_cons]
    · have hne : a ≠ k := by
        rintro rfl
        exact hn.1 (List.mem_map_of_mem Prod.fst h1)
      simp only [get_ptr_cons, hne, ↓reduceIte]
      exact ih hn.2 h1

theorem mem_of_get_ptr_eq_some {K V : Type} [DecidableEq K] (m : List (K × V)) (k : K) (v : V)
    (h : get_ptr m k = some v) : (k, v) ∈ m := by
  induction m with
  | nil => simp at h
  | cons p t ih =>
    obtain ⟨a, w⟩ := p
    simp only [get_ptr_cons] at h
    by_cases ha : a = k
    · simp only [ha, ↓reduceIte, Option.some.injEq] at h
      subst ha h
      exact List.mem_cons_self _ _
    · simp only [ha, ↓reduceIte] at h
      exact List.mem_cons_of_mem _ (ih h)

theorem prepareNew_keys (E : Env R S) (regex : R) (ks : List S)
    (st st1 : RegexMatchCache R S × List S)
    (h : prepareNew E regex ks st = .returned st1) :
    mapKeys st1.1.cacheRegexToMatch_ = mapKeys st.1.cacheRegexToMatch_ := by
  induction ks generalizing st with
  | nil =>
    simp only [prepareNew, Outcome.returned.injEq] at h
    rw [h]
  | cons k rest ih =>
    obtain ⟨c, evals⟩ := st
    unfold prepareNew at h
    cases hev : E.eval regex k with
    | none => rw [hev] at h; simp at h
    | some b =>
      rw [hev] at h
      simp only at h
      rw [ih _ h]
      cases b with
      | false => rfl
      | true => simp only [↓reduceIte, confirm, mapKeys_mapModify]

theorem prepareOld_keys (E : Env R S) (regex : R) (ks : List S)
    (st st1 : RegexMatchCache R S × List S)
    (h : prepareOld E regex ks st = .returned st1) :
    mapKeys st1.1.cacheRegexToMatch_ = mapKeys st.1.cacheRegexToMatch_ := by
  induction ks generalizing st with
  | nil =>
    simp only [prepareOld, Outcome.returned.injEq] at h
    rw [h]
  | cons k rest ih =>
    obtain ⟨c, evals⟩ := st
    unfold prepareOld at h
    cases hq : get_ptr c.stringQueueForward_ k with
    | none => rw [hq] at h; simp at h
    | some e =>
      rw [hq] at h
      simp only at h
      split at h
      · simp at h
      · split at h
        · simp at h
        · split at h
          · simp at h
          · rename_i b hb
            rw [ih _ h]
            cases b with
            | false => rfl
            | true => simp only [↓reduceIte, confirm, mapKeys_mapModify]

/-- A returning `prepareToFindMatches` leaves the keys of `cacheRegexToMatch_`
as its `try_emplace` made them. -/
theorem prepare_keys (E : Env R S) (c c1 : RegexMatchCache R S) (regex : R) (evals : List S)
    (h : prepareToFindMatches E c regex = .returned (c1, evals)) :
    mapKeys c1.cacheRegexToMatch_ =
      mapKeys (try_emplace c.cacheRegexToMatch_ regex (⟨[], E.epoch⟩ : RegexEntry S)) := by
  unfold prepareToFindMatches at h
  have h1 := guardedEvals_returned _ _ h
  split at h1
  · split at h1
    · simp at h1
    · split at h1
      · split at h1
        · simp at h1
        · split at h1
          · simp at h1
          · simp only [Outcome.returned.injEq, Prod.mk.injEq] at h1
            rw [← h1.1]
      · split at h1
        · simp at h1
        · exact prepareNew_keys E regex _ _ _ h1
  · split at h1
    · simp at h1
    · split at h1
      · simp at h1
      · split at h1
        · simp at h1
        · exact prepareOld_keys E regex _ _ _ h1

end KeysNodup

section PurgeSpec

variable {R S : Type} [DecidableEq R] [DecidableEq S]

/-- What `eraseRegex` does to a consistent cache, registered regex or not. -/
theorem eraseRegex_full (E : Env R S) (c : RegexMatchCache R S) (regex : R)
    (hc : Consistent E c) :
    ∃ c1, eraseRegex c regex = .returned c1 ∧ Consistent E c1 ∧
      c1.cacheRegexToMatch_ = mapErase c.cacheRegexToMatch_ regex ∧
      mapKeys c1.cacheMatchToRegex_ = mapKeys c.cacheMatchToRegex_ ∧
      c1.stringQueueReverse_ = mapErase c.stringQueueReverse_ regex ∧
      (∀ s, regexesOf c1 s = setErase (regexesOf c s) regex) ∧
      (∀ s, pendingRegexesOf c1 s = setErase (pendingRegexesOf c s) regex) := by
  cases hreg : hasRegex c regex with
  | true =>
    obtain ⟨c1, h1, h2, h3, h4, h5, h6, _⟩ := eraseRegex_spec E c regex hc hreg
    exact ⟨c1, h1, eraseRegex_consistent E c c1 regex hc (by rw [h1]; rfl), h2, h3, h4, h5, h6⟩
  | false =>
    have hreg1 : mapContains c.cacheRegexToMatch_ regex = false := hreg
    have hsqr : mapContains c.stringQueueReverse_ regex = false := by
      cases h : mapContains c.stringQueueReverse_ regex with
      | false => rfl
      | true => rw [hc.queue_regex regex h] at hreg1; exact absurd hreg1 (by simp)
    have hm0 : matchesOf c regex = [] := by
      unfold matchesOf
      rw [(mapContains_false_iff _ _).1 hreg1]
    refine ⟨c, ?_, hc, ?_, rfl, ?_, ?_, ?_⟩
    · unfold eraseRegex
      rw [(mapContains_false_iff _ _).1 hreg1]
    · rw [mapErase_of_not_contains _ _ hreg1]
    · rw [mapErase_of_not_contains _ _ hsqr]
    · intro s
      refine (setErase_of_not_mem _ _ ?_).symm
      intro h
      rw [← hc.cache_bidi, hm0] at h
      simp at h
    · intro s
      refine (setErase_of_not_mem _ _ ?_).symm
      intro h
      rw [hc.queue_bidi] at h
      have := mapContains_of_mem_look _ _ _ h
      rw [hsqr] at this
      exact absurd this (by simp)

/-- What the erasing loop of `purge` does to a consistent cache. -/
theorem purgeLoop_spec (E : Env R S) (rs : List R) (c : RegexMatchCache R S)
    (hc : Consistent E c) :
    ∃ c1, purgeLoop rs c = .returned c1 ∧ Consistent E c1 ∧
      (∀ r, get_ptr c1.cacheRegexToMatch_ r =
        if r ∈ rs then none else get_ptr c.cacheRegexToMatch_ r) ∧
      mapKeys c1.cacheMatchToRegex_ = mapKeys c.cacheMatchToRegex_ ∧
      (∀ r, get_ptr c1.stringQueueReverse_ r =
        if r ∈ rs then none else get_ptr c.stringQueueReverse_ r) ∧
      (∀ s r, r ∈ regexesOf c1 s ↔ r ∈ regexesOf c s ∧ r ∉ rs) ∧
      (∀ s r, r ∈ pendingRegexesOf c1 s ↔ r ∈ pendingRegexesOf c s ∧ r ∉ rs) ∧
      ((mapKeys c.cacheRegexToMatch_).Nodup → (mapKeys c1.cacheRegexToMatch_).Nodup) := by
  induction rs generalizing c with
  | nil => exact ⟨c, rfl, hc, by simp, rfl, by simp, by simp, by simp, id⟩
  | cons a rest ih =>
    obtain ⟨c1, h1, hc1, e1, e2, e3, e4, e5⟩ := eraseRegex_full E c a hc
    obtain ⟨c2, g1, hc2, g2, g3, g4, g5, g6, g7⟩ := ih c1 hc1
    refine ⟨c2, ?_, hc2, ?_, g3.trans e2, ?_, ?_, ?_, ?_⟩
    · simp only [purgeLoop, h1, Outcome.andThen, g1]
    · intro r
      rw [g2, e1, get_ptr_mapErase]
      simp only [List.mem_cons]
      by_cases h : r ∈ rest
      · simp [h]
      · by_cases h2 : r = a <;> simp [h, h2]
    · intro r
      rw [g4, e3, get_ptr_mapErase]
      simp only [List.mem_cons]
      by_cases h : r ∈ rest
      · simp [h]
      · by_cases h2 : r = a <;> simp [h, h2]
    · intro s r
      rw [g5, e4, mem_setErase]
      simp only [List.mem_cons]
      tauto
    · intro s r
      rw [g6, e5, mem_setErase]
      simp only [List.mem_cons]
      tauto
    · intro hn
      apply g7
      rw [e1]
      exact nodup_keys_mapErase _ _ hn

/-- Every call keeps the keys of `cacheRegexToMatch_` distinct. -/
theorem next_keys_nodup (E : Env R S) (c c1 : RegexMatchCache R S) (op : Op R S)
    (hc : Consistent E c) (hn : (mapKeys c.cacheRegexToMatch_).Nodup)
    (h : next? E c op = some c1) : (mapKeys c1.cacheRegexToMatch_).Nodup := by
  unfold next? at h
  cases op with
  | addRegex regex =>
    simp only [run] at h
    cases hreg : hasRegex c regex with
    | true =>
      have : addRegex E.epoch c regex = .returned c := by
        unfold addRegex
        have : mapContains c.cacheRegexToMatch_ regex = true := hreg
        simp [this]
      rw [this] at h
      simp only [Outcome.state?, Option.map_some', Option.some.injEq] at h
      exact h ▸ hn
    | false =>
      obtain ⟨c2, h2, hrtm, _⟩ := addRegex_spec E E.epoch c regex hc hreg
      rw [h2] at h
      simp only [Outcome.state?, Option.map_some', Option.some.injEq] at h
      subst h
      have := nodup_keys_try_emplace c.cacheRegexToMatch_ regex
        (⟨[], E.epoch⟩ : RegexEntry S) hn
      have hreg1 : mapContains c.cacheRegexToMatch_ regex = false := hreg
      simp only [try_emplace, hreg1, Bool.false_eq_true, ↓reduceIte] at this
      rw [hrtm]
      exact this
  | addString string =>
    simp only [run] at h
    cases hreg : mapContains c.cacheMatchToRegex_ string with
    | true =>
      have : addString c string = .returned c := by
        unfold addString
        simp [hreg]
      rw [this] at h
      simp only [Outcome.state?, Option.map_some', Option.some.injEq] at h
      exact h ▸ hn
    | false =>
      obtain ⟨c2, h2, hrtm, _⟩ := addString_spec E c string hc hreg
      rw [h2] at h
      simp only [Outcome.state?, Option.map_some', Option.some.injEq] at h
      subst h
      rw [hrtm]
      exact hn
  | eraseRegex regex =>
    obtain ⟨c2, h2, _, hrtm, _⟩ := eraseRegex_full E c regex hc
    simp only [run, h2, Outcome.state?, Option.map_some', Option.some.injEq] at h
    subst h
    rw [hrtm]
    exact nodup_keys_mapErase _ _ hn
  | eraseString string =>
    obtain ⟨c2, h2, _, _, hrtm, _⟩ := eraseString_spec E c string hc
    simp only [run, h2, Outcome.state?, Option.map_some', Option.some.injEq] at h
    subst h
    rw [hrtm]
    exact hn
  | prepareToFindMatches regex =>
    simp only [run] at h
    cases ho : prepareToFindMatches E c regex with
    | checkFailed => rw [ho] at h; simp [Outcome.state?] at h
    | badDeref => rw [ho] at h; simp [Outcome.state?] at h
    | threw st =>
      rw [ho] at h
      simp only [Outcome.state?, Option.map_some', Option.some.injEq] at h
      subst h
      obtain ⟨j1, _⟩ := prepare_threw E c st.1 regex st.2 hc ho
      rw [j1]
      simp [repair, mapKeys]
    | returned st =>
      rw [ho] at h
      simp only [Outcome.state?, Option.map_some', Option.some.injEq] at h
      subst h
      rw [prepare_keys E c st.1 regex st.2 ho]
      exact nodup_keys_try_emplace _ _ _ hn
  | findMatches regex now =>
    simp only [run] at h
    cases ho : findMatches E c regex now with
    | error e =>
      rw [ho] at h
      simp only [Outcome.state?, Option.map_some', Option.some.injEq] at h
      exact h ▸ hn
    | ok v =>
      rw [ho] at h
      simp only [Outcome.state?, Option.map_some', Option.some.injEq] at h
      subst h
      unfold findMatches findMatchesUnsafe at ho
      split at ho
      · cases ho
      · split at ho
        · cases ho
        · simp only [Except.ok.injEq] at ho
          rw [← ho]
          simp only [mapKeys_mapModify]
          exact hn
  | purge expiry =>
    obtain ⟨c2, h2, _, _, _, _, _, _, h8⟩ := purgeLoop_spec E
      (mapKeys (c.cacheRegexToMatch_.filter
        (fun p : R × RegexEntry S => decide (p.2.accessed_at ≤ expiry)))) c hc
    have h3 : purge c expiry = .returned c2 := h2
    simp only [run, h3, Outcome.state?, Option.map_some', Option.some.injEq] at h
    exact h ▸ h8 hn
  | repair =>
    simp only [run, Outcome.state?, Option.map_some', Option.some.injEq] at h
    subst h
    simp [repair, mapKeys]
  | clear =>
    simp only [run, Outcome.state?, Option.map_some', Option.some.injEq] at h
    subst h
    simp [clear, mapKeys]

/-- In every reachable state the keys of `cacheRegexToMatch_` are distinct. -/
theorem reachable_keys_nodup (E : Env R S) (c : RegexMatchCache R S) (h : Reachable E c) :
    (mapKeys c.cacheRegexToMatch_).Nodup := by
  induction h with
  | init => simp [RegexMatchCache.empty, mapKeys]
  | step op hr hn ih =>
    exact next_keys_nodup E _ _ op (reachable_consistent E _ hr) ih hn

/-- The regexes collected by `purge` are the registered ones whose timestamp is
at or before the expiry, when the keys are distinct. -/
theorem mem_purge_list (c : RegexMatchCache R S) (expiry : time_point) (r : R)
    (hn : (mapKeys c.cacheRegexToMatch_).Nodup) :
    r ∈ mapKeys (c.cacheRegexToMatch_.filter (fun p => decide (p.2.accessed_at ≤ expiry))) ↔
      ∃ t, accessedAt c r = some t ∧ t ≤ expiry := by
  unfold mapKeys accessedAt
  simp only [List.mem_map, List.mem_filter, decide_eq_true_eq, Option.map_eq_some']
  constructor
  · rintro ⟨⟨a, e⟩, ⟨hmem, hle⟩, rfl⟩
    exact ⟨e.accessed_at, ⟨e, get_ptr_eq_some_of_mem _ _ _ hn hmem, rfl⟩, hle⟩
  · rintro ⟨t, ⟨e, he, rfl⟩, hle⟩
    exact ⟨(r, e), ⟨mem_of_get_ptr_eq_some _ _ _ he, hle⟩, rfl⟩

end PurgeSpec

section Claims3

variable {R S : Type} [DecidableEq R] [DecidableEq S]

theorem get_ptr_ne_some_nil_of_nonempty {K V : Type} [DecidableEq K] [DecidableEq V] (m : List (K × List V))
    (h : ∀ k, mapContains m k = true → look m k ≠ []) (k : K) : get_ptr m k ≠ some [] := by
  intro h0
  exact h k ((mapContains_iff _ _).2 ⟨_, h0⟩) (look_of_get_ptr _ _ _ h0)

/-- C11: in a reachable state, `eraseRegex` of a registered pattern returns;
afterwards the pattern is no key of `cacheRegexToMatch_` or of
`stringQueueReverse_` and is in no regex set of `cacheMatchToRegex_` or of
`stringQueueForward_`, no queue entry is empty, the cached and queued pairs of
the other regexes, the known strings, and the registration and timestamp of
the other regexes are as before. `eraseString` of a known string does the same
on the other side, and keeps every registration and timestamp. -/
theorem erase_removes_all_references (E : Env R S) (c : RegexMatchCache R S) (p : R) (s : S)
    (hr : Reachable E c) :
    (hasRegex c p = true →
      ∃ c1, eraseRegex c p = .returned c1 ∧
        (hasRegex c1 p = false ∧ mapContains c1.stringQueueReverse_ p = false ∧
          ∀ s1, p ∉ regexesOf c1 s1 ∧ p ∉ pendingRegexesOf c1 s1) ∧
        ((∀ r, get_ptr c1.stringQueueReverse_ r ≠ some []) ∧
          (∀ s1, get_ptr c1.stringQueueForward_ s1 ≠ some [])) ∧
        (∀ r s1, r ≠ p →
          (s1 ∈ matchesOf c1 r ↔ s1 ∈ matchesOf c r) ∧
          (r ∈ regexesOf c1 s1 ↔ r ∈ regexesOf c s1) ∧
          (s1 ∈ pendingStringsOf c1 r ↔ s1 ∈ pendingStringsOf c r) ∧
          (r ∈ pendingRegexesOf c1 s1 ↔ r ∈ pendingRegexesOf c s1)) ∧
        (∀ s1, hasString c1 s1 = hasString c s1) ∧
        (∀ r, r ≠ p → hasRegex c1 r = hasRegex c r ∧ accessedAt c1 r = accessedAt c r)) ∧
    (hasString c s = true →
      ∃ c1, eraseString c s = .returned c1 ∧
        (hasString c1 s = false ∧ mapContains c1.cacheMatchToRegex_ s = false ∧
          mapContains c1.stringQueueForward_ s = false ∧
          ∀ r, s ∉ matchesOf c1 r ∧ s ∉ pendingStringsOf c1 r) ∧
        ((∀ r, get_ptr c1.stringQueueReverse_ r ≠ some []) ∧
          (∀ s1, get_ptr c1.stringQueueForward_ s1 ≠ some [])) ∧
        (∀ r s1, s1 ≠ s →
          (s1 ∈ matchesOf c1 r ↔ s1 ∈ matchesOf c r) ∧
          (r ∈ regexesOf c1 s1 ↔ r ∈ regexesOf c s1) ∧
          (s1 ∈ pendingStringsOf c1 r ↔ s1 ∈ pendingStringsOf c r) ∧
          (r ∈ pendingRegexesOf c1 s1 ↔ r ∈ pendingRegexesOf c s1)) ∧
        (∀ r, hasRegex c1 r = hasRegex c r ∧ accessedAt c1 r = accessedAt c r) ∧
        (∀ s1, s1 ≠ s → hasString c1 s1 = hasString c s1)) := by
  have hc := reachable_consistent E c hr
  refine ⟨?_, ?_⟩
  · intro hreg
    obtain ⟨c1, h1, hc1, hrtm, hmtr, hsqr, hx, hpf⟩ := eraseRegex_full E c p hc
    have hm := matchesOf_mapErase c c1 p hrtm
    have hpr : ∀ r, pendingStringsOf c1 r = if r = p then [] else pendingStringsOf c r := by
      intro r
      unfold pendingStringsOf
      rw [hsqr, look_mapErase]
    refine ⟨c1, h1, ⟨?_, ?_, ?_⟩, ⟨?_, ?_⟩, ?_, ?_, ?_⟩
    · unfold hasRegex
      rw [hrtm, mapContains_mapErase]
      simp
    · rw [hsqr, mapContains_mapErase]
      simp
    · intro s1
      rw [hx, hpf, mem_setErase, mem_setErase]
      simp
    · exact get_ptr_ne_some_nil_of_nonempty _ hc1.reverse_nonempty
    · exact get_ptr_ne_some_nil_of_nonempty _ hc1.forward_nonempty
    · intro r s1 hrp
      refine ⟨?_, ?_, ?_, ?_⟩
      · rw [hm]; simp [hrp]
      · rw [hx, mem_setErase]; simp [hrp]
      · rw [hpr]; simp [hrp]
      · rw [hpf, mem_setErase]; simp [hrp]
    · intro s1
      rw [hasString_iff E c1 hc1, hasString_iff E c hc]
      exact mapContains_of_mapKeys_eq _ _ hmtr s1
    · intro r hrp
      refine ⟨?_, ?_⟩
      · unfold hasRegex
        rw [hrtm, mapContains_mapErase]
        simp [hrp]
      · unfold accessedAt
        rw [hrtm, get_ptr_mapErase]
        simp [hrp]
  · intro hs
    obtain ⟨c1, h1, hmtr, hsqf, hrtm, hacc, hm, hpr, _, _⟩ := eraseString_spec E c s hc
    have hc1 : Consistent E c1 := eraseString_consistent E c c1 s hc (by rw [h1]; rfl)
    have hx : ∀ s1, regexesOf c1 s1 = if s1 = s then [] else regexesOf c s1 := by
      intro s1; unfold regexesOf; rw [hmtr, look_mapErase]
    have hpf : ∀ s1, pendingRegexesOf c1 s1 = if s1 = s then [] else pendingRegexesOf c s1 := by
      intro s1; unfold pendingRegexesOf; rw [hsqf, look_mapErase]
    have hk : mapContains c1.cacheMatchToRegex_ s = false := by
      rw [hmtr, mapContains_mapErase]; simp
    refine ⟨c1, h1, ⟨?_, hk, ?_, ?_⟩, ⟨?_, ?_⟩, ?_, ?_, ?_⟩
    · rw [hasString_iff E c1 hc1]
      exact hk
    · rw [hsqf, mapContains_mapErase]
      simp
    · intro r
      rw [hm, hpr, mem_setErase, mem_setErase]
      simp
    · exact get_ptr_ne_some_nil_of_nonempty _ hc1.reverse_nonempty
    · exact get_ptr_ne_some_nil_of_nonempty _ hc1.forward_nonempty
    · intro r s1 hss
      refine ⟨?_, ?_, ?_, ?_⟩
      · rw [hm, mem_setErase]; simp [hss]
      · rw [hx]; simp [hss]
      · rw [hpr, mem_setErase]; simp [hss]
      · rw [hpf]; simp [hss]
    · intro r
      exact ⟨mapContains_of_mapKeys_eq _ _ hrtm r, hacc r⟩
    · intro s1 hss
      rw [hasString_iff E c1 hc1, hasString_iff E c hc, hmtr, mapContains_mapErase]
      simp [hss]

/-- C12: in a reachable state, `purge` returns; afterwards a regex is
registered exactly when it was registered with a timestamp strictly greater
than the expiry, the known strings are as before, and each remaining regex has
its match set, its pending-strings set, its readiness and its timestamp as
before. -/
theorem purge_removes_expired (E : Env R S) (c : RegexMatchCache R S) (expiry : time_point)
    (hr : Reachable E c) :
    ∃ c1, purge c expiry = .returned c1 ∧
      (∀ r, hasRegex c1 r = true ↔
        hasRegex c r = true ∧ ∃ t, accessedAt c r = some t ∧ expiry < t) ∧
      (∀ s, hasString c1 s = hasString c s) ∧
      (∀ r, hasRegex c1 r = true →
        matchesOf c1 r = matchesOf c r ∧ pendingStringsOf c1 r = pendingStringsOf c r ∧
        isReadyToFindMatches c1 r = isReadyToFindMatches c r ∧
        accessedAt c1 r = accessedAt c r) := by
  have hc := reachable_consistent E c hr
  have hn := reachable_keys_nodup E c hr
  obtain ⟨c1, h1, hc1, hrtm, hmtr, hsqr, _, _, _⟩ := purgeLoop_spec E
    (mapKeys (c.cacheRegexToMatch_.filter
      (fun p : R × RegexEntry S => decide (p.2.accessed_at ≤ expiry)))) c hc
  have hmem := mem_purge_list c expiry
  have hsurv : ∀ r, hasRegex c1 r = true →
      get_ptr c1.cacheRegexToMatch_ r = get_ptr c.cacheRegexToMatch_ r ∧
      get_ptr c1.stringQueueReverse_ r = get_ptr c.stringQueueReverse_ r := by
    intro r hreg
    have h2 := hrtm r
    have h3 := hsqr r
    by_cases hin : r ∈ mapKeys (c.cacheRegexToMatch_.filter
        (fun p : R × RegexEntry S => decide (p.2.accessed_at ≤ expiry)))
    · rw [if_pos hin] at h2
      have := (mapContains_false_iff _ _).2 h2
      unfold hasRegex at hreg
      rw [this] at hreg
      exact absurd hreg (by simp)
    · rw [if_neg hin] at h2 h3
      exact ⟨h2, h3⟩
  refine ⟨c1, h1, ?_, ?_, ?_⟩
  · intro r
    unfold hasRegex mapContains
    rw [hrtm r]
    by_cases hin : r ∈ mapKeys (c.cacheRegexToMatch_.filter
        (fun p : R × RegexEntry S => decide (p.2.accessed_at ≤ expiry)))
    · rw [if_pos hin]
      obtain ⟨t, ht, hle⟩ := (hmem r hn).1 hin
      simp only [Option.isSome_none, Bool.false_eq_true, false_iff, not_and, not_exists]
      intro _ t1 ht1
      rw [ht] at ht1
      simp only [Option.some.injEq] at ht1
      subst ht1
      exact not_lt.2 hle
    · rw [if_neg hin]
      constructor
      · intro h
        refine ⟨h, ?_⟩
        obtain ⟨e, he⟩ := Option.isSome_iff_exists.1 h
        refine ⟨e.accessed_at, by unfold accessedAt; rw [he]; rfl, ?_⟩
        by_contra hlt
        exact hin ((hmem r hn).2 ⟨e.accessed_at, by unfold accessedAt; rw [he]; rfl,
          not_lt.1 hlt⟩)
      · exact fun h => h.1
  · intro s
    rw [hasString_iff E c1 hc1, hasString_iff E c hc]
    exact mapContains_of_mapKeys_eq _ _ hmtr s
  · intro r hreg
    obtain ⟨g1, g2⟩ := hsurv r hreg
    refine ⟨?_, ?_, ?_, ?_⟩
    · unfold matchesOf; rw [g1]
    · unfold pendingStringsOf look; rw [g2]
    · unfold isReadyToFindMatches mapContains; rw [g1, g2]
    · unfold accessedAt; rw [g1]

/-- C13: in a reachable state, when `prepareToFindMatches` leaves with the
error of the engine, the cache is `repair` of the cache before the call: no
regex is registered, both queues are empty, the known strings are as before,
each with an empty regex set, and the invariants hold. The call does leave
with the error when the pattern is not ready, has a string to be evaluated on
and does not compile. -/
theorem prepare_error_repairs (E : Env R S) (c : RegexMatchCache R S) (p : R)
    (hr : Reachable E c) :
    (∀ c1 evals, prepareToFindMatches E c p = .threw (c1, evals) →
      c1 = repair c ∧ c1.cacheRegexToMatch_ = [] ∧ c1.stringQueueForward_ = [] ∧
      c1.stringQueueReverse_ = [] ∧
      (∀ r, hasRegex c1 r = false) ∧
      (∀ s, hasString c1 s = hasString c s) ∧
      (∀ s, regexesOf c1 s = []) ∧
      Consistent E c1 ∧
      (E.compile p = false ∨ ∃ s, s ∈ prepareTargets c p ∧ E.eval p s = none)) ∧
    (isReadyToFindMatches c p = false → prepareTargets c p ≠ [] → E.compile p = false →
      prepareToFindMatches E c p = .threw (repair c, [])) := by
  have hc := reachable_consistent E c hr
  refine ⟨?_, ?_⟩
  · intro c1 evals h
    obtain ⟨j1, _, _, j4⟩ := prepare_threw E c c1 p evals hc h
    subst j1
    have hcr := repair_consistent E c
    refine ⟨rfl, rfl, rfl, rfl, ?_, ?_, ?_, hcr, ?_⟩
    · intro r
      simp [hasRegex, repair, mapContains]
    · intro s
      rw [hasString_iff E _ hcr, hasString_iff E c hc]
      apply mapContains_of_mapKeys_eq
      simp [repair, mapKeys, Function.comp_def]
    · intro s
      simp [regexesOf, repair, look_map_nil]
    · rcases j4 with ⟨h1, _⟩ | ⟨_, s, hs, h2⟩
      · exact Or.inl h1
      · exact Or.inr ⟨s, hs, h2⟩
  · intro hnr hne hcomp
    cases ho : prepareToFindMatches E c p with
    | returned st =>
      obtain ⟨c1, evals⟩ := st
      obtain ⟨_, _, j3, _⟩ := prepare_returned E c c1 p evals hc ho
      rw [j3 hne] at hcomp
      exact absurd hcomp (by simp)
    | threw st =>
      obtain ⟨c1, evals⟩ := st
      obtain ⟨j1, _, _, j4⟩ := prepare_threw E c c1 p evals hc ho
      rcases j4 with ⟨_, h2⟩ | ⟨h1, _⟩
      · rw [j1, h2]
      · rw [hcomp] at h1
        exact absurd h1 (by simp)
    | checkFailed =>
      have := (prepare_checkFailed_iff E c p hc).1.1 ho
      rw [hnr] at this
      exact absurd this (by simp)
    | badDeref =>
      exact absurd ho (prepare_checkFailed_iff E c p hc).2

/-- C14: for every cache, after `repair` the map `cacheRegexToMatch_` and both
queues are empty, the keys of `cacheMatchToRegex_` are as before, so that
`hasString` holds exactly of them, and the regex set of every string is empty.
`hasString` then agrees with `hasString` before the call whenever every key of
the forward queue was a key of `cacheMatchToRegex_`. -/
theorem repair_keeps_strings_only (c : RegexMatchCache R S) :
    (repair c).cacheRegexToMatch_ = [] ∧ (∀ r, hasRegex (repair c) r = false) ∧
    (repair c).stringQueueForward_ = [] ∧ (repair c).stringQueueReverse_ = [] ∧
    mapKeys (repair c).cacheMatchToRegex_ = mapKeys c.cacheMatchToRegex_ ∧
    (∀ s, hasString (repair c) s = mapContains c.cacheMatchToRegex_ s) ∧
    (∀ s, regexesOf (repair c) s = []) ∧
    ((∀ s, mapContains c.stringQueueForward_ s = true →
        mapContains c.cacheMatchToRegex_ s = true) →
      ∀ s, hasString (repair c) s = hasString c s) := by
  have hk : mapKeys (repair c).cacheMatchToRegex_ = mapKeys c.cacheMatchToRegex_ := by
    simp [repair, mapKeys, Function.comp_def]
  have hs : ∀ s, hasString (repair c) s = mapContains c.cacheMatchToRegex_ s := by
    intro s
    unfold hasString
    rw [mapContains_of_mapKeys_eq _ _ hk s]
    simp [repair, mapContains]
  refine ⟨rfl, ?_, rfl, rfl, hk, hs, ?_, ?_⟩
  · intro r
    simp [hasRegex, repair, mapContains]
  · intro s
    simp [regexesOf, repair, look_map_nil]
  · intro hsub s
    rw [hs]
    unfold hasString
    cases h1 : mapContains c.cacheMatchToRegex_ s with
    | true => simp
    | false =>
      cases h2 : mapContains c.stringQueueForward_ s with
      | false => simp
      | true => rw [hsub s h2] at h1; exact absurd h1 (by simp)

end Claims3

section Claims4

variable {R S : Type} [DecidableEq R] [DecidableEq S]

/-- C15: in a debug build, for every cache and every pattern that is not
ready, `findMatches` and `findMatchesUnsafe` throw `logic_error` instead of
returning a match set, and the cache after the call is the cache before it. -/
theorem findMatches_not_ready_throws (E : Env R S) (c : RegexMatchCache R S) (p : R)
    (now : time_point) (hd : E.kIsDebug = true) (hnr : isReadyToFindMatches c p = false) :
    findMatches E c p now = .error .logic_error ∧
    findMatchesUnsafe E c p now = .error .logic_error ∧
    run E c (.findMatches p now) = .threw (c, []) ∧
    next? E c (.findMatches p now) = some c := by
  have h1 : findMatchesUnsafe E c p now = .error .logic_error := by
    unfold findMatchesUnsafe
    simp [hd, hnr]
  have h2 : findMatches E c p now = .error .logic_error := h1
  refine ⟨h2, h1, ?_, ?_⟩
  · simp only [run, h2]
  · simp only [next?, run, h2, Outcome.state?, Option.map_some']

/-- C16, as amended: for every cache and every pattern that is not registered,
`findMatches` returns no result: it throws `logic_error` in a debug build and
`out_of_range` otherwise, and the cache after the call is the cache before
it. -/
theorem findMatches_unregistered_throws (E : Env R S) (c : RegexMatchCache R S) (p : R)
    (now : time_point) (hreg : hasRegex c p = false) :
    findMatches E c p now = .error (if E.kIsDebug then .logic_error else .out_of_range) ∧
    next? E c (.findMatches p now) = some c := by
  have hreg1 : mapContains c.cacheRegexToMatch_ p = false := hreg
  have h1 : findMatches E c p now =
      .error (if E.kIsDebug then .logic_error else .out_of_range) := by
    unfold findMatches findMatchesUnsafe isReadyToFindMatches
    cases hd : E.kIsDebug with
    | true => simp [hreg1]
    | false => simp [(mapContains_false_iff _ _).1 hreg1]
  refine ⟨h1, ?_⟩
  simp only [next?, run, h1, Outcome.state?, Option.map_some']

theorem findMatches_accessedAt_mono (E : Env R S) (c c1 : RegexMatchCache R S) (q r : R)
    (now t : time_point) (l : List S) (h : findMatches E c q now = .ok (l, c1))
    (ht : accessedAt c r = some t) : ∃ t1, accessedAt c1 r = some t1 ∧ t ≤ t1 := by
  unfold findMatches findMatchesUnsafe at h
  split at h
  · cases h
  · split at h
    · cases h
    · rename_i e he
      simp only [Except.ok.injEq, Prod.mk.injEq] at h
      obtain ⟨_, rfl⟩ := h
      unfold accessedAt at ht ⊢
      simp only [get_ptr_mapModify]
      by_cases hr : r = q
      · subst hr
        rw [he] at ht ⊢
        simp only [Option.map_some', Option.some.injEq] at ht ⊢
        exact ⟨_, rfl, ht ▸ le_max_right _ _⟩
      · simp only [hr, ↓reduceIte]
        exact ⟨t, ht, le_refl t⟩

theorem findMatchesSeq_accessedAt_mono (E : Env R S) (calls : List (R × time_point))
    (c : RegexMatchCache R S) (r : R) (t : time_point) (ht : accessedAt c r = some t) :
    ∃ t1, accessedAt (findMatchesSeq E c calls) r = some t1 ∧ t ≤ t1 := by
  induction calls generalizing c t with
  | nil => exact ⟨t, ht, le_refl t⟩
  | cons a rest ih =>
    obtain ⟨q, now⟩ := a
    unfold findMatchesSeq
    cases ho : findMatches E c q now with
    | error e => exact ih c t ht
    | ok v =>
      obtain ⟨l, c1⟩ := v
      obtain ⟨t1, h1, hle⟩ := findMatches_accessedAt_mono E c c1 q r now t l ho ht
      obtain ⟨t2, h2, hle2⟩ := ih c1 t1 h1
      exact ⟨t2, h2, le_trans hle hle2⟩

theorem findMatches_of_ready (E : Env R S) (c : RegexMatchCache R S) (p : R)
    (now : time_point) (hready : isReadyToFindMatches c p = true) :
    findMatches E c p now = .ok (matchesOf c p,
      { c with
        cacheRegexToMatch_ :=
          mapModify c.cacheRegexToMatch_ p
            (fun e => { e with accessed_at := max now e.accessed_at }) }) := by
  have hreg : mapContains c.cacheRegexToMatch_ p = true := by
    unfold isReadyToFindMatches at hready
    simp only [Bool.and_eq_true] at hready
    exact hready.1
  obtain ⟨e, he⟩ := (mapContains_iff _ _).1 hreg
  unfold findMatches findMatchesUnsafe
  simp only [hready, Bool.not_true, Bool.and_false, Bool.false_eq_true, ↓reduceIte, he,
    matchesOf]

/-- C17: for a ready pattern, `findMatches` returns the match set of the
pattern and a cache in which the timestamp of the pattern is the maximum of
`now` and its former timestamp; the other three maps, the keys and the match
sets of `cacheRegexToMatch_` and the entries of the other regexes are as
before. Over any sequence of `findMatches` calls from any cache, the timestamp
of a registered regex does not decrease. -/
theorem findMatches_ready_spec (E : Env R S) (c : RegexMatchCache R S) (p : R)
    (now : time_point) (hready : isReadyToFindMatches c p = true) :
    (∃ c1 t, findMatches E c p now = .ok (matchesOf c p, c1) ∧
      accessedAt c p = some t ∧ accessedAt c1 p = some (max now t) ∧
      c1.cacheMatchToRegex_ = c.cacheMatchToRegex_ ∧
      c1.stringQueueForward_ = c.stringQueueForward_ ∧
      c1.stringQueueReverse_ = c.stringQueueReverse_ ∧
      mapKeys c1.cacheRegexToMatch_ = mapKeys c.cacheRegexToMatch_ ∧
      (∀ r, matchesOf c1 r = matchesOf c r) ∧
      (∀ r, r ≠ p → get_ptr c1.cacheRegexToMatch_ r = get_ptr c.cacheRegexToMatch_ r) ∧
      (∀ r, r ≠ p → accessedAt c1 r = accessedAt c r)) ∧
    (∀ (c0 : RegexMatchCache R S) (calls : List (R × time_point)) (r : R) (t : time_point),
      accessedAt c0 r = some t →
      ∃ t1, accessedAt (findMatchesSeq E c0 calls) r = some t1 ∧ t ≤ t1) := by
  refine ⟨?_, fun c0 calls r t ht => findMatchesSeq_accessedAt_mono E calls c0 r t ht⟩
  have hreg : mapContains c.cacheRegexToMatch_ p = true := by
    unfold isReadyToFindMatches at hready
    simp only [Bool.and_eq_true] at hready
    exact hready.1
  obtain ⟨e, he⟩ := (mapContains_iff _ _).1 hreg
  refine ⟨{ c with
      cacheRegexToMatch_ :=
        mapModify c.cacheRegexToMatch_ p
          (fun e => { e with accessed_at := max now e.accessed_at }) },
    e.accessed_at, ?_, ?_, ?_, rfl, rfl, rfl, ?_, ?_, ?_, ?_⟩
  · exact findMatches_of_ready E c p now hready
  · unfold accessedAt; rw [he]; rfl
  · unfold accessedAt
    simp only [get_ptr_mapModify, ↓reduceIte, he, Option.map_some']
  · simp only [mapKeys_mapModify]
  · intro r
    unfold matchesOf
    simp only [get_ptr_mapModify]
    by_cases hr : r = p
    · subst hr
      simp [he]
    · simp [hr]
  · intro r hr
    simp only [get_ptr_mapModify, hr, ↓reduceIte]
  · intro r hr
    unfold accessedAt
    simp only [get_ptr_mapModify, hr, ↓reduceIte]

theorem findMatchesUncachedLoop_spec (E : Env R S) (regex : R) (ks acc : List S)
    (hev : ∀ s ∈ ks, (E.eval regex s).isSome = true) :
    ∃ result, findMatchesUncachedLoop E regex ks acc = .ok result ∧
      ∀ s, s ∈ result ↔ s ∈ acc ∨ (s ∈ ks ∧ E.eval regex s = some true) := by
  induction ks generalizing acc with
  | nil => exact ⟨acc, rfl, by simp⟩
  | cons k rest ih =>
    have hk := hev k (List.mem_cons_self _ _)
    have hrest : ∀ s ∈ rest, (E.eval regex s).isSome = true :=
      fun s hs => hev s (List.mem_cons_of_mem _ hs)
    unfold findMatchesUncachedLoop
    cases hek : E.eval regex k with
    | none => rw [hek] at hk; simp at hk
    | some b =>
      cases b with
      | true =>
        obtain ⟨result, h1, h2⟩ := ih (acc ++ [k]) hrest
        refine ⟨result, h1, ?_⟩
        intro s
        rw [h2]
        simp only [List.mem_append, List.mem_singleton, List.mem_cons, List.not_mem_nil,
          or_false]
        constructor
        · rintro ((h | h) | ⟨h3, h4⟩)
          · exact Or.inl h
          · exact Or.inr ⟨Or.inl h, by rw [h, hek]⟩
          · exact Or.inr ⟨Or.inr h3, h4⟩
        · rintro (h | ⟨h3 | h3, h4⟩)
          · exact Or.inl (Or.inl h)
          · exact Or.inl (Or.inr h3)
          · exact Or.inr ⟨h3, h4⟩
      | false =>
        obtain ⟨result, h1, h2⟩ := ih acc hrest
        refine ⟨result, h1, ?_⟩
        intro s
        rw [h2]
        simp only [List.mem_cons]
        constructor
        · rintro (h | ⟨h3, h4⟩)
          · exact Or.inl h
          · exact Or.inr ⟨Or.inr h3, h4⟩
        · rintro (h | ⟨h3 | h3, h4⟩)
          · exact Or.inl h
          · rw [h3, hek] at h4
            simp at h4
          · exact Or.inr ⟨h3, h4⟩

/-- C18, as amended: for every cache and every pattern that the engine
compiles and evaluates without error on every known string,
`findMatchesUncached` returns exactly the known strings the matcher says the
pattern matches, whatever the registration and the queues; it takes the cache
and returns only the result. In a reachable state where a compilable pattern is
ready, `findMatchesUncached` and `findMatches` both return, with the same
strings. -/
theorem findMatchesUncached_spec (E : Env R S) (c : RegexMatchCache R S) (p : R)
    (hcomp : E.compile p = true) :
    ((∀ s, s ∈ getStringList c → (E.eval p s).isSome = true) →
      ∃ result, findMatchesUncached E c p = .ok result ∧
        ∀ s, s ∈ result ↔ s ∈ getStringList c ∧ E.says p s = true) ∧
    (Reachable E c → isReadyToFindMatches c p = true →
      ∀ now, ∃ result cached c1, findMatchesUncached E c p = .ok result ∧
        findMatches E c p now = .ok (cached, c1) ∧
        (∀ s, s ∈ result ↔ s ∈ cached) ∧
        (∀ s, s ∈ result ↔ hasString c s = true ∧ E.says p s = true)) := by
  have partA : (∀ s, s ∈ getStringList c → (E.eval p s).isSome = true) →
      ∃ result, findMatchesUncached E c p = .ok result ∧
        ∀ s, s ∈ result ↔ s ∈ getStringList c ∧ E.says p s = true := by
    intro hev
    obtain ⟨result, h1, h2⟩ := findMatchesUncachedLoop_spec E p (mapKeys c.cacheMatchToRegex_) []
      hev
    refine ⟨result, ?_, ?_⟩
    · unfold findMatchesUncached
      simp only [hcomp, Bool.not_true, Bool.false_eq_true, ↓reduceIte]
      exact h1
    · intro s
      rw [h2]
      unfold getStringList Env.says
      simp [hcomp]
  refine ⟨partA, ?_⟩
  intro hr hready now
  have hc := reachable_consistent E c hr
  have hreg : mapContains c.cacheRegexToMatch_ p = true := by
    unfold isReadyToFindMatches at hready
    simp only [Bool.and_eq_true] at hready
    exact hready.1
  have hnq : mapContains c.stringQueueReverse_ p = false := by
    unfold isReadyToFindMatches at hready
    simp only [Bool.and_eq_true, Bool.not_eq_true'] at hready
    exact hready.2
  have hnp : ∀ s, s ∉ pendingStringsOf c p := by
    intro s hs
    have := mapContains_of_mem_look _ _ _ hs
    rw [hnq] at this
    exact absurd this (by simp)
  have hacc : ∀ s, s ∈ getStringList c →
      E.eval p s = some (decide (s ∈ matchesOf c p)) := by
    intro s hs
    have hs1 : mapContains c.cacheMatchToRegex_ s = true :=
      (mapContains_iff_mem_keys _ _).2 hs
    exact (hc.accurate p s hreg hs1 (hnp s)).2
  obtain ⟨result, h1, h2⟩ := partA (fun s hs => by rw [hacc s hs]; rfl)
  have h3 := findMatches_of_ready E c p now hready
  have hres : ∀ s, s ∈ result ↔ s ∈ matchesOf c p := by
    intro s
    rw [h2]
    constructor
    · rintro ⟨hs, hsay⟩
      unfold Env.says at hsay
      rw [hacc s hs, hcomp] at hsay
      simpa using hsay
    · intro hm
      have hs1 : mapContains c.cacheMatchToRegex_ s = true := by
        rw [hc.cache_bidi] at hm
        exact mapContains_of_mem_look _ _ _ hm
      have hs : s ∈ getStringList c := (mapContains_iff_mem_keys _ _).1 hs1
      refine ⟨hs, ?_⟩
      unfold Env.says
      rw [hacc s hs, hcomp]
      simp [hm]
  refine ⟨result, matchesOf c p, _, h1, h3, hres, ?_⟩
  intro s
  rw [h2, hasString_iff E c hc]
  unfold getStringList
  rw [← mapContains_iff_mem_keys]

/-- C19: in a reachable state, `addRegex` of a registered pattern and
`addString` of a known string return the cache as it is; `addRegex` always
returns, and a second `addRegex` of the same pattern returns the cache the
first one left; `eraseRegex` of an unregistered pattern and `eraseString` of an
unknown string return the cache as it is. -/
theorem redundant_calls_are_noops (E : Env R S) (c : RegexMatchCache R S) (p : R) (s : S)
    (hr : Reachable E c) :
    (hasRegex c p = true → addRegex E.epoch c p = .returned c) ∧
    (hasString c s = true → addString c s = .returned c) ∧
    (∃ c1, addRegex E.epoch c p = .returned c1 ∧ addRegex E.epoch c1 p = .returned c1) ∧
    (hasRegex c p = false → eraseRegex c p = .returned c) ∧
    (hasString c s = false → eraseString c s = .returned c) := by
  have hc := reachable_consistent E c hr
  have hadd : ∀ c0 : RegexMatchCache R S, hasRegex c0 p = true →
      addRegex E.epoch c0 p = .returned c0 := by
    intro c0 h
    have h1 : mapContains c0.cacheRegexToMatch_ p = true := h
    unfold addRegex
    simp [h1]
  refine ⟨hadd c, ?_, ?_, ?_, ?_⟩
  · intro h
    rw [hasString_iff E c hc] at h
    unfold addString
    simp [h]
  · cases hreg : hasRegex c p with
    | true => exact ⟨c, hadd c hreg, hadd c hreg⟩
    | false =>
      obtain ⟨c1, h1, hrtm, _⟩ := addRegex_spec E E.epoch c p hc hreg
      refine ⟨c1, h1, hadd c1 ?_⟩
      unfold hasRegex
      rw [hrtm, mapContains_append_new]
      simp
  · intro h
    have h1 : mapContains c.cacheRegexToMatch_ p = false := h
    unfold eraseRegex
    rw [(mapContains_false_iff _ _).1 h1]
  · intro h
    unfold hasString at h
    simp only [Bool.or_eq_false_iff] at h
    unfold eraseString eraseStringPending
    rw [(mapContains_false_iff _ _).1 h.2]
    simp only [Outcome.andThen]
    unfold eraseStringCached
    rw [(mapContains_false_iff _ _).1 h.1]
    rfl

end Claims4

/-- C20: the scenario, for any engine that compiles `"ca.*"`, matches it
against `"cat"`, `"car"` and `"can"` and not against `"dog"`. The three
`addString` and the `addRegex` leave `"ca.*"` queued on the three strings and
not ready; `prepareToFindMatches` makes it ready and `findMatches` returns
`"cat"` and `"car"`; `addString` of `"can"` leaves that one pair queued; the
second `prepareToFindMatches` evaluates `"can"` only and `findMatches` returns
`"cat"`, `"car"` and `"can"`; `purge` at or after the last access erases the
regex and keeps the four strings; `findMatches` then throws. -/
theorem scenario_cat_car_dog_can (E : Env String String) (now1 now2 now3 t : time_point)
    (hcomp : E.compile "ca.*" = true)
    (hcat : E.eval "ca.*" "cat" = some true) (hcar : E.eval "ca.*" "car" = some true)
    (hcan : E.eval "ca.*" "can" = some true) (hdog : E.eval "ca.*" "dog" = some false)
    (ht : max now2 (max now1 E.epoch) ≤ t) :
    (addString (RegexMatchCache.empty : RegexMatchCache String String) "cat" =
        .returned ⟨[], [("cat", [])], [], []⟩ ∧
      addString (⟨[], [("cat", [])], [], []⟩ : RegexMatchCache String String) "car" =
        .returned ⟨[], [("cat", []), ("car", [])], [], []⟩ ∧
      addString (⟨[], [("cat", []), ("car", [])], [], []⟩ : RegexMatchCache String String)
        "dog" = .returned demoStrings ∧
      addRegex E.epoch demoStrings "ca.*" = .returned (scenarioQueued E.epoch)) ∧
    (pendingStringsOf (scenarioQueued E.epoch) "ca.*" = ["cat", "car", "dog"] ∧
      (scenarioQueued E.epoch).stringQueueForward_ =
        [("cat", ["ca.*"]), ("car", ["ca.*"]), ("dog", ["ca.*"])] ∧
      isReadyToFindMatches (scenarioQueued E.epoch) "ca.*" = false) ∧
    (prepareToFindMatches E (scenarioQueued E.epoch) "ca.*" =
        .returned (scenarioReady E.epoch, ["cat", "car", "dog"]) ∧
      isReadyToFindMatches (scenarioReady E.epoch) "ca.*" = true ∧
      findMatches E (scenarioReady E.epoch) "ca.*" now1 =
        .ok (["cat", "car"], scenarioReady (max now1 E.epoch))) ∧
    (addString (scenarioReady (max now1 E.epoch)) "can" =
        .returned (scenarioGrown (max now1 E.epoch)) ∧
      (scenarioGrown (max now1 E.epoch)).stringQueueForward_ = [("can", ["ca.*"])] ∧
      (scenarioGrown (max now1 E.epoch)).stringQueueReverse_ = [("ca.*", ["can"])]) ∧
    (prepareToFindMatches E (scenarioGrown (max now1 E.epoch)) "ca.*" =
        .returned (scenarioFull (max now1 E.epoch), ["can"]) ∧
      isReadyToFindMatches (scenarioFull (max now1 E.epoch)) "ca.*" = true ∧
      findMatches E (scenarioFull (max now1 E.epoch)) "ca.*" now2 =
        .ok (["cat", "car", "can"], scenarioFull (max now2 (max now1 E.epoch))) ∧
      "dog" ∉ ["cat", "car", "can"]) ∧
    (accessedAt (scenarioFull (max now2 (max now1 E.epoch))) "ca.*" =
        some (max now2 (max now1 E.epoch)) ∧
      purge (scenarioFull (max now2 (max now1 E.epoch))) t = .returned scenarioPurged ∧
      hasRegex scenarioPurged "ca.*" = false ∧
      hasString scenarioPurged "cat" = true ∧ hasString scenarioPurged "car" = true ∧
      hasString scenarioPurged "dog" = true ∧ hasString scenarioPurged "can" = true) ∧
    (isReadyToFindMatches scenarioPurged "ca.*" = false ∧
      findMatches E scenarioPurged "ca.*" now3 =
        .error (if E.kIsDebug then .logic_error else .out_of_range)) := by
  refine ⟨⟨by decide, by decide, by decide, rfl⟩, ⟨rfl, rfl, rfl⟩, ⟨?_, rfl, ?_⟩,
    ⟨rfl, rfl, rfl⟩, ⟨?_, rfl, ?_, by decide⟩,
    ⟨rfl, ?_, by decide, by decide, by decide, by decide, by decide⟩, ⟨by decide, ?_⟩⟩
  · simp [prepareToFindMatches, scenarioQueued, scenarioReady, try_emplace, mapContains,
      get_ptr, guardedEvals, mapErase, prepareOld, hcomp, hcat, hcar, hdog, confirm, mapModify,
      setErase, setInsert]
  · simp [findMatches, findMatchesUnsafe, isReadyToFindMatches, scenarioReady, mapContains,
      get_ptr, mapModify]
  · simp [prepareToFindMatches, scenarioGrown, scenarioFull, try_emplace, mapContains,
      get_ptr, guardedEvals, mapErase, prepareOld, hcomp, hcan, confirm, mapModify,
      setErase, setInsert]
  · simp [findMatches, findMatchesUnsafe, isReadyToFindMatches, scenarioFull, mapContains,
      get_ptr, mapModify]
  · simp [purge, scenarioFull, scenarioPurged, ht, mapKeys, purgeLoop, eraseRegex, get_ptr,
      eraseRegexMatches, Outcome.andThen, eraseRegexPending, guarded, mapModify, setErase,
      mapErase]
  · cases hd : E.kIsDebug <;>
      simp [findMatches, findMatchesUnsafe, isReadyToFindMatches, scenarioPurged, mapContains,
        get_ptr, hd]

/-- Witness of C20 with the demo engine. -/
theorem scenario_cat_car_dog_can_witness :
    prepareToFindMatches demoEnv (scenarioGrown (max 1 demoEnv.epoch)) "ca.*" =
        .returned (scenarioFull (max 1 demoEnv.epoch), ["can"]) ∧
    purge (scenarioFull (max 2 (max 1 demoEnv.epoch))) 2 = .returned scenarioPurged ∧
    findMatches demoEnv scenarioPurged "ca.*" 3 =
      .error (if demoEnv.kIsDebug then .logic_error else .out_of_range) :=
  have h := scenario_cat_car_dog_can demoEnv 1 2 3 2 (by decide) (by decide) (by decide)
    (by decide) (by decide) (by decide)
  ⟨h.2.2.2.2.1.1, h.2.2.2.2.2.1.2.1, h.2.2.2.2.2.2.2⟩

/-- Witness of C11 on the prepared cache: `eraseRegex` of `"ca.*"`. -/
theorem erase_removes_all_references_witness :
    Reachable demoEnv demoReady ∧ hasRegex demoReady "ca.*" = true ∧
    ∃ c1, eraseRegex demoReady "ca.*" = .returned c1 ∧
      (hasRegex c1 "ca.*" = false ∧ mapContains c1.stringQueueReverse_ "ca.*" = false ∧
        ∀ s1, "ca.*" ∉ regexesOf c1 s1 ∧ "ca.*" ∉ pendingRegexesOf c1 s1) :=
  ⟨demoReady_reachable, by decide,
    ((erase_removes_all_references demoEnv demoReady "ca.*" "cat" demoReady_reachable).1
      (by decide)).imp (fun _ h => ⟨h.1, h.2.1⟩)⟩

/-- Witness of C12 on the prepared cache: `purge` at the timestamp of
`"ca.*"`. -/
theorem purge_removes_expired_witness :
    Reachable demoEnv demoReady ∧
    ∃ c1, purge demoReady 0 = .returned c1 ∧
      (∀ r, hasRegex c1 r = true ↔
        hasRegex demoReady r = true ∧ ∃ t, accessedAt demoReady r = some t ∧ 0 < t) ∧
      (∀ s, hasString c1 s = hasString demoReady s) :=
  ⟨demoReady_reachable,
    (purge_removes_expired demoEnv demoReady 0 demoReady_reachable).imp
      (fun _ h => ⟨h.1, h.2.1, h.2.2.1⟩)⟩

/-- Witness of C13: `prepareToFindMatches` of `"("`, which does not compile,
queued on `"cat"`. -/
theorem prepare_error_repairs_witness :
    Reachable demoEnv demoBroken ∧ isReadyToFindMatches demoBroken "(" = false ∧
    prepareTargets demoBroken "(" ≠ [] ∧ demoEnv.compile "(" = false ∧
    prepareToFindMatches demoEnv demoBroken "(" = .threw (repair demoBroken, []) :=
  ⟨demoBroken_reachable, by decide, by decide, by decide,
    (prepare_error_repairs demoEnv demoBroken "(" demoBroken_reachable).2
      (by decide) (by decide) (by decide)⟩

/-- Witness of C14 on the cache with `"("` queued. -/
theorem repair_keeps_strings_only_witness :
    mapKeys (repair demoBroken).cacheMatchToRegex_ = mapKeys demoBroken.cacheMatchToRegex_ ∧
    ∀ s, hasString (repair demoBroken) s = hasString demoBroken s :=
  ⟨(repair_keeps_strings_only demoBroken).2.2.2.2.1,
    (repair_keeps_strings_only demoBroken).2.2.2.2.2.2.2
      (reachable_consistent demoEnv demoBroken demoBroken_reachable).queue_string⟩

/-- Witness of C15 on the cache with `"ca.*"` queued. -/
theorem findMatches_not_ready_throws_witness :
    demoEnv.kIsDebug = true ∧ isReadyToFindMatches demoQueued "ca.*" = false ∧
    (findMatches demoEnv demoQueued "ca.*" 7 = .error .logic_error ∧
      findMatchesUnsafe demoEnv demoQueued "ca.*" 7 = .error .logic_error ∧
      run demoEnv demoQueued (.findMatches "ca.*" 7) = .threw (demoQueued, []) ∧
      next? demoEnv demoQueued (.findMatches "ca.*" 7) = some demoQueued) :=
  ⟨by decide, by decide,
    findMatches_not_ready_throws demoEnv demoQueued "ca.*" 7 (by decide) (by decide)⟩

/-- C16 fails as stated: on the empty cache `findMatches` of the unregistered
`"ca.*"` throws `logic_error` in a debug build and `out_of_range` in a release
build; it returns no result. -/
theorem findMatches_unregistered_counterexample :
    hasRegex (RegexMatchCache.empty : RegexMatchCache String String) "ca.*" = false ∧
    findMatches demoEnv RegexMatchCache.empty "ca.*" 0 = .error .logic_error ∧
    findMatches { demoEnv with kIsDebug := false } RegexMatchCache.empty "ca.*" 0 =
      .error .out_of_range :=
  ⟨by decide, rfl, rfl⟩

/-- Witness of the amended C16 on the cache with three strings. -/
theorem findMatches_unregistered_throws_witness :
    hasRegex demoStrings "ca.*" = false ∧
    (findMatches demoEnv demoStrings "ca.*" 0 =
        .error (if demoEnv.kIsDebug then .logic_error else .out_of_range) ∧
      next? demoEnv demoStrings (.findMatches "ca.*" 0) = some demoStrings) :=
  ⟨by decide, findMatches_unregistered_throws demoEnv demoStrings "ca.*" 0 (by decide)⟩

/-- Witness of C17 on the prepared cache, with `now = 5`. -/
theorem findMatches_ready_spec_witness :
    isReadyToFindMatches demoReady "ca.*" = true ∧
    ∃ c1 t, findMatches demoEnv demoReady "ca.*" 5 = .ok (matchesOf demoReady "ca.*", c1) ∧
      accessedAt demoReady "ca.*" = some t ∧ accessedAt c1 "ca.*" = some (max 5 t) :=
  ⟨by decide,
    (findMatches_ready_spec demoEnv demoReady "ca.*" 5 (by decide)).1.imp
      (fun _ h => h.imp (fun _ h1 => ⟨h1.1, h1.2.1, h1.2.2.1⟩))⟩

/-- C18 fails as stated: the engine compiles `"(a*)*b"`, yet
`findMatchesUncached` leaves with the error the engine raises when matching
the known string. -/
theorem findMatchesUncached_counterexample :
    demoEnvLimited.compile "(a*)*b" = true ∧
    getStringList demoLong = ["aaaaaaaaaaaaaaaaaaaaaaaaaaaaaaa"] ∧
    findMatchesUncached demoEnvLimited demoLong "(a*)*b" = .error .regex_error :=
  ⟨by decide, by decide, rfl⟩

/-- Witness of the amended C18 on the prepared cache, for `"ca.*"`. -/
theorem findMatchesUncached_spec_witness :
    demoEnv.compile "ca.*" = true ∧ Reachable demoEnv demoReady ∧
    isReadyToFindMatches demoReady "ca.*" = true ∧
    ∀ now, ∃ result cached c1, findMatchesUncached demoEnv demoReady "ca.*" = .ok result ∧
      findMatches demoEnv demoReady "ca.*" now = .ok (cached, c1) ∧
      (∀ s, s ∈ result ↔ s ∈ cached) ∧
      (∀ s, s ∈ result ↔ hasString demoReady s = true ∧ demoEnv.says "ca.*" s = true) :=
  ⟨by decide, demoReady_reachable, by decide,
    (findMatchesUncached_spec demoEnv demoReady "ca.*" (by decide)).2 demoReady_reachable
      (by decide)⟩

/-- Witness of C19 on the prepared cache, for `"ca.*"` and `"cat"`. -/
theorem redundant_calls_are_noops_witness :
    Reachable demoEnv demoReady ∧ hasRegex demoReady "ca.*" = true ∧
    hasString demoReady "cat" = true ∧
    addRegex demoEnv.epoch demoReady "ca.*" = .returned demoReady ∧
    addString demoReady "cat" = .returned demoReady :=
  ⟨demoReady_reachable, by decide, by decide,
    (redundant_calls_are_noops demoEnv demoReady "ca.*" "cat" demoReady_reachable).1
      (by decide),
    (redundant_calls_are_noops demoEnv demoReady "ca.*" "cat" demoReady_reachable).2.1
      (by decide)⟩

section Claims5

variable {R S : Type} [DecidableEq R] [DecidableEq S]

theorem addRegex_returns (E : Env R S) (c : RegexMatchCache R S) (p : R)
    (hc : Consistent E c) :
    ∃ c1, addRegex E.epoch c p = .returned c1 ∧ Consistent E c1 ∧ hasRegex c1 p = true := by
  cases hreg : hasRegex c p with
  | true =>
    have h1 : mapContains c.cacheRegexToMatch_ p = true := hreg
    refine ⟨c, ?_, hc, hreg⟩
    unfold addRegex
    simp [h1]
  | false =>
    obtain ⟨c1, h1, hrtm, _⟩ := addRegex_spec E E.epoch c p hc hreg
    refine ⟨c1, h1, addRegex_consistent E E.epoch c c1 p hc (by rw [h1]; rfl), ?_⟩
    unfold hasRegex
    rw [hrtm, mapContains_append_new]
    simp

theorem addString_returns (E : Env R S) (c : RegexMatchCache R S) (s : S)
    (hc : Consistent E c) :
    ∃ c1, addString c s = .returned c1 := by
  cases hreg : mapContains c.cacheMatchToRegex_ s with
  | true =>
    refine ⟨c, ?_⟩
    unfold addString
    simp [hreg]
  | false =>
    obtain ⟨c1, h1, _⟩ := addString_spec E c s hc hreg
    exact ⟨c1, h1⟩

theorem addRegex_never_throws (epoch : time_point) (c c1 : RegexMatchCache R S) (p : R) :
    addRegex epoch c p ≠ .threw c1 := by
  unfold addRegex
  intro h
  simp only at h
  split at h
  · cases h
  · split at h
    · cases h
    · split at h
      · cases h
      · cases h

theorem known_of_mem_prepareTargets (E : Env R S) (c : RegexMatchCache R S) (p : R) (s : S)
    (hc : Consistent E c) (h : s ∈ prepareTargets c p) : hasString c s = true := by
  rw [hasString_iff E c hc]
  unfold prepareTargets at h
  split at h
  · rw [← hc.queue_bidi] at h
    exact hc.queue_string s (mapContains_of_mem_look _ _ _ h)
  · exact (mapContains_iff_mem_keys _ _).2 h

/-- C21: in a reachable state, a call fails a `CHECK` exactly when it is
`prepareToFindMatches` of a pattern that is registered and ready, and no call
dereferences a missing entry: `addRegex`, `addString`, `eraseRegex`,
`eraseString` and `purge` return. For example `prepareToFindMatches` fails the
`CHECK` right after `addRegex` of a new pattern on a cache with no strings. -/
theorem only_ready_prepare_fails_check (E : Env R S) (c : RegexMatchCache R S) (op : Op R S)
    (hr : Reachable E c) :
    (run E c op = .checkFailed ↔
      ∃ p, op = .prepareToFindMatches p ∧ hasRegex c p = true ∧
        isReadyToFindMatches c p = true) ∧
    run E c op ≠ .badDeref ∧
    (∀ p, (prepareToFindMatches E c p = .checkFailed ↔
        hasRegex c p = true ∧ isReadyToFindMatches c p = true) ∧
      prepareToFindMatches E c p ≠ .badDeref) ∧
    (∀ p, ∃ c1, addRegex E.epoch c p = .returned c1) ∧
    (∀ s, ∃ c1, addString c s = .returned c1) ∧
    (∀ p, ∃ c1, eraseRegex c p = .returned c1) ∧
    (∀ s, ∃ c1, eraseString c s = .returned c1) ∧
    (∀ t, ∃ c1, purge c t = .returned c1) ∧
    (∀ p, hasRegex c p = false → (∀ s, hasString c s = false) →
      ∃ c1, addRegex E.epoch c p = .returned c1 ∧
        prepareToFindMatches E c1 p = .checkFailed) := by
  have hc := reachable_consistent E c hr
  have hready : ∀ (c0 : RegexMatchCache R S) (p : R), isReadyToFindMatches c0 p = true →
      hasRegex c0 p = true := by
    intro c0 p h
    unfold isReadyToFindMatches at h
    simp only [Bool.and_eq_true] at h
    exact h.1
  have hprep : ∀ p, (prepareToFindMatches E c p = .checkFailed ↔
        hasRegex c p = true ∧ isReadyToFindMatches c p = true) ∧
      prepareToFindMatches E c p ≠ .badDeref := by
    intro p
    obtain ⟨h1, h2⟩ := prepare_checkFailed_iff E c p hc
    exact ⟨⟨fun h => ⟨hready c p (h1.1 h), h1.1 h⟩, fun h => h1.2 h.2⟩, h2⟩
  have hadd : ∀ p, ∃ c1, addRegex E.epoch c p = .returned c1 := by
    intro p
    obtain ⟨c1, h1, _⟩ := addRegex_returns E c p hc
    exact ⟨c1, h1⟩
  have haddS : ∀ s, ∃ c1, addString c s = .returned c1 :=
    fun s => addString_returns E c s hc
  have hera : ∀ p, ∃ c1, eraseRegex c p = .returned c1 := by
    intro p
    obtain ⟨c1, h1, _⟩ := eraseRegex_full E c p hc
    exact ⟨c1, h1⟩
  have heraS : ∀ s, ∃ c1, eraseString c s = .returned c1 := by
    intro s
    obtain ⟨c1, h1, _⟩ := eraseString_spec E c s hc
    exact ⟨c1, h1⟩
  have hpur : ∀ t, ∃ c1, purge c t = .returned c1 := by
    intro t
    obtain ⟨c1, h1, _⟩ := purge_returns E c t hc
    exact ⟨c1, h1⟩
  refine ⟨?_, ?_, hprep, hadd, haddS, hera, heraS, hpur, ?_⟩
  · cases op with
    | addRegex p =>
      obtain ⟨c1, h1⟩ := hadd p
      simp [run, h1]
    | addString s =>
      obtain ⟨c1, h1⟩ := haddS s
      simp [run, h1]
    | eraseRegex p =>
      obtain ⟨c1, h1⟩ := hera p
      simp [run, h1]
    | eraseString s =>
      obtain ⟨c1, h1⟩ := heraS s
      simp [run, h1]
    | prepareToFindMatches p =>
      simp only [run, Op.prepareToFindMatches.injEq, exists_eq_left']
      exact (hprep p).1
    | findMatches p now =>
      simp only [run]
      cases findMatches E c p now with
      | error e => simp
      | ok v => simp
    | purge t =>
      obtain ⟨c1, h1⟩ := hpur t
      simp [run, h1]
    | repair => simp [run]
    | clear => simp [run]
  · cases op with
    | addRegex p =>
      obtain ⟨c1, h1⟩ := hadd p
      simp [run, h1]
    | addString s =>
      obtain ⟨c1, h1⟩ := haddS s
      simp [run, h1]
    | eraseRegex p =>
      obtain ⟨c1, h1⟩ := hera p
      simp [run, h1]
    | eraseString s =>
      obtain ⟨c1, h1⟩ := heraS s
      simp [run, h1]
    | prepareToFindMatches p =>
      simp only [run]
      exact (hprep p).2
    | findMatches p now =>
      simp only [run]
      cases findMatches E c p now with
      | error e => simp
      | ok v => simp
    | purge t =>
      obtain ⟨c1, h1⟩ := hpur t
      simp [run, h1]
    | repair => simp [run]
    | clear => simp [run]
  · intro p hnew hno
    obtain ⟨c1, h1, hrtm, hmtr, hcf, hcr, _⟩ := addRegex_spec E E.epoch c p hc hnew
    have hc1 : Consistent E c1 := addRegex_consistent E E.epoch c c1 p hc (by rw [h1]; rfl)
    refine ⟨c1, h1, (prepare_checkFailed_iff E c1 p hc1).1.2 ?_⟩
    have hno1 : ∀ s, mapContains c.cacheMatchToRegex_ s = false := by
      intro s
      rw [← hasString_iff E c hc]
      exact hno s
    have hemp : c.cacheMatchToRegex_.isEmpty = true := (isEmpty_iff_no_key _).2 hno1
    have hsqr : mapContains c.stringQueueReverse_ p = false := by
      cases h : mapContains c.stringQueueReverse_ p with
      | false => rfl
      | true =>
        have := hc.queue_regex p h
        have hnew1 : mapContains c.cacheRegexToMatch_ p = false := hnew
        rw [hnew1] at this
        exact absurd this (by simp)
    unfold isReadyToFindMatches
    rw [hrtm, mapContains_append_new, hcr, hemp, hsqr]
    simp

/-- C22: in a reachable state with no known string, `prepareToFindMatches` of
an unregistered pattern returns without running the engine, whether the
pattern compiles or not, and leaves it registered and ready with an empty match
set; `addRegex` never leaves with an exception, in any state, and registers an
unregistered pattern whether it compiles or not. For a pattern that does not
compile, `prepareToFindMatches` leaves with the error exactly when the pattern
is not ready and has a string to be evaluated on; known strings then exist and
the cache left is `repair` of the cache before, with no regex registered. -/
theorem compilation_deferred (E : Env R S) (c : RegexMatchCache R S) (p : R)
    (hr : Reachable E c) :
    ((∀ s, hasString c s = false) → hasRegex c p = false →
      ∃ c1, prepareToFindMatches E c p = .returned (c1, []) ∧
        hasRegex c1 p = true ∧ isReadyToFindMatches c1 p = true ∧ matchesOf c1 p = []) ∧
    (∀ (c0 c1 : RegexMatchCache R S) (q : R), addRegex E.epoch c0 q ≠ .threw c1) ∧
    (hasRegex c p = false →
      ∃ c1, addRegex E.epoch c p = .returned c1 ∧ hasRegex c1 p = true) ∧
    (E.compile p = false →
      ((∃ st, prepareToFindMatches E c p = .threw st) ↔
        isReadyToFindMatches c p = false ∧ prepareTargets c p ≠ []) ∧
      (∀ c1 evals, prepareToFindMatches E c p = .threw (c1, evals) →
        (∃ s, hasString c s = true) ∧ evals = [] ∧ c1 = repair c ∧
        ∀ r, hasRegex c1 r = false)) := by
  have hc := reachable_consistent E c hr
  refine ⟨?_, ?_, ?_, ?_⟩
  · intro hno hnew
    have hnew1 : mapContains c.cacheRegexToMatch_ p = false := hnew
    have hno1 : ∀ s, mapContains c.cacheMatchToRegex_ s = false := by
      intro s
      rw [← hasString_iff E c hc]
      exact hno s
    have hP : prepareTargets c p = [] := by
      unfold prepareTargets
      rw [hnew1]
      simp only [Bool.false_eq_true, ↓reduceIte]
      rw [List.eq_nil_iff_forall_not_mem]
      intro s hs
      have := (mapContains_iff_mem_keys _ _).2 hs
      rw [hno1 s] at this
      exact absurd this (by simp)
    have hnr : isReadyToFindMatches c p = false := by
      unfold isReadyToFindMatches
      rw [hnew1]
      rfl
    obtain ⟨c1, h1⟩ := prepare_returns E c p hc hnr (fun h => absurd hP h)
      (by rw [hP]; intro s hs; simp at hs)
    rw [hP] at h1
    obtain ⟨_, _, _, _, hrtm, _, hsqr, _, _, _, _, hm, _⟩ := prepare_returned E c c1 p [] hc h1
    have hreg1 : mapContains c1.cacheRegexToMatch_ p = true := by rw [hrtm]; simp
    refine ⟨c1, h1, hreg1, ?_, ?_⟩
    · unfold isReadyToFindMatches
      rw [hreg1, hsqr, mapContains_mapErase]
      simp
    · rw [List.eq_nil_iff_forall_not_mem]
      intro s hs
      rw [hm, hP] at hs
      have hm0 : matchesOf c p = [] := by
        unfold matchesOf
        rw [(mapContains_false_iff _ _).1 hnew1]
      rw [hm0] at hs
      simp at hs
  · intro c0 c1 q
    exact addRegex_never_throws E.epoch c0 c1 q
  · intro hnew
    obtain ⟨c1, h1, _, h2⟩ := addRegex_returns E c p hc
    exact ⟨c1, h1, h2⟩
  · intro hcomp
    refine ⟨⟨?_, ?_⟩, ?_⟩
    · rintro ⟨⟨c1, evals⟩, h⟩
      obtain ⟨_, j2, j3, _⟩ := prepare_threw E c c1 p evals hc h
      exact ⟨j2, j3⟩
    · rintro ⟨hnr, hne⟩
      cases ho : prepareToFindMatches E c p with
      | returned st =>
        obtain ⟨c1, evals⟩ := st
        obtain ⟨_, _, j3, _⟩ := prepare_returned E c c1 p evals hc ho
        rw [j3 hne] at hcomp
        exact absurd hcomp (by simp)
      | threw st => exact ⟨st, rfl⟩
      | checkFailed =>
        have := (prepare_checkFailed_iff E c p hc).1.1 ho
        rw [hnr] at this
        exact absurd this (by simp)
      | badDeref =>
        exact absurd ho (prepare_checkFailed_iff E c p hc).2
    · intro c1 evals h
      obtain ⟨j1, _, j3, j4⟩ := prepare_threw E c c1 p evals hc h
      obtain ⟨s, hs⟩ := List.exists_mem_of_ne_nil _ j3
      refine ⟨⟨s, known_of_mem_prepareTargets E c p s hc hs⟩, ?_, j1, ?_⟩
      · rcases j4 with ⟨_, h2⟩ | ⟨h1, _⟩
        · exact h2
        · rw [hcomp] at h1
          exact absurd h1 (by simp)
      · intro r
        rw [j1]
        simp [hasRegex, repair, mapContains]

end Claims5

/-- Witness of C21 on the prepared cache: `prepareToFindMatches` of the ready
`"ca.*"` fails the `CHECK`. -/
theorem only_ready_prepare_fails_check_witness :
    Reachable demoEnv demoReady ∧
    (run demoEnv demoReady (.prepareToFindMatches "ca.*") = .checkFailed ↔
      ∃ p, Op.prepareToFindMatches "ca.*" = (.prepareToFindMatches p : Op String String) ∧
        hasRegex demoReady p = true ∧ isReadyToFindMatches demoReady p = true) ∧
    run demoEnv demoReady (.prepareToFindMatches "ca.*") = .checkFailed :=
  ⟨demoReady_reachable,
    (only_ready_prepare_fails_check demoEnv demoReady (.prepareToFindMatches "ca.*")
      demoReady_reachable).1,
    by decide⟩

/-- Witness of C22: the pattern `"("` does not compile; on the empty cache
`prepareToFindMatches` registers it, and on the cache where it is queued on
`"cat"` the call leaves with the error and the repaired cache. -/
theorem compilation_deferred_witness :
    demoEnv.compile "(" = false ∧
    (∃ c1, prepareToFindMatches demoEnv RegexMatchCache.empty "(" = .returned (c1, []) ∧
      hasRegex c1 "(" = true ∧ isReadyToFindMatches c1 "(" = true ∧ matchesOf c1 "(" = []) ∧
    Reachable demoEnv demoBroken ∧
    prepareToFindMatches demoEnv demoBroken "(" = .threw (repair demoBroken, []) ∧
    ((∃ st, prepareToFindMatches demoEnv demoBroken "(" = .threw st) ↔
      isReadyToFindMatches demoBroken "(" = false ∧ prepareTargets demoBroken "(" ≠ []) :=
  ⟨by decide,
    (compilation_deferred demoEnv RegexMatchCache.empty "(" Reachable.init).1
      (fun _ => rfl) (by decide),
    demoBroken_reachable, by decide,
    ((compilation_deferred demoEnv demoBroken "(" demoBroken_reachable).2.2.2 (by decide)).1⟩

end folly
